import Mathlib

/-!
giskard_core: `Robot` (include/giskard_core/robot.hpp)

A shallow embedding of the `Robot` class: chain resolution over the kinematic
tree, the joint-variable registry, construction of forward-kinematics
specifications and the synthesis of controllable and hard constraints.

Conventions of the embedding.

* A `double` is a finite value, an infinity or NaN (`Double`). Finite values are
  rationals; the code only compares and negates doubles, which is exact. A
  comparison with NaN is false. Sums of finite values, used only to evaluate
  expressions, are not rounded.
* `std::map` is a list of key/value entries kept in ascending key order,
  `find` is a lookup and `insert` leaves the map alone when the key is present.
* A `shared_ptr` is an `Option`; dereferencing an empty one is `Outcome.undefined`.
* A `throw std::runtime_error(msg)` is `Outcome.error msg`.
* The `while` loop of `chain_joint_names` runs on fuel; running out of fuel is
  `Outcome.timeout`.
-/

namespace giskard_core

/-! ## Results of a call -/

/-- Result of running a piece of the program. -/
inductive Outcome (α : Type) where
  | ok (value : α)
  | error (what : String)
  | undefined
  | timeout
  deriving DecidableEq

/-- Sequencing: the rest of the code runs only after a normal return. -/
def Outcome.bind {α β : Type} : Outcome α → (α → Outcome β) → Outcome β
  | .ok a, f => f a
  | .error e, _ => .error e
  | .undefined, _ => .undefined
  | .timeout, _ => .timeout

/-- Normal return, as a test. -/
def Outcome.isOk {α : Type} : Outcome α → Bool
  | .ok _ => true
  | _ => false

/-! ## `double` -/

/-- A `double`: a finite value, an infinity, or NaN. -/
inductive Double where
  | finite (value : ℚ)
  | posInf
  | negInf
  | nan
  deriving DecidableEq

/-- `a < b` on doubles: false when an operand is NaN. -/
def Double.lt : Double → Double → Bool
  | .finite a, .finite b => decide (a < b)
  | .finite _, .posInf => true
  | .negInf, .finite _ => true
  | .negInf, .posInf => true
  | _, _ => false

/-- `a <= b` on doubles: false when an operand is NaN. -/
def Double.le : Double → Double → Bool
  | .finite a, .finite b => decide (a ≤ b)
  | .finite _, .posInf => true
  | .negInf, .finite _ => true
  | .negInf, .posInf => true
  | .negInf, .negInf => true
  | .posInf, .posInf => true
  | _, _ => false

instance : LT Double := ⟨fun a b => Double.lt a b = true⟩

instance : LE Double := ⟨fun a b => Double.le a b = true⟩

instance (a b : Double) : Decidable (a < b) := decEq (Double.lt a b) true

instance (a b : Double) : Decidable (a ≤ b) := decEq (Double.le a b) true

/-- `-a` on doubles. -/
def Double.neg : Double → Double
  | .finite a => .finite (-a)
  | .posInf => .negInf
  | .negInf => .posInf
  | .nan => .nan

instance : Neg Double := ⟨Double.neg⟩

/-- `a + b` on doubles, exact on finite values. -/
def Double.add : Double → Double → Double
  | .finite a, .finite b => .finite (a + b)
  | .nan, _ => .nan
  | _, .nan => .nan
  | .posInf, .negInf => .nan
  | .negInf, .posInf => .nan
  | .posInf, _ => .posInf
  | _, .posInf => .posInf
  | .negInf, _ => .negInf
  | _, .negInf => .negInf

instance : Add Double := ⟨Double.add⟩

instance : Sub Double := ⟨fun a b => Double.add a (Double.neg b)⟩

instance : Zero Double := ⟨.finite 0⟩

instance (n : Nat) : OfNat Double n := ⟨.finite n⟩

/-! ## `std::map` -/

/-- The strict order `std::less<K>` of the key type of a `std::map`. -/
class StdLess (K : Type) where
  less : K → K → Bool

/-- `std::less<std::string>`: lexicographic comparison. -/
instance : StdLess String := ⟨fun a b => decide (a < b)⟩

/-- `operator<` of `std::pair<std::string, std::string>`. -/
instance : StdLess (String × String) :=
  ⟨fun x y => decide (x.1 < y.1) || (!decide (y.1 < x.1) && decide (x.2 < y.2))⟩

/-- `std::map<K, V>`: the entries, in iteration order. -/
abbrev StdMap (K V : Type) := List (K × V)

/-- `m.find(k)`: `none` for `m.end()`, else the mapped value (`->second`). -/
def StdMap.find {K V : Type} [DecidableEq K] : StdMap K V → K → Option V
  | [], _ => none
  | (k', v) :: m, k => if k' = k then some v else StdMap.find m k

/-- Position of a new entry: in front of the first entry with a greater key. -/
def StdMap.place {K V : Type} [StdLess K] : StdMap K V → K → V → StdMap K V
  | [], k, v => [(k, v)]
  | (k', v') :: m, k, v =>
    if StdLess.less k k' then (k, v) :: (k', v') :: m
    else (k', v') :: StdMap.place m k v

/-- `m.insert(std::make_pair(k, v))`: no effect when `k` is already a key,
otherwise the entry is placed at its position in key order. -/
def StdMap.insert {K V : Type} [DecidableEq K] [StdLess K] (m : StdMap K V) (k : K) (v : V) :
    StdMap K V :=
  match StdMap.find m k with
  | some _ => m
  | none => StdMap.place m k v

/-- `m.size()`. -/
def StdMap.size {K V : Type} (m : StdMap K V) : Nat := m.length

/-! ## The kinematic tree (`urdf::Model`) -/

structure Vector3 where
  x : Double
  y : Double
  z : Double
  deriving DecidableEq

structure Rotation where
  x : Double
  y : Double
  z : Double
  w : Double
  deriving DecidableEq

structure Pose where
  position : Vector3
  rotation : Rotation
  deriving DecidableEq

structure JointLimits where
  lower : Double
  upper : Double
  effort : Double
  velocity : Double
  deriving DecidableEq

/-- Modelled from the spec: the joint type enumeration of `urdf::Joint`, declared
in `urdf_model` and not part of the sources (fixed, prismatic, revolute,
continuous, planar, floating, unknown). `UNRECOGNISED` stands for any value that
is none of the enumerators. -/
inductive JointType where
  | UNKNOWN
  | REVOLUTE
  | CONTINUOUS
  | PRISMATIC
  | FLOATING
  | PLANAR
  | FIXED
  | UNRECOGNISED
  deriving DecidableEq

/-- Fields of `urdf::Joint` read by `Robot`. -/
structure Joint where
  name : String
  type : JointType
  axis : Vector3
  parent_to_joint_origin_transform : Pose
  limits : Option JointLimits
  deriving DecidableEq

/-- Fields of `urdf::Link` read by `Robot`. -/
structure Link where
  name : String
  parent_joint : Option Joint
  deriving DecidableEq

/-- Fields of `urdf::Model` read by `Robot`. -/
structure Model where
  links_ : StdMap String (Option Link)
  joints_ : StdMap String (Option Joint)
  deriving DecidableEq

/-- `urdf::Model::getJoint`: the joint stored under `name`, an empty pointer when
there is none. -/
def Model.getJoint (m : Model) (name : String) : Option Joint :=
  match StdMap.find m.joints_ name with
  | some j => j
  | none => none

/-! ## Specifications (`giskard_core/specifications.hpp`) -/

/-- `DoubleInputSpec`: a named scalar input variable, identified by its index. -/
structure DoubleInputSpec where
  input_num_ : Nat
  deriving DecidableEq

/-- `input(n)`. -/
def input (n : Nat) : DoubleInputSpec := ⟨n⟩

/-- `get_input_num()`. -/
def DoubleInputSpec.get_input_num (s : DoubleInputSpec) : Nat := s.input_num_

/-- Modelled from the spec: the scalar expressions of the expression algebra
(`specifications.hpp` is not part of the sources): constants, input variables
and scalar subtraction. -/
inductive DoubleSpec where
  | const (value : Double)
  | input (s : DoubleInputSpec)
  | sub (inputs : List DoubleSpec)

mutual
/-- Equality of scalar expressions is decidable. -/
def DoubleSpec.decEq : (a b : DoubleSpec) → Decidable (a = b)
  | .const v, .const w =>
    if h : v = w then isTrue (by rw [h]) else isFalse (by intro e; cases e; exact h rfl)
  | .input s, .input t =>
    if h : s = t then isTrue (by rw [h]) else isFalse (by intro e; cases e; exact h rfl)
  | .sub xs, .sub ys =>
    match DoubleSpec.decEqList xs ys with
    | isTrue h => isTrue (by rw [h])
    | isFalse h => isFalse (by intro e; cases e; exact h rfl)
  | .const _, .input _ => isFalse (by intro e; cases e)
  | .const _, .sub _ => isFalse (by intro e; cases e)
  | .input _, .const _ => isFalse (by intro e; cases e)
  | .input _, .sub _ => isFalse (by intro e; cases e)
  | .sub _, .const _ => isFalse (by intro e; cases e)
  | .sub _, .input _ => isFalse (by intro e; cases e)
/-- Equality of lists of scalar expressions is decidable. -/
def DoubleSpec.decEqList : (as bs : List DoubleSpec) → Decidable (as = bs)
  | [], [] => isTrue rfl
  | [], _ :: _ => isFalse (by intro e; cases e)
  | _ :: _, [] => isFalse (by intro e; cases e)
  | a :: as, b :: bs =>
    match DoubleSpec.decEq a b, DoubleSpec.decEqList as bs with
    | isTrue h1, isTrue h2 => isTrue (by rw [h1, h2])
    | isFalse h1, _ => isFalse (by intro e; cases e; exact h1 rfl)
    | _, isFalse h2 => isFalse (by intro e; cases e; exact h2 rfl)
end

instance : DecidableEq DoubleSpec := DoubleSpec.decEq

/-- Modelled from the spec: vector expressions: constructor from three scalars
and vector-scalar multiplication. -/
inductive VectorSpec where
  | constructor (x y z : DoubleSpec)
  | double_mul (v : VectorSpec) (d : DoubleSpec)
  deriving DecidableEq

/-- Modelled from the spec: rotation expressions: quaternion constants and
axis-angle rotations. -/
inductive RotationSpec where
  | quaternion (x y z w : Double)
  | axis_angle (axis : VectorSpec) (angle : DoubleSpec)
  deriving DecidableEq

/-- Modelled from the spec: frame expressions: constructor from a translation
and a rotation, frame multiplication, and the memoizing wrapper. -/
inductive FrameSpec where
  | constructor (translation : VectorSpec) (rotation : RotationSpec)
  | multiplication (inputs : List FrameSpec)
  | cached (frame : FrameSpec)

mutual
/-- Equality of frame expressions is decidable. -/
def FrameSpec.decEq : (a b : FrameSpec) → Decidable (a = b)
  | .constructor t r, .constructor t' r' =>
    if h : t = t' ∧ r = r' then isTrue (by rw [h.1, h.2])
    else isFalse (by intro e; cases e; exact h ⟨rfl, rfl⟩)
  | .multiplication xs, .multiplication ys =>
    match FrameSpec.decEqList xs ys with
    | isTrue h => isTrue (by rw [h])
    | isFalse h => isFalse (by intro e; cases e; exact h rfl)
  | .cached f, .cached g =>
    match FrameSpec.decEq f g with
    | isTrue h => isTrue (by rw [h])
    | isFalse h => isFalse (by intro e; cases e; exact h rfl)
  | .constructor _ _, .multiplication _ => isFalse (by intro e; cases e)
  | .constructor _ _, .cached _ => isFalse (by intro e; cases e)
  | .multiplication _, .constructor _ _ => isFalse (by intro e; cases e)
  | .multiplication _, .cached _ => isFalse (by intro e; cases e)
  | .cached _, .constructor _ _ => isFalse (by intro e; cases e)
  | .cached _, .multiplication _ => isFalse (by intro e; cases e)
/-- Equality of lists of frame expressions is decidable. -/
def FrameSpec.decEqList : (as bs : List FrameSpec) → Decidable (as = bs)
  | [], [] => isTrue rfl
  | [], _ :: _ => isFalse (by intro e; cases e)
  | _ :: _, [] => isFalse (by intro e; cases e)
  | a :: as, b :: bs =>
    match FrameSpec.decEq a b, FrameSpec.decEqList as bs with
    | isTrue h1, isTrue h2 => isTrue (by rw [h1, h2])
    | isFalse h1, _ => isFalse (by intro e; cases e; exact h1 rfl)
    | _, isFalse h2 => isFalse (by intro e; cases e; exact h2 rfl)
end

instance : DecidableEq FrameSpec := FrameSpec.decEq

def double_const_spec (v : Double) : DoubleSpec := .const v

def double_sub_spec (inputs : List DoubleSpec) : DoubleSpec := .sub inputs

def vector_constructor_spec (x y z : DoubleSpec) : VectorSpec := .constructor x y z

/-- `vector_constructor_spec()` with its default arguments: the zero vector. -/
def vector_constructor_spec_default : VectorSpec :=
  vector_constructor_spec (double_const_spec 0) (double_const_spec 0) (double_const_spec 0)

def vector_double_mul (v : VectorSpec) (d : DoubleSpec) : VectorSpec := .double_mul v d

def quaternion_spec (x y z w : Double) : RotationSpec := .quaternion x y z w

def axis_angle_spec (axis : VectorSpec) (angle : DoubleSpec) : RotationSpec :=
  .axis_angle axis angle

def frame_constructor_spec (t : VectorSpec) (r : RotationSpec) : FrameSpec := .constructor t r

/-- `frame_constructor_spec(t)`: the rotation defaults to the identity quaternion. -/
def frame_constructor_spec_translation (t : VectorSpec) : FrameSpec :=
  frame_constructor_spec t (quaternion_spec 0 0 0 1)

/-- `frame_constructor_spec()`: the identity frame. -/
def frame_constructor_spec_default : FrameSpec :=
  frame_constructor_spec vector_constructor_spec_default (quaternion_spec 0 0 0 1)

def frame_multiplication_spec (inputs : List FrameSpec) : FrameSpec := .multiplication inputs

def cached_frame (f : FrameSpec) : FrameSpec := .cached f

/-- `ControllableConstraintSpec`. -/
structure ControllableConstraintSpec where
  lower_ : DoubleSpec
  upper_ : DoubleSpec
  weight_ : DoubleSpec
  input_number_ : Nat
  name_ : String
  deriving DecidableEq

/-- `HardConstraintSpec`. -/
structure HardConstraintSpec where
  expression_ : DoubleSpec
  lower_ : DoubleSpec
  upper_ : DoubleSpec
  deriving DecidableEq

/-- `ScopeEntry(name, spec)`. -/
structure ScopeEntry where
  name : String
  spec : FrameSpec
  deriving DecidableEq

def to_vector_spec (vector : Vector3) : VectorSpec :=
  vector_constructor_spec (double_const_spec vector.x) (double_const_spec vector.y)
    (double_const_spec vector.z)

def to_quaternion_spec (rot : Rotation) : RotationSpec :=
  quaternion_spec rot.x rot.y rot.z rot.w

def to_frame_spec (pose : Pose) : FrameSpec :=
  frame_constructor_spec (to_vector_spec pose.position) (to_quaternion_spec pose.rotation)

/-! ## `class Robot` -/

/-- The data members of `Robot`. -/
structure Robot where
  robot_model_ : Model
  parent_link_tree_ : StdMap String String
  fk_map_ : StdMap (String × String) FrameSpec
  controllable_map_ : StdMap String ControllableConstraintSpec
  hard_map_ : StdMap String HardConstraintSpec
  joint_map_ : StdMap String DoubleInputSpec
  weights_ : StdMap String Double
  thresholds_ : StdMap String Double
  root_link_ : String
  deriving DecidableEq

namespace Robot

def default_joint_weight_key : String := "default_joint_weight"

def default_joint_velocity_key : String := "default_joint_velocity"

/-- `get_joint`. -/
def get_joint (r : Robot) (joint_name : String) : Outcome DoubleInputSpec :=
  match StdMap.find r.joint_map_ joint_name with
  | none => .error ("Could not find joint with name '" ++ joint_name ++ "'.")
  | some s => .ok s

/-- `get_number_of_joints`. -/
def get_number_of_joints (r : Robot) : Nat := StdMap.size r.joint_map_

/-- The `while` loop of `chain_joint_names`: `current_link_name` walks from the
tip towards the root, `chain_joints` collects the joint names; the collected
names are reversed on leaving the loop. -/
def chain_joint_names_loop (r : Robot) (root : String) (add_fixed_joints : Bool) :
    Nat → String → List String → Outcome (List String)
  | 0, current_link_name, chain_joints =>
    if current_link_name = root then .ok chain_joints.reverse else .timeout
  | fuel + 1, current_link_name, chain_joints =>
    if current_link_name = root then .ok chain_joints.reverse
    else
      match StdMap.find r.robot_model_.links_ current_link_name with
      | none => .error ("Could not find link with name '" ++ current_link_name ++ "'.")
      | some none =>
        .error ("Link associated with name '" ++ current_link_name ++ "' is an empty shared_ptr.")
      | some (some link) =>
        match link.parent_joint with
        | none =>
          .error ("Parent joint of link with name '" ++ current_link_name
            ++ "' is an empty shared_ptr.")
        | some parent_joint =>
          let chain_joints' :=
            if add_fixed_joints || decide (parent_joint.type ≠ JointType.FIXED)
            then chain_joints ++ [parent_joint.name] else chain_joints
          match StdMap.find r.parent_link_tree_ current_link_name with
          | none =>
            .error ("Could not find parent link of link with name '" ++ current_link_name ++ "'.")
          | some parent => chain_joint_names_loop r root add_fixed_joints fuel parent chain_joints'

/-- `chain_joint_names(root, tip, add_fixed_joints)`. -/
def chain_joint_names (fuel : Nat) (r : Robot) (root tip : String) (add_fixed_joints : Bool) :
    Outcome (List String) :=
  chain_joint_names_loop r root add_fixed_joints fuel tip []

/-- `get_velocity_limit`. -/
def get_velocity_limit (r : Robot) (joint_name : String) : Outcome Double :=
  match r.robot_model_.getJoint joint_name with
  | none => .undefined
  | some joint =>
    match joint.limits with
    | none => .undefined
    | some limits =>
      let urdf_limit := limits.velocity
      let result :=
        match StdMap.find r.thresholds_ joint_name with
        | some t => t
        | none =>
          match StdMap.find r.thresholds_ default_joint_velocity_key with
          | some t => t
          | none => urdf_limit
      if result > urdf_limit then
        .error ("Came up with velocity limit faster than limit from URDF for joint '"
          ++ joint_name ++ "'.")
      else .ok result

/-- `get_weight`. -/
def get_weight (r : Robot) (joint_name : String) : Outcome Double :=
  let resolved : Outcome Double :=
    match StdMap.find r.weights_ joint_name with
    | some w => .ok w
    | none =>
      match StdMap.find r.weights_ default_joint_weight_key with
      | some w => .ok w
      | none => .error ("Could not find weight for joint '" ++ joint_name ++ "'.")
  resolved.bind fun result =>
    if result < 0 then
      .error ("Came up with a joint weight below zero for joint '" ++ joint_name ++ "'.")
    else .ok result

/-- `extract_joint_transforms`. -/
def extract_joint_transforms (r : Robot) (joint : Option Joint) : Outcome (List FrameSpec) :=
  match joint with
  | none => .error "Given joint is an empty shared_ptr."
  | some joint =>
    let frame_specs := [to_frame_spec joint.parent_to_joint_origin_transform]
    match joint.type with
    | .FIXED => .ok frame_specs
    | .PRISMATIC =>
      (get_joint r joint.name).bind fun q =>
        .ok (frame_specs ++ [frame_constructor_spec_translation
          (vector_double_mul (to_vector_spec joint.axis) (.input q))])
    | .REVOLUTE | .CONTINUOUS =>
      (get_joint r joint.name).bind fun q =>
        .ok (frame_specs ++ [frame_constructor_spec vector_constructor_spec_default
          (axis_angle_spec (to_vector_spec joint.axis) (.input q))])
    | .PLANAR | .FLOATING | .UNKNOWN =>
      .error ("Joint with name '" ++ joint.name ++ "' has unsupported type.")
    | .UNRECOGNISED => .error ("Joint with name '" ++ joint.name ++ "' has unmodeled type.")

/-- First loop of `init_kinematic_chain`: create and add input expressions for
new moveable joints. -/
def init_joint_inputs : List String → Robot → Robot
  | [], r => r
  | name :: names, r =>
    match StdMap.find r.joint_map_ name with
    | none =>
      init_joint_inputs names
        { r with joint_map_ := StdMap.insert r.joint_map_ name (input (StdMap.size r.joint_map_)) }
    | some _ => init_joint_inputs names r

/-- Second loop of `init_kinematic_chain`: collect the transforms of all joints
of the chain behind the transforms collected so far. -/
def init_joint_transforms (r : Robot) : List String → List FrameSpec → Outcome (List FrameSpec)
  | [], joint_transforms => .ok joint_transforms
  | name :: names, joint_transforms =>
    match StdMap.find r.robot_model_.joints_ name with
    | none => .error ("Could not find joint with name '" ++ name ++ "'.")
    | some joint =>
      (extract_joint_transforms r joint).bind fun new_transforms =>
        init_joint_transforms r names (joint_transforms ++ new_transforms)

/-- Third loop of `init_kinematic_chain`: create and add new controllable
constraints. -/
def init_controllable_constraints : List String → Robot → Outcome Robot
  | [], r => .ok r
  | name :: names, r =>
    match StdMap.find r.controllable_map_ name with
    | some _ => init_controllable_constraints names r
    | none =>
      (get_joint r name).bind fun q =>
      (get_weight r name).bind fun weight =>
      (get_velocity_limit r name).bind fun vel_limit =>
        let spec : ControllableConstraintSpec :=
          { name_ := name
            input_number_ := q.get_input_num
            weight_ := double_const_spec weight
            lower_ := double_const_spec (-vel_limit)
            upper_ := double_const_spec vel_limit }
        init_controllable_constraints names
          { r with controllable_map_ := StdMap.insert r.controllable_map_ name spec }

/-- Fourth loop of `init_kinematic_chain`: create and add new hard constraints. -/
def init_hard_constraints : List String → Robot → Outcome Robot
  | [], r => .ok r
  | name :: names, r =>
    match StdMap.find r.hard_map_ name with
    | some _ => init_hard_constraints names r
    | none =>
      match StdMap.find r.robot_model_.joints_ name with
      | none => .error ("Could not find joint with name '" ++ name ++ "'.")
      | some none => .undefined
      | some (some joint) =>
        if joint.type = JointType.REVOLUTE ∨ joint.type = JointType.PRISMATIC then
          (get_joint r name).bind fun q =>
            match joint.limits with
            | none => .undefined
            | some limits =>
              let spec : HardConstraintSpec :=
                { expression_ := .input q
                  lower_ := double_sub_spec [double_const_spec limits.lower, .input q]
                  upper_ := double_sub_spec [double_const_spec limits.upper, .input q] }
              init_hard_constraints names { r with hard_map_ := StdMap.insert r.hard_map_ name spec }
        else init_hard_constraints names r

/-- `init_kinematic_chain(root, tip)`, as a function of the state of the robot. -/
def init_kinematic_chain (fuel : Nat) (r : Robot) (root tip : String) : Outcome Robot :=
  (chain_joint_names fuel r root tip false).bind fun moveable_joints_names =>
  (chain_joint_names fuel r root tip true).bind fun all_joints_names =>
    let r1 := init_joint_inputs moveable_joints_names r
    (init_joint_transforms r1 all_joints_names [frame_constructor_spec_default]).bind
      fun joint_transforms =>
        let fk := cached_frame (frame_multiplication_spec joint_transforms)
        let r2 := { r1 with fk_map_ := StdMap.insert r1.fk_map_ (root, tip) fk }
        (init_controllable_constraints moveable_joints_names r2).bind fun r3 =>
          init_hard_constraints moveable_joints_names r3

/-- The member initialisers of both constructors. `parent_link_tree` is what
`robot_model_.initTree` (of `urdf_model`) stores in `parent_link_tree_`, and
`robot_model` is the model as that call leaves it. -/
def initial (robot_model : Model) (parent_link_tree : StdMap String String)
    (root_link : String) (weights thresholds : StdMap String Double) : Robot :=
  { robot_model_ := robot_model
    parent_link_tree_ := parent_link_tree
    fk_map_ := []
    controllable_map_ := []
    hard_map_ := []
    joint_map_ := []
    weights_ := weights
    thresholds_ := thresholds
    root_link_ := root_link }

/-- The loop `for (auto const & chain: chain_links) init_kinematic_chain(...)`. -/
def init_chains (fuel : Nat) : List (String × String) → Robot → Outcome Robot
  | [], r => .ok r
  | chain :: chains, r =>
    (init_kinematic_chain fuel r chain.1 chain.2).bind fun r1 => init_chains fuel chains r1

/-- The loop `for (i < tip_links.size()) init_kinematic_chain(root_link, tip_links[i])`. -/
def init_tips (fuel : Nat) (root_link : String) : List String → Robot → Outcome Robot
  | [], r => .ok r
  | tip :: tips, r =>
    (init_kinematic_chain fuel r root_link tip).bind fun r1 => init_tips fuel root_link tips r1

/-- Constructor `Robot(robot_model, root_link, tip_links, weights, thresholds)`. -/
def from_tip_links (fuel : Nat) (robot_model : Model) (parent_link_tree : StdMap String String)
    (root_link : String) (tip_links : List String) (weights thresholds : StdMap String Double) :
    Outcome Robot :=
  init_tips fuel root_link tip_links
    (initial robot_model parent_link_tree root_link weights thresholds)

/-- Constructor `Robot(robot_model, root_link, chain_links, weights, thresholds)`. -/
def from_chain_links (fuel : Nat) (robot_model : Model) (parent_link_tree : StdMap String String)
    (root_link : String) (chain_links : List (String × String))
    (weights thresholds : StdMap String Double) : Outcome Robot :=
  init_chains fuel chain_links
    (initial robot_model parent_link_tree root_link weights thresholds)

/-- A robot object exists: one of the two constructors returned it. -/
def Constructed (r : Robot) : Prop :=
  (∃ fuel robot_model parent_link_tree root_link tip_links weights thresholds,
    from_tip_links fuel robot_model parent_link_tree root_link tip_links weights thresholds
      = .ok r) ∨
  (∃ fuel robot_model parent_link_tree root_link chain_links weights thresholds,
    from_chain_links fuel robot_model parent_link_tree root_link chain_links weights thresholds
      = .ok r)

/-- `get_fk_spec(chain_links)`. -/
def get_fk_spec (r : Robot) (chain_links : String × String) : Outcome FrameSpec :=
  match StdMap.find r.fk_map_ chain_links with
  | none =>
    .error ("Could not find fk specification for chain ('" ++ chain_links.1 ++ ", "
      ++ chain_links.2 ++ ").")
  | some spec => .ok spec

/-- `std::sort(first, last, comp)`: the elements in an order in which no element
comes after one it is `comp`-less than. -/
def std_sort {α : Type} (comp : α → α → Bool) (l : List α) : List α :=
  l.insertionSort (fun a b => comp b a = false)

/-- `get_controllable_constraints`. -/
def get_controllable_constraints (r : Robot) : List ControllableConstraintSpec :=
  std_sort (fun a b => decide (a.input_number_ < b.input_number_))
    (r.controllable_map_.map fun pair => pair.2)

/-- `get_hard_constraints`. -/
def get_hard_constraints (r : Robot) : List HardConstraintSpec :=
  r.hard_map_.map fun pair => pair.2

/-- `get_scope`. -/
def get_scope (r : Robot) : List ScopeEntry :=
  r.fk_map_.map fun fk_entry => ScopeEntry.mk fk_entry.1.2 fk_entry.2

end Robot

/-! ## Notions used in the statements -/

/-- Ascending key order of a map with string keys. -/
def StdMap.Ascending {V : Type} (m : StdMap String V) : Prop :=
  m.Pairwise fun a b => a.1 < b.1

/-- The walk of `chain_joint_names` from `current` up to `root`: `joints` are the
parent joints of the links visited before `root`, the one of `current` first. -/
def IsWalk (r : Robot) (root : String) : String → List Joint → Prop
  | current, [] => current = root
  | current, joint :: joints =>
    current ≠ root ∧ ∃ link parent,
      StdMap.find r.robot_model_.links_ current = some (some link) ∧
      link.parent_joint = some joint ∧
      StdMap.find r.parent_link_tree_ current = some parent ∧
      IsWalk r root parent joints

/-- Names pushed by the loop of `chain_joint_names` for the joints of a walk. -/
def pushed_names (add_fixed_joints : Bool) (joints : List Joint) : List String :=
  (joints.filter fun j => add_fixed_joints || decide (j.type ≠ JointType.FIXED)).map (·.name)

/-- Each name once, in the order of the first occurrences. -/
def firstOccurrences : List String → List String
  | [] => []
  | name :: names => name :: (firstOccurrences names).filter (fun other => other ≠ name)

/-- The names of `names` that are no keys of `m`, each once, in the order of
their first occurrences. -/
def newNames {V : Type} (m : StdMap String V) (names : List String) : List String :=
  firstOccurrences (names.filter fun name => (StdMap.find m name).isNone)

/-! ## A small robot

A base link carrying a serial chain: revolute joint `b`, prismatic joint `a`,
fixed joint `f`, continuous joint `c`. -/

namespace Example

def origin : Pose := ⟨⟨0, 0, 0⟩, ⟨0, 0, 0, 1⟩⟩

def joint_b : Joint := ⟨"b", .REVOLUTE, ⟨0, 0, 1⟩, origin, some ⟨-1, 1, 0, 2⟩⟩

def joint_a : Joint := ⟨"a", .PRISMATIC, ⟨1, 0, 0⟩, origin, some ⟨0, .finite (1 / 2), 0, 3⟩⟩

def joint_f : Joint := ⟨"f", .FIXED, ⟨0, 0, 0⟩, origin, none⟩

def joint_c : Joint := ⟨"c", .CONTINUOUS, ⟨0, 1, 0⟩, origin, some ⟨0, 0, 0, 1⟩⟩

def model : Model :=
  { links_ :=
      [("base", some ⟨"base", none⟩), ("l1", some ⟨"l1", some joint_b⟩),
       ("l2", some ⟨"l2", some joint_a⟩), ("l3", some ⟨"l3", some joint_f⟩),
       ("l4", some ⟨"l4", some joint_c⟩)]
    joints_ :=
      [("a", some joint_a), ("b", some joint_b), ("c", some joint_c), ("f", some joint_f)] }

def parent_link_tree : StdMap String String :=
  [("l1", "base"), ("l2", "l1"), ("l3", "l2"), ("l4", "l3")]

def weights : StdMap String Double := [("default_joint_weight", 1)]

/-- Threshold 1.5 for joint `b`, whose physical velocity limit is 2. -/
def thresholds : StdMap String Double := [("b", .finite (3 / 2))]

/-- The robot before any chain is processed. -/
def robot0 : Robot := Robot.initial model parent_link_tree "base" weights thresholds

end Example

/-- State invariant of `Robot` between two calls of `init_kinematic_chain`. -/
structure Robot.Inv (r : Robot) : Prop where
  joint_ascending : StdMap.Ascending r.joint_map_
  controllable_ascending : StdMap.Ascending r.controllable_map_
  hard_ascending : StdMap.Ascending r.hard_map_
  joint_perm :
    (r.joint_map_.map fun e => e.2.input_num_).Perm (List.range (StdMap.size r.joint_map_))
  joint_model : ∀ n, StdMap.find r.joint_map_ n ≠ none →
    ∃ j, StdMap.find r.robot_model_.joints_ n = some (some j)
  controllable_sound : ∀ n c, StdMap.find r.controllable_map_ n = some c →
    ∃ q w v, Robot.get_joint r n = .ok q ∧ Robot.get_weight r n = .ok w ∧
      Robot.get_velocity_limit r n = .ok v ∧
      c = { name_ := n, input_number_ := q.get_input_num, weight_ := double_const_spec w,
            lower_ := double_const_spec (-v), upper_ := double_const_spec v }
  controllable_complete : ∀ n, StdMap.find r.joint_map_ n ≠ none →
    StdMap.find r.controllable_map_ n ≠ none
  hard_sound : ∀ n c, StdMap.find r.hard_map_ n = some c →
    ∃ q j limits, Robot.get_joint r n = .ok q ∧
      StdMap.find r.robot_model_.joints_ n = some (some j) ∧
      (j.type = JointType.REVOLUTE ∨ j.type = JointType.PRISMATIC) ∧
      j.limits = some limits ∧
      c = ⟨.input q, double_sub_spec [double_const_spec limits.lower, .input q],
            double_sub_spec [double_const_spec limits.upper, .input q]⟩
  hard_complete : ∀ n j, StdMap.find r.joint_map_ n ≠ none →
    StdMap.find r.robot_model_.joints_ n = some (some j) →
    (j.type = JointType.REVOLUTE ∨ j.type = JointType.PRISMATIC) →
    StdMap.find r.hard_map_ n ≠ none

/-- The returned value of a call that returned, else `fallback`. -/
def Outcome.getD {α : Type} (o : Outcome α) (fallback : α) : α :=
  match o with
  | .ok a => a
  | _ => fallback

namespace Example

/-- The robot constructed for the single tip link `l4`. -/
def robot1 : Robot :=
  (Robot.from_tip_links 4 model parent_link_tree "base" ["l4"] weights thresholds).getD robot0

end Example

/-- `r'` is a later state of `r`: the same kinematic tree and parent-link index,
and every entry of the four maps of `r` is still there. -/
structure Robot.Extends (r r' : Robot) : Prop where
  robot_model : r'.robot_model_ = r.robot_model_
  parent_link_tree : r'.parent_link_tree_ = r.parent_link_tree_
  joint_map : ∀ n q, StdMap.find r.joint_map_ n = some q → StdMap.find r'.joint_map_ n = some q
  controllable_map : ∀ n c, StdMap.find r.controllable_map_ n = some c →
    StdMap.find r'.controllable_map_ n = some c
  hard_map : ∀ n c, StdMap.find r.hard_map_ n = some c → StdMap.find r'.hard_map_ n = some c
  fk_map : ∀ k f, StdMap.find r.fk_map_ k = some f → StdMap.find r'.fk_map_ k = some f

/-- The chain `(root, tip)` has been processed: its joints are resolved, its
moveable joints are registered and have their constraints, and its
forward-kinematics entry is stored. -/
def Robot.ChainDone (fuel : Nat) (r : Robot) (root tip : String) : Prop :=
  ∃ mv all ts,
    Robot.chain_joint_names fuel r root tip false = .ok mv ∧
    Robot.chain_joint_names fuel r root tip true = .ok all ∧
    Robot.init_joint_transforms r all [frame_constructor_spec_default] = .ok ts ∧
    (∀ n ∈ mv, StdMap.find r.joint_map_ n ≠ none ∧ StdMap.find r.controllable_map_ n ≠ none ∧
      (StdMap.find r.hard_map_ n = none →
        ∃ j, StdMap.find r.robot_model_.joints_ n = some (some j) ∧
          ¬ (j.type = JointType.REVOLUTE ∨ j.type = JointType.PRISMATIC))) ∧
    StdMap.find r.fk_map_ (root, tip) ≠ none

mutual
/-- Modelled from the spec: the value of a scalar expression of the expression
algebra (`specifications.hpp` is not part of the sources) for given values of the
input variables. Scalar subtraction is the first input minus the other inputs;
the spec fixes the case of two inputs. -/
def DoubleSpec.eval (values : Nat → Double) : DoubleSpec → Double
  | .const v => v
  | .input s => values s.get_input_num
  | .sub inputs =>
    match DoubleSpec.evalList values inputs with
    | [] => 0
    | first :: others => first - others.sum
/-- Values of a list of scalar expressions. -/
def DoubleSpec.evalList (values : Nat → Double) : List DoubleSpec → List Double
  | [] => []
  | x :: xs => DoubleSpec.eval values x :: DoubleSpec.evalList values xs
end

/-- An occurrence of `x` in `l` comes before an occurrence of `y`. -/
def AppearsBefore {α : Type} (x y : α) (l : List α) : Prop :=
  ∃ j, j < l.length ∧ ∃ i, i < j ∧ l[i]? = some x ∧ l[j]? = some y

instance {α : Type} [DecidableEq α] (x y : α) (l : List α) : Decidable (AppearsBefore x y l) := by
  unfold AppearsBefore
  infer_instance

namespace Example

/-- The hard constraint of the prismatic joint `a`, input 1, limits `[0, 0.5]`. -/
def hard_a : HardConstraintSpec :=
  ⟨.input (input 1), double_sub_spec [double_const_spec 0, .input (input 1)],
    double_sub_spec [double_const_spec (.finite (1 / 2)), .input (input 1)]⟩

/-- The hard constraint of the revolute joint `b`, input 0, limits `[-1, 1]`. -/
def hard_b : HardConstraintSpec :=
  ⟨.input (input 0), double_sub_spec [double_const_spec (-1), .input (input 0)],
    double_sub_spec [double_const_spec 1, .input (input 0)]⟩

end Example

/-- The transforms of one joint on a chain: the origin transform of the joint,
followed for a PRISMATIC joint by the translation along the axis scaled by the
joint's input variable, and for a REVOLUTE or CONTINUOUS joint by the
zero-translation axis-angle rotation about the axis by the joint's input
variable; a FIXED joint has the origin transform only. -/
def IsJointTransforms (r : Robot) (joint : Joint) (frames : List FrameSpec) : Prop :=
  (joint.type = JointType.FIXED ∧
    frames = [to_frame_spec joint.parent_to_joint_origin_transform]) ∨
  (joint.type = JointType.PRISMATIC ∧ ∃ q, Robot.get_joint r joint.name = .ok q ∧
    frames = [to_frame_spec joint.parent_to_joint_origin_transform,
      frame_constructor_spec (vector_double_mul (to_vector_spec joint.axis) (.input q))
        (quaternion_spec 0 0 0 1)]) ∨
  ((joint.type = JointType.REVOLUTE ∨ joint.type = JointType.CONTINUOUS) ∧
    ∃ q, Robot.get_joint r joint.name = .ok q ∧
    frames = [to_frame_spec joint.parent_to_joint_origin_transform,
      frame_constructor_spec vector_constructor_spec_default
        (axis_angle_spec (to_vector_spec joint.axis) (.input q))])

/-- Every forward-kinematics entry was built from the joints of its chain. -/
def Robot.FkBuilt (r : Robot) : Prop :=
  ∀ root tip f, StdMap.find r.fk_map_ (root, tip) = some f →
    ∃ fuel all ts, Robot.chain_joint_names fuel r root tip true = .ok all ∧
      Robot.init_joint_transforms r all [frame_constructor_spec_default] = .ok ts ∧
      f = cached_frame (frame_multiplication_spec ts)

namespace Example

/-- The forward-kinematics expression of the chain from `base` to `l4`: the
identity frame, then origin and rotation of `b`, origin and translation of `a`,
origin of `f`, origin and rotation of `c`. -/
def fk_l4 : FrameSpec :=
  cached_frame (frame_multiplication_spec
    [frame_constructor_spec_default,
     to_frame_spec origin,
     frame_constructor_spec vector_constructor_spec_default
       (axis_angle_spec (to_vector_spec ⟨0, 0, 1⟩) (.input (input 0))),
     to_frame_spec origin,
     frame_constructor_spec (vector_double_mul (to_vector_spec ⟨1, 0, 0⟩) (.input (input 1)))
       (quaternion_spec 0 0 0 1),
     to_frame_spec origin,
     to_frame_spec origin,
     frame_constructor_spec vector_constructor_spec_default
       (axis_angle_spec (to_vector_spec ⟨0, 1, 0⟩) (.input (input 2)))])

end Example

/-- The joint types `extract_joint_transforms` rejects. -/
def JointType.unsupported (t : JointType) : Prop :=
  t = JointType.PLANAR ∨ t = JointType.FLOATING ∨ t = JointType.UNKNOWN ∨
    t = JointType.UNRECOGNISED

/-- The joint table has no usable joint under `name`: the entry is an empty
pointer or a joint of an unsupported type. -/
def Model.rejects (m : Model) (name : String) : Prop :=
  StdMap.find m.joints_ name = some none ∨
    ∃ joint, StdMap.find m.joints_ name = some (some joint) ∧ joint.type.unsupported

namespace Example

def joint_p : Joint := ⟨"p", .PLANAR, ⟨0, 0, 1⟩, origin, none⟩

/-- A base link carrying link `l1` by the planar joint `p`. -/
def model_planar : Model :=
  { links_ := [("base", some ⟨"base", none⟩), ("l1", some ⟨"l1", some joint_p⟩)]
    joints_ := [("p", some joint_p)] }

end Example

/-- The walk of `chain_joint_names` from `current` up to the link `target`,
before it has reached `root`: `joints` are the parent joints of the links
visited before `target`, the one of `current` first. -/
def IsWalkTo (r : Robot) (root target : String) : String → List Joint → Prop
  | current, [] => current = target
  | current, joint :: joints =>
    current ≠ root ∧ ∃ link parent,
      StdMap.find r.robot_model_.links_ current = some (some link) ∧
      link.parent_joint = some joint ∧
      StdMap.find r.parent_link_tree_ current = some parent ∧
      IsWalkTo r root target parent joints

/-- The link `steps` entries of the parent-link index above `link`, when the
index has an entry at each step. -/
def ancestor (parent_link_tree : StdMap String String) : Nat → String → Option String
  | 0, link => some link
  | steps + 1, link =>
    match StdMap.find parent_link_tree link with
    | none => none
    | some parent => ancestor parent_link_tree steps parent

/-- The parent-link index is acyclic: no link is above itself. -/
def Acyclic (parent_link_tree : StdMap String String) : Prop :=
  ∀ link steps, 0 < steps → ancestor parent_link_tree steps link ≠ some link

/-- The messages of the throws of `chain_joint_names`. -/
def IsStructuralError (msg : String) : Prop :=
  ∃ link_name : String,
    msg = "Could not find link with name '" ++ link_name ++ "'." ∨
    msg = "Link associated with name '" ++ link_name ++ "' is an empty shared_ptr." ∨
    msg = "Parent joint of link with name '" ++ link_name ++ "' is an empty shared_ptr." ∨
    msg = "Could not find parent link of link with name '" ++ link_name ++ "'."

/-! ## `continuous_joints_names` -/

/-- Position of a new element of a `std::set<std::string>`: in front of the first
greater element. -/
def StdSet.place : List String → String → List String
  | [], x => [x]
  | y :: s, x => if StdLess.less x y then x :: y :: s else y :: StdSet.place s x

/-- `s.insert(x)` on a `std::set<std::string>`, the elements in ascending order:
no effect when `x` is an element. -/
def StdSet.insert (s : List String) (x : String) : List String :=
  if x ∈ s then s else StdSet.place s x

/-- `is_continuous_joint`: the joint table is read without a check, so a name
without a joint is undefined behaviour. -/
def Robot.is_continuous_joint (r : Robot) (joint_name : String) : Outcome Bool :=
  match StdMap.find r.robot_model_.joints_ joint_name with
  | some (some joint) => .ok (decide (joint.type = JointType.CONTINUOUS))
  | _ => .undefined

/-- The loop of `continuous_joints_names` over the joint names of the chain. -/
def Robot.continuous_joints_names_loop (r : Robot) :
    List String → List String → Outcome (List String)
  | [], result => .ok result
  | joint_name :: joint_names, result =>
    match StdMap.find r.robot_model_.joints_ joint_name with
    | some (some joint) =>
      if joint.type = JointType.CONTINUOUS then
        Robot.continuous_joints_names_loop r joint_names (StdSet.insert result joint_name)
      else Robot.continuous_joints_names_loop r joint_names result
    | _ => .undefined

/-- `continuous_joints_names(root, tip)`. -/
def Robot.continuous_joints_names (fuel : Nat) (r : Robot) (root tip : String) :
    Outcome (List String) :=
  (Robot.chain_joint_names fuel r root tip false).bind fun joint_names =>
    Robot.continuous_joints_names_loop r joint_names []

/-- Each link's parent joint is recorded in the joint table under its own name. -/
def Model.parentJointsRecorded (m : Model) : Prop :=
  ∀ link_name link joint, StdMap.find m.links_ link_name = some (some link) →
    link.parent_joint = some joint → StdMap.find m.joints_ joint.name = some (some joint)

/-! ## Input variables of an expression -/

mutual
/-- The input variables occurring in a scalar expression, from left to right. -/
def DoubleSpec.inputs : DoubleSpec → List DoubleInputSpec
  | .const _ => []
  | .input s => [s]
  | .sub xs => DoubleSpec.inputsList xs
/-- The input variables occurring in a list of scalar expressions. -/
def DoubleSpec.inputsList : List DoubleSpec → List DoubleInputSpec
  | [] => []
  | x :: xs => DoubleSpec.inputs x ++ DoubleSpec.inputsList xs
end

/-- The input variables occurring in a vector expression. -/
def VectorSpec.inputs : VectorSpec → List DoubleInputSpec
  | .constructor x y z => x.inputs ++ y.inputs ++ z.inputs
  | .double_mul v d => v.inputs ++ d.inputs

/-- The input variables occurring in a rotation expression. -/
def RotationSpec.inputs : RotationSpec → List DoubleInputSpec
  | .quaternion _ _ _ _ => []
  | .axis_angle axis angle => axis.inputs ++ angle.inputs

mutual
/-- The input variables occurring in a frame expression, from left to right. -/
def FrameSpec.inputs : FrameSpec → List DoubleInputSpec
  | .constructor t r => t.inputs ++ r.inputs
  | .multiplication xs => FrameSpec.inputsList xs
  | .cached f => FrameSpec.inputs f
/-- The input variables occurring in a list of frame expressions. -/
def FrameSpec.inputsList : List FrameSpec → List DoubleInputSpec
  | [] => []
  | x :: xs => FrameSpec.inputs x ++ FrameSpec.inputsList xs
end

namespace Example

/-- The robot constructed for the tip links `l2` and `l4`, whose chains share
the joints `b` and `a`. -/
def robot2 : Robot :=
  (Robot.from_tip_links 4 model parent_link_tree "base" ["l2", "l4"] weights thresholds).getD
    robot0

/-- The forward-kinematics expression of the chain from `base` to `l2`. -/
def fk_l2 : FrameSpec :=
  cached_frame (frame_multiplication_spec
    [frame_constructor_spec_default,
     to_frame_spec origin,
     frame_constructor_spec vector_constructor_spec_default
       (axis_angle_spec (to_vector_spec ⟨0, 0, 1⟩) (.input (input 0))),
     to_frame_spec origin,
     frame_constructor_spec (vector_double_mul (to_vector_spec ⟨1, 0, 0⟩) (.input (input 1)))
       (quaternion_spec 0 0 0 1)])

end Example

/-- The forward-kinematics expression of a chain without joints: the cached
product of the single identity frame. -/
def identity_fk : FrameSpec :=
  cached_frame (frame_multiplication_spec [frame_constructor_spec_default])

namespace Example

/-- The robot constructed for the tip link `l4` when the threshold configured for
joint `b` is NaN. -/
def robot_nan : Robot :=
  (Robot.from_tip_links 4 model parent_link_tree "base" ["l4"] weights
    [("b", Double.nan)]).getD robot0

end Example

/-! ## Theorems -/

/-! ### `std::map` -/

theorem StdMap.find_eq_none_iff {K V : Type} [DecidableEq K] (m : StdMap K V) (k : K) :
    StdMap.find m k = none ↔ k ∉ m.map Prod.fst := by
  induction m with
  | nil => simp [StdMap.find]
  | cons e m ih =>
    obtain ⟨k', v⟩ := e
    by_cases h : k' = k
    · simp [StdMap.find, h]
    · simp [StdMap.find, h, ih, Ne.symm h]

theorem StdMap.mem_of_find {K V : Type} [DecidableEq K] (m : StdMap K V) (k : K) (v : V)
    (h : StdMap.find m k = some v) : (k, v) ∈ m := by
  induction m with
  | nil => simp [StdMap.find] at h
  | cons e m ih =>
    obtain ⟨k', v'⟩ := e
    by_cases hk : k' = k
    · simp [StdMap.find, hk] at h
      simp [hk, h]
    · simp only [StdMap.find, hk, if_false] at h
      exact List.mem_cons_of_mem _ (ih h)

theorem StdMap.find_of_mem {K V : Type} [DecidableEq K] (m : StdMap K V)
    (hnd : (m.map Prod.fst).Nodup) (k : K) (v : V) (h : (k, v) ∈ m) :
    StdMap.find m k = some v := by
  induction m with
  | nil => simp at h
  | cons e m ih =>
    obtain ⟨k', v'⟩ := e
    simp only [List.map_cons, List.nodup_cons] at hnd
    rcases List.mem_cons.1 h with heq | hmem
    · cases heq
      simp [StdMap.find]
    · have hne : k' ≠ k := by
        rintro rfl
        exact hnd.1 (List.mem_map_of_mem Prod.fst hmem)
      simp only [StdMap.find, hne, if_false]
      exact ih hnd.2 hmem

theorem StdMap.place_perm {K V : Type} [StdLess K] (m : StdMap K V) (k : K) (v : V) :
    (StdMap.place m k v).Perm ((k, v) :: m) := by
  induction m with
  | nil => simp [StdMap.place]
  | cons e m ih =>
    obtain ⟨k', v'⟩ := e
    simp only [StdMap.place]
    split_ifs
    · exact List.Perm.refl _
    · exact (List.Perm.cons _ ih).trans (List.Perm.swap _ _ _)

theorem StdMap.find_place_ne {K V : Type} [DecidableEq K] [StdLess K] (m : StdMap K V)
    (k k' : K) (v : V) (h : k ≠ k') :
    StdMap.find (StdMap.place m k v) k' = StdMap.find m k' := by
  induction m with
  | nil => simp [StdMap.place, StdMap.find, h]
  | cons e m ih =>
    obtain ⟨k1, v1⟩ := e
    simp only [StdMap.place]
    split_ifs
    · simp [StdMap.find, h]
    · simp [StdMap.find, ih]

theorem StdMap.find_place_self {K V : Type} [DecidableEq K] [StdLess K] (m : StdMap K V)
    (k : K) (v : V) (h : StdMap.find m k = none) :
    StdMap.find (StdMap.place m k v) k = some v := by
  induction m with
  | nil => simp [StdMap.place, StdMap.find]
  | cons e m ih =>
    obtain ⟨k1, v1⟩ := e
    by_cases hk : k1 = k
    · simp [StdMap.find, hk] at h
    · simp only [StdMap.find, hk, if_false] at h
      simp only [StdMap.place]
      split_ifs
      · simp [StdMap.find]
      · simp [StdMap.find, hk, ih h]

theorem StdMap.insert_of_find_some {K V : Type} [DecidableEq K] [StdLess K] (m : StdMap K V)
    (k : K) (v w : V) (h : StdMap.find m k = some w) : StdMap.insert m k v = m := by
  simp [StdMap.insert, h]

theorem StdMap.insert_of_find_none {K V : Type} [DecidableEq K] [StdLess K] (m : StdMap K V)
    (k : K) (v : V) (h : StdMap.find m k = none) :
    StdMap.insert m k v = StdMap.place m k v := by
  simp [StdMap.insert, h]

theorem StdMap.find_insert_ne {K V : Type} [DecidableEq K] [StdLess K] (m : StdMap K V)
    (k k' : K) (v : V) (h : k ≠ k') :
    StdMap.find (StdMap.insert m k v) k' = StdMap.find m k' := by
  unfold StdMap.insert
  split
  · rfl
  · exact StdMap.find_place_ne m k k' v h

theorem StdMap.find_insert_self {K V : Type} [DecidableEq K] [StdLess K] (m : StdMap K V)
    (k : K) (v : V) (h : StdMap.find m k = none) :
    StdMap.find (StdMap.insert m k v) k = some v := by
  rw [StdMap.insert_of_find_none m k v h]
  exact StdMap.find_place_self m k v h

theorem StdMap.find_insert_of_some {K V : Type} [DecidableEq K] [StdLess K] (m : StdMap K V)
    (k k' : K) (v w : V) (h : StdMap.find m k' = some w) :
    StdMap.find (StdMap.insert m k v) k' = some w := by
  by_cases hk : k = k'
  · subst hk
    rw [StdMap.insert_of_find_some m k v w h, h]
  · rw [StdMap.find_insert_ne m k k' v hk, h]

theorem StdMap.insert_perm {K V : Type} [DecidableEq K] [StdLess K] (m : StdMap K V)
    (k : K) (v : V) (h : StdMap.find m k = none) :
    (StdMap.insert m k v).Perm ((k, v) :: m) := by
  rw [StdMap.insert_of_find_none m k v h]
  exact StdMap.place_perm m k v

theorem StdMap.size_insert {K V : Type} [DecidableEq K] [StdLess K] (m : StdMap K V)
    (k : K) (v : V) (h : StdMap.find m k = none) :
    StdMap.size (StdMap.insert m k v) = StdMap.size m + 1 := by
  simpa [StdMap.size] using (StdMap.insert_perm m k v h).length_eq

theorem StdMap.ascending_place {V : Type} (m : StdMap String V) (k : String) (v : V)
    (hs : StdMap.Ascending m) (h : StdMap.find m k = none) :
    StdMap.Ascending (StdMap.place m k v) := by
  induction m with
  | nil => simp [StdMap.place, StdMap.Ascending]
  | cons e m ih =>
    obtain ⟨k1, v1⟩ := e
    have hk : k1 ≠ k := by
      intro hk
      simp [StdMap.find, hk] at h
    simp only [StdMap.find, hk, if_false] at h
    unfold StdMap.Ascending at hs ih ⊢
    rw [List.pairwise_cons] at hs
    simp only [StdMap.place, StdLess.less]
    split_ifs with hlt
    · have hlt' : k < k1 := by simpa using hlt
      refine List.pairwise_cons.2 ⟨?_, List.pairwise_cons.2 hs⟩
      intro b hb
      rcases List.mem_cons.1 hb with rfl | hb
      · exact hlt'
      · exact lt_trans hlt' (hs.1 b hb)
    · have hlt' : k1 < k := by
        have : ¬ k < k1 := by simpa using hlt
        exact lt_of_le_of_ne (not_lt.1 this) hk
      refine List.pairwise_cons.2 ⟨?_, ih hs.2 h⟩
      intro b hb
      have hb' := (StdMap.place_perm m k v).mem_iff.1 hb
      rcases List.mem_cons.1 hb' with rfl | hb'
      · exact hlt'
      · exact hs.1 b hb'

theorem StdMap.ascending_insert {V : Type} (m : StdMap String V) (k : String) (v : V)
    (hs : StdMap.Ascending m) : StdMap.Ascending (StdMap.insert m k v) := by
  cases h : StdMap.find m k with
  | some w => rw [StdMap.insert_of_find_some m k v w h]; exact hs
  | none => rw [StdMap.insert_of_find_none m k v h]; exact StdMap.ascending_place m k v hs h

theorem StdMap.Ascending.keys_nodup {V : Type} (m : StdMap String V)
    (hs : StdMap.Ascending m) : (m.map Prod.fst).Nodup := by
  unfold StdMap.Ascending at hs
  rw [List.Nodup, List.pairwise_map]
  exact hs.imp (fun h => ne_of_lt h)

/-! ### Chain resolution -/

theorem chain_joint_names_loop_of_walk (r : Robot) (root : String) (b : Bool) :
    ∀ (joints : List Joint) (fuel : Nat) (current : String) (acc : List String),
      IsWalk r root current joints → joints.length ≤ fuel →
      Robot.chain_joint_names_loop r root b fuel current acc
        = .ok (acc ++ pushed_names b joints).reverse := by
  intro joints
  induction joints with
  | nil =>
    intro fuel current acc hw _
    simp only [IsWalk] at hw
    cases fuel <;> simp [Robot.chain_joint_names_loop, hw, pushed_names]
  | cons j js ih =>
    intro fuel current acc hw hfuel
    obtain ⟨hne, link, parent, hl, hp, ht, hrest⟩ := hw
    cases fuel with
    | zero => simp at hfuel
    | succ fuel =>
      have hlen : js.length ≤ fuel := by simpa using hfuel
      simp only [Robot.chain_joint_names_loop, hne, if_false, hl, hp, ht]
      rw [ih fuel parent _ hrest hlen]
      simp only [pushed_names, List.filter_cons]
      split_ifs <;> simp

theorem walk_of_chain_joint_names_loop (r : Robot) (root : String) (b : Bool) :
    ∀ (fuel : Nat) (current : String) (acc names : List String),
      Robot.chain_joint_names_loop r root b fuel current acc = .ok names →
      ∃ joints, IsWalk r root current joints ∧ joints.length ≤ fuel := by
  intro fuel
  induction fuel with
  | zero =>
    intro current acc names h
    by_cases hc : current = root
    · exact ⟨[], hc, le_refl _⟩
    · simp [Robot.chain_joint_names_loop, hc] at h
  | succ fuel ih =>
    intro current acc names h
    by_cases hc : current = root
    · exact ⟨[], hc, Nat.zero_le _⟩
    · simp only [Robot.chain_joint_names_loop, hc, if_false] at h
      cases hl : StdMap.find r.robot_model_.links_ current with
      | none => simp [hl] at h
      | some ol =>
        cases ol with
        | none => simp [hl] at h
        | some link =>
          cases hp : link.parent_joint with
          | none => simp [hl, hp] at h
          | some j =>
            cases ht : StdMap.find r.parent_link_tree_ current with
            | none => simp [hl, hp, ht] at h
            | some parent =>
              simp only [hl, hp, ht] at h
              obtain ⟨js, hw, hlen⟩ := ih parent _ names h
              exact ⟨j :: js, ⟨hc, link, parent, hl, hp, ht, hw⟩, by simpa using hlen⟩

/-- C1: when the walk from `tip` along the parent-link index visits known links
with non-empty parent joints until it reaches `root`, then
`chain_joint_names(root, tip, true)` returns, given fuel for the steps of the
walk, the names of these parent joints ordered from the joint nearest the root to
the joint directly above the tip. -/
theorem chain_joint_names_root_to_tip (r : Robot) (root tip : String) (joints : List Joint)
    (fuel : Nat) (hwalk : IsWalk r root tip joints) (hfuel : joints.length ≤ fuel) :
    Robot.chain_joint_names fuel r root tip true = .ok (joints.reverse.map (·.name)) := by
  unfold Robot.chain_joint_names
  rw [chain_joint_names_loop_of_walk r root true joints fuel tip [] hwalk hfuel]
  simp [pushed_names, List.map_reverse]

theorem chain_joint_names_of_walk (r : Robot) (root tip : String) (joints : List Joint)
    (fuel : Nat) (b : Bool) (hwalk : IsWalk r root tip joints) (hfuel : joints.length ≤ fuel) :
    Robot.chain_joint_names fuel r root tip b
      = .ok ((joints.reverse.filter fun j => b || decide (j.type ≠ JointType.FIXED)).map
          (·.name)) := by
  unfold Robot.chain_joint_names
  rw [chain_joint_names_loop_of_walk r root b joints fuel tip [] hwalk hfuel]
  simp [pushed_names, List.map_reverse, List.filter_reverse]

theorem walk_of_chain_joint_names (r : Robot) (root tip : String) (fuel : Nat) (b : Bool)
    (names : List String) (h : Robot.chain_joint_names fuel r root tip b = .ok names) :
    ∃ joints, IsWalk r root tip joints ∧ joints.length ≤ fuel :=
  walk_of_chain_joint_names_loop r root b fuel tip [] names h

/-- C2: `chain_joint_names(root, tip, false)` returns exactly when
`chain_joint_names(root, tip, true)` returns; the latter result lists the names
of the parent joints on the walk in root-to-tip order, the former lists the same
joints with those of type FIXED removed, and is a sublist of the latter. -/
theorem chain_joint_names_without_fixed (fuel : Nat) (r : Robot) (root tip : String) :
    (Robot.chain_joint_names fuel r root tip false).isOk
        = (Robot.chain_joint_names fuel r root tip true).isOk ∧
    ∀ all_joints_names, Robot.chain_joint_names fuel r root tip true = .ok all_joints_names →
      ∃ joints : List Joint, IsWalk r root tip joints.reverse ∧
        all_joints_names = joints.map (·.name) ∧
        Robot.chain_joint_names fuel r root tip false
          = .ok ((joints.filter fun j => j.type ≠ JointType.FIXED).map (·.name)) ∧
        List.Sublist ((joints.filter fun j => j.type ≠ JointType.FIXED).map (·.name))
          all_joints_names := by
  constructor
  · cases ht : Robot.chain_joint_names fuel r root tip true with
    | ok names =>
      obtain ⟨js, hw, hlen⟩ := walk_of_chain_joint_names r root tip fuel true names ht
      rw [chain_joint_names_of_walk r root tip js fuel false hw hlen]
      rfl
    | error e =>
      cases hf : Robot.chain_joint_names fuel r root tip false with
      | ok names =>
        obtain ⟨js, hw, hlen⟩ := walk_of_chain_joint_names r root tip fuel false names hf
        rw [chain_joint_names_of_walk r root tip js fuel true hw hlen] at ht
        cases ht
      | _ => rfl
    | undefined =>
      cases hf : Robot.chain_joint_names fuel r root tip false with
      | ok names =>
        obtain ⟨js, hw, hlen⟩ := walk_of_chain_joint_names r root tip fuel false names hf
        rw [chain_joint_names_of_walk r root tip js fuel true hw hlen] at ht
        cases ht
      | _ => rfl
    | timeout =>
      cases hf : Robot.chain_joint_names fuel r root tip false with
      | ok names =>
        obtain ⟨js, hw, hlen⟩ := walk_of_chain_joint_names r root tip fuel false names hf
        rw [chain_joint_names_of_walk r root tip js fuel true hw hlen] at ht
        cases ht
      | _ => rfl
  · intro names ht
    obtain ⟨js, hw, hlen⟩ := walk_of_chain_joint_names r root tip fuel true names ht
    refine ⟨js.reverse, by simpa using hw, ?_, ?_, ?_⟩
    · rw [chain_joint_names_of_walk r root tip js fuel true hw hlen] at ht
      simpa using (Outcome.ok.inj ht).symm
    · rw [chain_joint_names_of_walk r root tip js fuel false hw hlen]
      simp
    · rw [chain_joint_names_of_walk r root tip js fuel true hw hlen] at ht
      have hn : names = js.reverse.map (·.name) := by simpa using (Outcome.ok.inj ht).symm
      rw [hn]
      exact List.Sublist.map _ (List.filter_sublist _)

theorem Example.walk_l4 :
    IsWalk Example.robot0 "base" "l4"
      [Example.joint_c, Example.joint_f, Example.joint_a, Example.joint_b] :=
  ⟨by decide, _, "l3", rfl, rfl, rfl,
   by decide, _, "l2", rfl, rfl, rfl,
   by decide, _, "l1", rfl, rfl, rfl,
   by decide, _, "base", rfl, rfl, rfl, rfl⟩

theorem chain_joint_names_root_to_tip_witness :
    IsWalk Example.robot0 "base" "l4"
        [Example.joint_c, Example.joint_f, Example.joint_a, Example.joint_b] ∧
      Robot.chain_joint_names 4 Example.robot0 "base" "l4" true = .ok ["b", "a", "f", "c"] :=
  ⟨Example.walk_l4,
   chain_joint_names_root_to_tip Example.robot0 "base" "l4" _ 4 Example.walk_l4 (by decide)⟩

theorem chain_joint_names_without_fixed_witness :
    Robot.chain_joint_names 4 Example.robot0 "base" "l4" true = .ok ["b", "a", "f", "c"] ∧
      Robot.chain_joint_names 4 Example.robot0 "base" "l4" false = .ok ["b", "a", "c"] ∧
      ∃ joints : List Joint, IsWalk Example.robot0 "base" "l4" joints.reverse ∧
        ["b", "a", "f", "c"] = joints.map (·.name) ∧
        Robot.chain_joint_names 4 Example.robot0 "base" "l4" false
          = .ok ((joints.filter fun j => j.type ≠ JointType.FIXED).map (·.name)) ∧
        List.Sublist ((joints.filter fun j => j.type ≠ JointType.FIXED).map (·.name))
          ["b", "a", "f", "c"] :=
  ⟨by decide, by decide,
   (chain_joint_names_without_fixed 4 Example.robot0 "base" "l4").2 _ (by decide)⟩

/-! ### First loop of `init_kinematic_chain`: the joint registry -/

theorem init_joint_inputs_eq (names : List String) :
    ∀ r : Robot, Robot.init_joint_inputs names r
      = { r with joint_map_ := (Robot.init_joint_inputs names r).joint_map_ } := by
  induction names with
  | nil => intro r; rfl
  | cons n ns ih =>
    intro r
    cases h : StdMap.find r.joint_map_ n with
    | none =>
      simp only [Robot.init_joint_inputs, h]
      exact ih _
    | some q =>
      simp only [Robot.init_joint_inputs, h]
      exact ih _

theorem init_joint_inputs_stable (names : List String) :
    ∀ (r : Robot) (n : String) (q : DoubleInputSpec),
      StdMap.find r.joint_map_ n = some q →
      StdMap.find (Robot.init_joint_inputs names r).joint_map_ n = some q := by
  induction names with
  | nil => intro r n q h; exact h
  | cons m ms ih =>
    intro r n q h
    cases hm : StdMap.find r.joint_map_ m with
    | none =>
      simp only [Robot.init_joint_inputs, hm]
      exact ih _ n q (StdMap.find_insert_of_some _ _ _ _ _ h)
    | some q' =>
      simp only [Robot.init_joint_inputs, hm]
      exact ih _ n q h

theorem init_joint_inputs_registers (names : List String) :
    ∀ (r : Robot) (n : String), n ∈ names →
      StdMap.find (Robot.init_joint_inputs names r).joint_map_ n ≠ none := by
  induction names with
  | nil => intro r n h; simp at h
  | cons m ms ih =>
    intro r n hn
    cases hm : StdMap.find r.joint_map_ m with
    | none =>
      simp only [Robot.init_joint_inputs, hm]
      rcases List.mem_cons.1 hn with rfl | hn
      · rw [init_joint_inputs_stable ms _ n _ (StdMap.find_insert_self _ _ _ hm)]
        simp
      · exact ih _ n hn
    | some q' =>
      simp only [Robot.init_joint_inputs, hm]
      rcases List.mem_cons.1 hn with rfl | hn
      · rw [init_joint_inputs_stable ms _ n _ hm]
        simp
      · exact ih _ n hn

theorem init_joint_inputs_origin (names : List String) :
    ∀ (r : Robot) (n : String),
      StdMap.find (Robot.init_joint_inputs names r).joint_map_ n ≠ none →
      StdMap.find r.joint_map_ n ≠ none ∨ n ∈ names := by
  induction names with
  | nil => intro r n h; exact Or.inl h
  | cons m ms ih =>
    intro r n h
    cases hm : StdMap.find r.joint_map_ m with
    | none =>
      simp only [Robot.init_joint_inputs, hm] at h
      rcases ih _ n h with h1 | h1
      · by_cases hmn : m = n
        · exact Or.inr (by simp [hmn])
        · rw [StdMap.find_insert_ne _ _ _ _ hmn] at h1
          exact Or.inl h1
      · exact Or.inr (List.mem_cons_of_mem _ h1)
    | some q' =>
      simp only [Robot.init_joint_inputs, hm] at h
      rcases ih _ n h with h1 | h1
      · exact Or.inl h1
      · exact Or.inr (List.mem_cons_of_mem _ h1)

theorem init_joint_inputs_ascending (names : List String) :
    ∀ (r : Robot), StdMap.Ascending r.joint_map_ →
      StdMap.Ascending (Robot.init_joint_inputs names r).joint_map_ := by
  induction names with
  | nil => intro r h; exact h
  | cons m ms ih =>
    intro r h
    cases hm : StdMap.find r.joint_map_ m with
    | none =>
      simp only [Robot.init_joint_inputs, hm]
      exact ih _ (StdMap.ascending_insert _ _ _ h)
    | some q' =>
      simp only [Robot.init_joint_inputs, hm]
      exact ih _ h

theorem init_joint_inputs_perm (names : List String) :
    ∀ (r : Robot),
      (r.joint_map_.map fun e => e.2.input_num_).Perm (List.range (StdMap.size r.joint_map_)) →
      ((Robot.init_joint_inputs names r).joint_map_.map fun e => e.2.input_num_).Perm
        (List.range (StdMap.size (Robot.init_joint_inputs names r).joint_map_)) := by
  induction names with
  | nil => intro r h; exact h
  | cons m ms ih =>
    intro r h
    cases hm : StdMap.find r.joint_map_ m with
    | none =>
      simp only [Robot.init_joint_inputs, hm]
      apply ih
      simp only [StdMap.size_insert _ _ _ hm]
      have hp := (StdMap.insert_perm r.joint_map_ m (input (StdMap.size r.joint_map_)) hm).map
        fun e => e.2.input_num_
      refine hp.trans ?_
      simp only [List.map_cons, input]
      rw [List.range_succ]
      exact ((List.Perm.cons _ h).trans (List.perm_append_singleton _ _).symm)
    | some q' =>
      simp only [Robot.init_joint_inputs, hm]
      exact ih _ h

theorem init_joint_inputs_noop (names : List String) :
    ∀ (r : Robot), (∀ n ∈ names, StdMap.find r.joint_map_ n ≠ none) →
      Robot.init_joint_inputs names r = r := by
  induction names with
  | nil => intro r _; rfl
  | cons m ms ih =>
    intro r h
    cases hm : StdMap.find r.joint_map_ m with
    | none => exact absurd hm (h m (List.mem_cons_self _ _))
    | some q' =>
      simp only [Robot.init_joint_inputs, hm]
      exact ih _ (fun n hn => h n (List.mem_cons_of_mem _ hn))

theorem firstOccurrences_filter (p : String → Bool) (l : List String) :
    firstOccurrences (l.filter p) = (firstOccurrences l).filter p := by
  induction l with
  | nil => rfl
  | cons x l ih =>
    by_cases hp : p x = true
    · simp only [List.filter_cons, hp, if_true, firstOccurrences, ih, List.filter_filter]
      congr 1
      apply List.filter_congr
      intro y _
      exact Bool.and_comm _ _
    · simp only [List.filter_cons, hp, firstOccurrences, List.filter_filter]
      simp only [Bool.false_eq_true, if_false]
      rw [ih]
      apply List.filter_congr
      intro y _
      by_cases hy : y = x
      · subst hy; simp [hp]
      · simp [hy]

theorem newNames_insert {V : Type} (m : StdMap String V) (n : String) (v : V)
    (names : List String) (hn : StdMap.find m n = none) :
    newNames (StdMap.insert m n v) names = (newNames m names).filter (fun other => other ≠ n) := by
  unfold newNames
  rw [← firstOccurrences_filter, List.filter_filter]
  congr 1
  apply List.filter_congr
  intro y _
  by_cases hy : n = y
  · subst hy
    simp [StdMap.find_insert_self m n v hn]
  · rw [StdMap.find_insert_ne m n y v hy]
    simp [Ne.symm hy]

theorem init_joint_inputs_new (names : List String) :
    ∀ (r : Robot),
      StdMap.size (Robot.init_joint_inputs names r).joint_map_
          = StdMap.size r.joint_map_ + (newNames r.joint_map_ names).length ∧
      ∀ (i : Nat) (n : String), (newNames r.joint_map_ names)[i]? = some n →
        StdMap.find (Robot.init_joint_inputs names r).joint_map_ n
          = some (input (StdMap.size r.joint_map_ + i)) := by
  induction names with
  | nil =>
    intro r
    simp [Robot.init_joint_inputs, newNames, firstOccurrences]
  | cons m ms ih =>
    intro r
    cases hm : StdMap.find r.joint_map_ m with
    | none =>
      have hnew : newNames r.joint_map_ (m :: ms)
          = m :: (newNames r.joint_map_ ms).filter (fun other => other ≠ m) := by
        simp [newNames, List.filter_cons, hm, firstOccurrences]
      simp only [Robot.init_joint_inputs, hm]
      obtain ⟨hsize, hidx⟩ :=
        ih { r with joint_map_ := StdMap.insert r.joint_map_ m (input (StdMap.size r.joint_map_)) }
      simp only [newNames_insert r.joint_map_ m _ ms hm, StdMap.size_insert _ _ _ hm] at hsize hidx
      rw [hnew]
      refine ⟨by simp only [List.length_cons]; omega, ?_⟩
      intro i n hi
      cases i with
      | zero =>
        simp only [List.getElem?_cons_zero, Option.some.injEq] at hi
        subst hi
        exact init_joint_inputs_stable ms _ _ _ (StdMap.find_insert_self _ _ _ hm)
      | succ i =>
        simp only [List.getElem?_cons_succ] at hi
        rw [hidx i n hi]
        congr 2
        omega
    | some q =>
      have hnew : newNames r.joint_map_ (m :: ms) = newNames r.joint_map_ ms := by
        simp [newNames, List.filter_cons, hm]
      simp only [Robot.init_joint_inputs, hm]
      rw [hnew]
      exact ih r

/-! ### Second loop: the joint transforms -/

theorem Outcome.bind_eq_ok {α β : Type} (o : Outcome α) (f : α → Outcome β) (b : β) :
    o.bind f = .ok b ↔ ∃ a, o = .ok a ∧ f a = .ok b := by
  cases o <;> simp [Outcome.bind]

theorem get_joint_eq_ok (r : Robot) (n : String) (q : DoubleInputSpec) :
    Robot.get_joint r n = .ok q ↔ StdMap.find r.joint_map_ n = some q := by
  unfold Robot.get_joint
  cases h : StdMap.find r.joint_map_ n <;> simp

theorem extract_joint_transforms_mono (r1 r2 : Robot)
    (hjm : ∀ n q, StdMap.find r1.joint_map_ n = some q → StdMap.find r2.joint_map_ n = some q)
    (joint : Option Joint) (ts : List FrameSpec)
    (h : Robot.extract_joint_transforms r1 joint = .ok ts) :
    Robot.extract_joint_transforms r2 joint = .ok ts := by
  cases joint with
  | none => simp [Robot.extract_joint_transforms] at h
  | some j =>
    unfold Robot.extract_joint_transforms at h ⊢
    cases ht : j.type <;> simp only [ht] at h ⊢
    all_goals first
      | exact h
      | (obtain ⟨q, hq, hts⟩ := (Outcome.bind_eq_ok _ _ _).1 h
         have hq2 := (get_joint_eq_ok r2 j.name q).2 (hjm _ _ ((get_joint_eq_ok r1 j.name q).1 hq))
         rw [hq2]
         exact hts)

theorem init_joint_transforms_mono (r1 r2 : Robot)
    (hmodel : r2.robot_model_ = r1.robot_model_)
    (hjm : ∀ n q, StdMap.find r1.joint_map_ n = some q → StdMap.find r2.joint_map_ n = some q)
    (names : List String) :
    ∀ (acc ts : List FrameSpec), Robot.init_joint_transforms r1 names acc = .ok ts →
      Robot.init_joint_transforms r2 names acc = .ok ts := by
  induction names with
  | nil => intro acc ts h; exact h
  | cons n ns ih =>
    intro acc ts h
    simp only [Robot.init_joint_transforms, hmodel] at h ⊢
    cases hj : StdMap.find r1.robot_model_.joints_ n with
    | none => simp [hj] at h
    | some joint =>
      simp only [hj] at h ⊢
      obtain ⟨new, hnew, hrest⟩ := (Outcome.bind_eq_ok _ _ _).1 h
      rw [extract_joint_transforms_mono r1 r2 hjm joint new hnew]
      exact ih _ _ hrest

theorem init_joint_transforms_joints (r : Robot) (names : List String) :
    ∀ (acc ts : List FrameSpec), Robot.init_joint_transforms r names acc = .ok ts →
      ∀ n ∈ names, ∃ j, StdMap.find r.robot_model_.joints_ n = some (some j) := by
  induction names with
  | nil => intro acc ts _ n hn; simp at hn
  | cons m ms ih =>
    intro acc ts h n hn
    simp only [Robot.init_joint_transforms] at h
    cases hj : StdMap.find r.robot_model_.joints_ m with
    | none => simp [hj] at h
    | some joint =>
      simp only [hj] at h
      obtain ⟨new, hnew, hrest⟩ := (Outcome.bind_eq_ok _ _ _).1 h
      rcases List.mem_cons.1 hn with rfl | hn
      · cases joint with
        | none => simp [Robot.extract_joint_transforms] at hnew
        | some j => exact ⟨j, hj⟩
      · exact ih _ _ hrest n hn

/-! ### Third loop: the controllable constraints -/

theorem init_controllable_constraints_eq (names : List String) :
    ∀ (r r' : Robot), Robot.init_controllable_constraints names r = .ok r' →
      r' = { r with controllable_map_ := r'.controllable_map_ } := by
  induction names with
  | nil =>
    intro r r' h
    simp only [Robot.init_controllable_constraints, Outcome.ok.injEq] at h
    subst h
    rfl
  | cons n ns ih =>
    intro r r' h
    simp only [Robot.init_controllable_constraints] at h
    cases hc : StdMap.find r.controllable_map_ n with
    | some c =>
      simp only [hc] at h
      exact ih _ _ h
    | none =>
      simp only [hc] at h
      obtain ⟨q, _, h⟩ := (Outcome.bind_eq_ok _ _ _).1 h
      obtain ⟨w, _, h⟩ := (Outcome.bind_eq_ok _ _ _).1 h
      obtain ⟨v, _, h⟩ := (Outcome.bind_eq_ok _ _ _).1 h
      have h1 := ih _ _ h
      exact h1

theorem init_controllable_constraints_stable (names : List String) :
    ∀ (r r' : Robot), Robot.init_controllable_constraints names r = .ok r' →
      ∀ n c, StdMap.find r.controllable_map_ n = some c →
        StdMap.find r'.controllable_map_ n = some c := by
  induction names with
  | nil =>
    intro r r' h n c hc
    simp only [Robot.init_controllable_constraints, Outcome.ok.injEq] at h
    subst h
    exact hc
  | cons m ms ih =>
    intro r r' h n c hn
    simp only [Robot.init_controllable_constraints] at h
    cases hc : StdMap.find r.controllable_map_ m with
    | some c' =>
      simp only [hc] at h
      exact ih _ _ h n c hn
    | none =>
      simp only [hc] at h
      obtain ⟨q, _, h⟩ := (Outcome.bind_eq_ok _ _ _).1 h
      obtain ⟨w, _, h⟩ := (Outcome.bind_eq_ok _ _ _).1 h
      obtain ⟨v, _, h⟩ := (Outcome.bind_eq_ok _ _ _).1 h
      exact ih _ _ h n c (StdMap.find_insert_of_some _ _ _ _ _ hn)

theorem init_controllable_constraints_registers (names : List String) :
    ∀ (r r' : Robot), Robot.init_controllable_constraints names r = .ok r' →
      ∀ n ∈ names, StdMap.find r'.controllable_map_ n ≠ none := by
  induction names with
  | nil => intro r r' _ n hn; simp at hn
  | cons m ms ih =>
    intro r r' h n hn
    simp only [Robot.init_controllable_constraints] at h
    cases hc : StdMap.find r.controllable_map_ m with
    | some c' =>
      simp only [hc] at h
      rcases List.mem_cons.1 hn with rfl | hn
      · rw [init_controllable_constraints_stable ms _ _ h n c' hc]
        simp
      · exact ih _ _ h n hn
    | none =>
      simp only [hc] at h
      obtain ⟨q, _, h⟩ := (Outcome.bind_eq_ok _ _ _).1 h
      obtain ⟨w, _, h⟩ := (Outcome.bind_eq_ok _ _ _).1 h
      obtain ⟨v, _, h⟩ := (Outcome.bind_eq_ok _ _ _).1 h
      rcases List.mem_cons.1 hn with rfl | hn
      · rw [init_controllable_constraints_stable ms _ _ h n _
          (StdMap.find_insert_self _ _ _ hc)]
        simp
      · exact ih _ _ h n hn

theorem init_controllable_constraints_origin (names : List String) :
    ∀ (r r' : Robot), Robot.init_controllable_constraints names r = .ok r' →
      ∀ n c, StdMap.find r'.controllable_map_ n = some c →
        StdMap.find r.controllable_map_ n = some c ∨
        ∃ q w v, Robot.get_joint r n = .ok q ∧ Robot.get_weight r n = .ok w ∧
          Robot.get_velocity_limit r n = .ok v ∧
          c = { name_ := n, input_number_ := q.get_input_num, weight_ := double_const_spec w,
                lower_ := double_const_spec (-v), upper_ := double_const_spec v } := by
  induction names with
  | nil =>
    intro r r' h n c hc
    simp only [Robot.init_controllable_constraints, Outcome.ok.injEq] at h
    subst h
    exact Or.inl hc
  | cons m ms ih =>
    intro r r' h n c hn
    simp only [Robot.init_controllable_constraints] at h
    cases hc : StdMap.find r.controllable_map_ m with
    | some c' =>
      simp only [hc] at h
      exact ih _ _ h n c hn
    | none =>
      simp only [hc] at h
      obtain ⟨q, hq, h⟩ := (Outcome.bind_eq_ok _ _ _).1 h
      obtain ⟨w, hw, h⟩ := (Outcome.bind_eq_ok _ _ _).1 h
      obtain ⟨v, hv, h⟩ := (Outcome.bind_eq_ok _ _ _).1 h
      rcases ih _ _ h n c hn with h1 | h1
      · by_cases hmn : m = n
        · subst hmn
          rw [StdMap.find_insert_self _ _ _ hc] at h1
          exact Or.inr ⟨q, w, v, hq, hw, hv, (Option.some.inj h1).symm⟩
        · rw [StdMap.find_insert_ne _ _ _ _ hmn] at h1
          exact Or.inl h1
      · exact Or.inr h1

theorem init_controllable_constraints_ascending (names : List String) :
    ∀ (r r' : Robot), Robot.init_controllable_constraints names r = .ok r' →
      StdMap.Ascending r.controllable_map_ → StdMap.Ascending r'.controllable_map_ := by
  induction names with
  | nil =>
    intro r r' h hs
    simp only [Robot.init_controllable_constraints, Outcome.ok.injEq] at h
    subst h
    exact hs
  | cons m ms ih =>
    intro r r' h hs
    simp only [Robot.init_controllable_constraints] at h
    cases hc : StdMap.find r.controllable_map_ m with
    | some c' =>
      simp only [hc] at h
      exact ih _ _ h hs
    | none =>
      simp only [hc] at h
      obtain ⟨q, _, h⟩ := (Outcome.bind_eq_ok _ _ _).1 h
      obtain ⟨w, _, h⟩ := (Outcome.bind_eq_ok _ _ _).1 h
      obtain ⟨v, _, h⟩ := (Outcome.bind_eq_ok _ _ _).1 h
      exact ih _ _ h (StdMap.ascending_insert _ _ _ hs)

theorem init_controllable_constraints_noop (names : List String) :
    ∀ (r : Robot), (∀ n ∈ names, StdMap.find r.controllable_map_ n ≠ none) →
      Robot.init_controllable_constraints names r = .ok r := by
  induction names with
  | nil => intro r _; rfl
  | cons m ms ih =>
    intro r h
    cases hm : StdMap.find r.controllable_map_ m with
    | none => exact absurd hm (h m (List.mem_cons_self _ _))
    | some c =>
      simp only [Robot.init_controllable_constraints, hm]
      exact ih _ (fun n hn => h n (List.mem_cons_of_mem _ hn))

/-! ### Fourth loop: the hard constraints -/

theorem init_hard_constraints_cons (n : String) (ns : List String) (r r' : Robot)
    (h : Robot.init_hard_constraints (n :: ns) r = .ok r') :
    (∃ c, StdMap.find r.hard_map_ n = some c ∧ Robot.init_hard_constraints ns r = .ok r') ∨
    (StdMap.find r.hard_map_ n = none ∧
      ∃ j, StdMap.find r.robot_model_.joints_ n = some (some j) ∧
        ((¬ (j.type = JointType.REVOLUTE ∨ j.type = JointType.PRISMATIC) ∧
            Robot.init_hard_constraints ns r = .ok r') ∨
         ((j.type = JointType.REVOLUTE ∨ j.type = JointType.PRISMATIC) ∧
            ∃ q limits spec, Robot.get_joint r n = .ok q ∧ j.limits = some limits ∧
              spec = ⟨.input q, double_sub_spec [double_const_spec limits.lower, .input q],
                      double_sub_spec [double_const_spec limits.upper, .input q]⟩ ∧
              Robot.init_hard_constraints ns
                { r with hard_map_ := StdMap.insert r.hard_map_ n spec } = .ok r'))) := by
  simp only [Robot.init_hard_constraints] at h
  cases hc : StdMap.find r.hard_map_ n with
  | some c =>
    simp only [hc] at h
    exact Or.inl ⟨c, rfl, h⟩
  | none =>
    simp only [hc] at h
    refine Or.inr ⟨rfl, ?_⟩
    cases hj : StdMap.find r.robot_model_.joints_ n with
    | none => simp [hj] at h
    | some oj =>
      cases oj with
      | none => simp [hj] at h
      | some j =>
        simp only [hj] at h
        refine ⟨j, rfl, ?_⟩
        by_cases hb : j.type = JointType.REVOLUTE ∨ j.type = JointType.PRISMATIC
        · simp only [hb, if_true] at h
          obtain ⟨q, hq, h⟩ := (Outcome.bind_eq_ok _ _ _).1 h
          cases hl : j.limits with
          | none => simp [hl] at h
          | some limits =>
            simp only [hl] at h
            exact Or.inr ⟨hb, q, limits, _, hq, rfl, rfl, h⟩
        · simp only [hb, if_false] at h
          exact Or.inl ⟨hb, h⟩

theorem init_hard_constraints_eq (names : List String) :
    ∀ (r r' : Robot), Robot.init_hard_constraints names r = .ok r' →
      r' = { r with hard_map_ := r'.hard_map_ } := by
  induction names with
  | nil =>
    intro r r' h
    simp only [Robot.init_hard_constraints, Outcome.ok.injEq] at h
    subst h
    rfl
  | cons n ns ih =>
    intro r r' h
    rcases init_hard_constraints_cons n ns r r' h with
      ⟨c, _, h⟩ | ⟨_, j, _, ⟨_, h⟩ | ⟨_, q, limits, spec, _, _, _, h⟩⟩
    · exact ih _ _ h
    · exact ih _ _ h
    · have h1 := ih _ _ h
      exact h1

theorem init_hard_constraints_stable (names : List String) :
    ∀ (r r' : Robot), Robot.init_hard_constraints names r = .ok r' →
      ∀ n c, StdMap.find r.hard_map_ n = some c → StdMap.find r'.hard_map_ n = some c := by
  induction names with
  | nil =>
    intro r r' h n c hc
    simp only [Robot.init_hard_constraints, Outcome.ok.injEq] at h
    subst h
    exact hc
  | cons m ms ih =>
    intro r r' h n c hn
    rcases init_hard_constraints_cons m ms r r' h with
      ⟨c', _, h⟩ | ⟨_, j, _, ⟨_, h⟩ | ⟨_, q, limits, spec, _, _, _, h⟩⟩
    · exact ih _ _ h n c hn
    · exact ih _ _ h n c hn
    · exact ih _ _ h n c (StdMap.find_insert_of_some _ _ _ _ _ hn)

theorem init_hard_constraints_complete (names : List String) :
    ∀ (r r' : Robot), Robot.init_hard_constraints names r = .ok r' →
      ∀ n ∈ names, StdMap.find r'.hard_map_ n = none →
        ∃ j, StdMap.find r.robot_model_.joints_ n = some (some j) ∧
          ¬ (j.type = JointType.REVOLUTE ∨ j.type = JointType.PRISMATIC) := by
  induction names with
  | nil => intro r r' _ n hn; simp at hn
  | cons m ms ih =>
    intro r r' h n hn hnone
    rcases init_hard_constraints_cons m ms r r' h with
      ⟨c', hc, hrec⟩ | ⟨hc, j, hj, ⟨hb, hrec⟩ | ⟨hb, q, limits, spec, hq, hl, hspec, hrec⟩⟩
    · rcases List.mem_cons.1 hn with rfl | hn
      · rw [init_hard_constraints_stable ms _ _ hrec n c' hc] at hnone
        cases hnone
      · exact ih _ _ hrec n hn hnone
    · rcases List.mem_cons.1 hn with rfl | hn
      · exact ⟨j, hj, hb⟩
      · exact ih _ _ hrec n hn hnone
    · rcases List.mem_cons.1 hn with rfl | hn
      · rw [init_hard_constraints_stable ms _ _ hrec n _ (StdMap.find_insert_self _ _ _ hc)] at hnone
        cases hnone
      · exact ih _ _ hrec n hn hnone

theorem init_hard_constraints_origin (names : List String) :
    ∀ (r r' : Robot), Robot.init_hard_constraints names r = .ok r' →
      ∀ n c, StdMap.find r'.hard_map_ n = some c →
        StdMap.find r.hard_map_ n = some c ∨
        ∃ q j limits, Robot.get_joint r n = .ok q ∧
          StdMap.find r.robot_model_.joints_ n = some (some j) ∧
          (j.type = JointType.REVOLUTE ∨ j.type = JointType.PRISMATIC) ∧
          j.limits = some limits ∧
          c = ⟨.input q, double_sub_spec [double_const_spec limits.lower, .input q],
                double_sub_spec [double_const_spec limits.upper, .input q]⟩ := by
  induction names with
  | nil =>
    intro r r' h n c hc
    simp only [Robot.init_hard_constraints, Outcome.ok.injEq] at h
    subst h
    exact Or.inl hc
  | cons m ms ih =>
    intro r r' h n c hn
    rcases init_hard_constraints_cons m ms r r' h with
      ⟨c', hc, h⟩ | ⟨hc, j, hj, ⟨hb, h⟩ | ⟨hb, q, limits, spec, hq, hl, hspec, h⟩⟩
    · exact ih _ _ h n c hn
    · exact ih _ _ h n c hn
    · rcases ih _ _ h n c hn with h1 | h1
      · by_cases hmn : m = n
        · subst hmn
          rw [StdMap.find_insert_self _ _ _ hc] at h1
          exact Or.inr ⟨q, j, limits, hq, hj, hb, hl, (Option.some.inj h1).symm.trans hspec⟩
        · rw [StdMap.find_insert_ne _ _ _ _ hmn] at h1
          exact Or.inl h1
      · exact Or.inr h1

theorem init_hard_constraints_ascending (names : List String) :
    ∀ (r r' : Robot), Robot.init_hard_constraints names r = .ok r' →
      StdMap.Ascending r.hard_map_ → StdMap.Ascending r'.hard_map_ := by
  induction names with
  | nil =>
    intro r r' h hs
    simp only [Robot.init_hard_constraints, Outcome.ok.injEq] at h
    subst h
    exact hs
  | cons m ms ih =>
    intro r r' h hs
    rcases init_hard_constraints_cons m ms r r' h with
      ⟨c', _, h⟩ | ⟨_, j, _, ⟨_, h⟩ | ⟨_, q, limits, spec, _, _, _, h⟩⟩
    · exact ih _ _ h hs
    · exact ih _ _ h hs
    · exact ih _ _ h (StdMap.ascending_insert _ _ _ hs)

theorem init_hard_constraints_noop (names : List String) :
    ∀ (r : Robot),
      (∀ n ∈ names, StdMap.find r.hard_map_ n = none →
        ∃ j, StdMap.find r.robot_model_.joints_ n = some (some j) ∧
          ¬ (j.type = JointType.REVOLUTE ∨ j.type = JointType.PRISMATIC)) →
      Robot.init_hard_constraints names r = .ok r := by
  induction names with
  | nil => intro r _; rfl
  | cons m ms ih =>
    intro r h
    have hrest := ih r (fun n hn => h n (List.mem_cons_of_mem _ hn))
    cases hm : StdMap.find r.hard_map_ m with
    | some c => simp only [Robot.init_hard_constraints, hm]; exact hrest
    | none =>
      obtain ⟨j, hj, hb⟩ := h m (List.mem_cons_self _ _) hm
      simp only [Robot.init_hard_constraints, hm, hj, hb, if_false]
      exact hrest

/-! ### `init_kinematic_chain` -/

theorem get_joint_congr (r r' : Robot) (h : r'.joint_map_ = r.joint_map_) (n : String) :
    Robot.get_joint r' n = Robot.get_joint r n := by
  unfold Robot.get_joint
  rw [h]

theorem get_weight_congr (r r' : Robot) (h : r'.weights_ = r.weights_) (n : String) :
    Robot.get_weight r' n = Robot.get_weight r n := by
  unfold Robot.get_weight
  rw [h]

theorem get_velocity_limit_congr (r r' : Robot) (hm : r'.robot_model_ = r.robot_model_)
    (ht : r'.thresholds_ = r.thresholds_) (n : String) :
    Robot.get_velocity_limit r' n = Robot.get_velocity_limit r n := by
  unfold Robot.get_velocity_limit
  rw [hm, ht]

theorem chain_joint_names_congr (r r' : Robot) (hm : r'.robot_model_ = r.robot_model_)
    (ht : r'.parent_link_tree_ = r.parent_link_tree_) (root : String) (b : Bool) :
    ∀ (fuel : Nat) (current : String) (acc : List String),
      Robot.chain_joint_names_loop r' root b fuel current acc
        = Robot.chain_joint_names_loop r root b fuel current acc := by
  intro fuel
  induction fuel with
  | zero => intro current acc; rfl
  | succ fuel ih =>
    intro current acc
    simp only [Robot.chain_joint_names_loop, hm, ht, ih]

/-- What a successful `init_kinematic_chain` did, loop by loop. -/
theorem init_kinematic_chain_ok (fuel : Nat) (r r' : Robot) (root tip : String)
    (h : Robot.init_kinematic_chain fuel r root tip = .ok r') :
    ∃ mv all ts r2 r3,
      Robot.chain_joint_names fuel r root tip false = .ok mv ∧
      Robot.chain_joint_names fuel r root tip true = .ok all ∧
      Robot.init_joint_transforms (Robot.init_joint_inputs mv r) all
        [frame_constructor_spec_default] = .ok ts ∧
      r2 = { Robot.init_joint_inputs mv r with fk_map_ := StdMap.insert (Robot.init_joint_inputs mv r).fk_map_ (root, tip) (cached_frame (frame_multiplication_spec ts)) } ∧
      Robot.init_controllable_constraints mv r2 = .ok r3 ∧
      Robot.init_hard_constraints mv r3 = .ok r' := by
  unfold Robot.init_kinematic_chain at h
  obtain ⟨mv, hmv, h⟩ := (Outcome.bind_eq_ok _ _ _).1 h
  obtain ⟨all, hall, h⟩ := (Outcome.bind_eq_ok _ _ _).1 h
  obtain ⟨ts, hts, h⟩ := (Outcome.bind_eq_ok _ _ _).1 h
  obtain ⟨r3, hr3, h⟩ := (Outcome.bind_eq_ok _ _ _).1 h
  exact ⟨mv, all, ts, _, r3, hmv, hall, hts, rfl, hr3, h⟩

/-- The fields of the robot after a successful `init_kinematic_chain`. -/
theorem init_kinematic_chain_fields (fuel : Nat) (r r' : Robot) (root tip : String)
    (h : Robot.init_kinematic_chain fuel r root tip = .ok r') :
    r'.robot_model_ = r.robot_model_ ∧ r'.parent_link_tree_ = r.parent_link_tree_ ∧
    r'.weights_ = r.weights_ ∧ r'.thresholds_ = r.thresholds_ ∧
    r'.root_link_ = r.root_link_ := by
  obtain ⟨mv, all, ts, r2, r3, _, _, _, hr2, hr3, hr'⟩ := init_kinematic_chain_ok fuel r r' root tip h
  have e1 := init_joint_inputs_eq mv r
  have e3 := init_controllable_constraints_eq mv r2 r3 hr3
  have e4 := init_hard_constraints_eq mv r3 r' hr'
  rw [e4, e3, hr2, e1]
  exact ⟨rfl, rfl, rfl, rfl, rfl⟩

theorem moveable_subset_all (fuel : Nat) (r : Robot) (root tip : String) (mv all : List String)
    (hmv : Robot.chain_joint_names fuel r root tip false = .ok mv)
    (hall : Robot.chain_joint_names fuel r root tip true = .ok all) :
    ∀ n ∈ mv, n ∈ all := by
  obtain ⟨js, hw, hlen⟩ := walk_of_chain_joint_names r root tip fuel true all hall
  rw [chain_joint_names_of_walk r root tip js fuel true hw hlen] at hall
  rw [chain_joint_names_of_walk r root tip js fuel false hw hlen] at hmv
  cases hall
  cases hmv
  intro n hn
  simp only [List.mem_map, List.mem_filter] at hn ⊢
  obtain ⟨j, ⟨hj, _⟩, hname⟩ := hn
  exact ⟨j, ⟨hj, by simp⟩, hname⟩

/-- The invariant holds before the first chain is processed. -/
theorem initial_inv (robot_model : Model) (parent_link_tree : StdMap String String)
    (root_link : String) (weights thresholds : StdMap String Double) :
    Robot.Inv (Robot.initial robot_model parent_link_tree root_link weights thresholds) where
  joint_ascending := List.Pairwise.nil
  controllable_ascending := List.Pairwise.nil
  hard_ascending := List.Pairwise.nil
  joint_perm := List.Perm.refl _
  joint_model := fun n h => absurd rfl h
  controllable_sound := fun n c h => by simp [Robot.initial, StdMap.find] at h
  controllable_complete := fun n h => absurd rfl h
  hard_sound := fun n c h => by simp [Robot.initial, StdMap.find] at h
  hard_complete := fun n j h _ _ => absurd rfl h

/-- A successful `init_kinematic_chain` preserves the invariant. -/
theorem init_kinematic_chain_inv (fuel : Nat) (r r' : Robot) (root tip : String)
    (hinv : Robot.Inv r) (h : Robot.init_kinematic_chain fuel r root tip = .ok r') :
    Robot.Inv r' := by
  obtain ⟨mv, all, ts, r2, r3, hmv, hall, hts, hr2, hr3, hr'⟩ :=
    init_kinematic_chain_ok fuel r r' root tip h
  obtain ⟨hmodel, -, hweights, hthresholds, -⟩ := init_kinematic_chain_fields fuel r r' root tip h
  have e1 := init_joint_inputs_eq mv r
  have e3 := init_controllable_constraints_eq mv r2 r3 hr3
  have e4 := init_hard_constraints_eq mv r3 r' hr'
  subst hr2
  -- the maps of the states in between
  have hjm3 : r3.joint_map_ = (Robot.init_joint_inputs mv r).joint_map_ := by
    have e := congrArg Robot.joint_map_ e3
    exact e
  have hjm : r'.joint_map_ = (Robot.init_joint_inputs mv r).joint_map_ := by
    have e := congrArg Robot.joint_map_ e4
    exact e.trans hjm3
  have hcm : r'.controllable_map_ = r3.controllable_map_ := by
    have e := congrArg Robot.controllable_map_ e4
    exact e
  have hcm1 : (Robot.init_joint_inputs mv r).controllable_map_ = r.controllable_map_ := by
    have e := congrArg Robot.controllable_map_ e1
    exact e
  have hhm1 : (Robot.init_joint_inputs mv r).hard_map_ = r.hard_map_ := by
    have e := congrArg Robot.hard_map_ e1
    exact e
  have hhm3 : r3.hard_map_ = r.hard_map_ := by
    have e := congrArg Robot.hard_map_ e3
    exact e.trans hhm1
  have hmodel1 : (Robot.init_joint_inputs mv r).robot_model_ = r.robot_model_ := by
    have e := congrArg Robot.robot_model_ e1
    exact e
  have hmodel3 : r3.robot_model_ = r.robot_model_ := by
    have e := congrArg Robot.robot_model_ e3
    exact e.trans hmodel1
  have hweights1 : (Robot.init_joint_inputs mv r).weights_ = r.weights_ := by
    have e := congrArg Robot.weights_ e1
    exact e
  have hthresholds1 : (Robot.init_joint_inputs mv r).thresholds_ = r.thresholds_ := by
    have e := congrArg Robot.thresholds_ e1
    exact e
  -- lookups in the registry are stable
  have hstable : ∀ n q, Robot.get_joint r n = .ok q → Robot.get_joint r' n = .ok q := by
    intro n q hq
    rw [get_joint_eq_ok] at hq ⊢
    rw [hjm]
    exact init_joint_inputs_stable mv r n q hq
  have horigin : ∀ n, StdMap.find r'.joint_map_ n ≠ none →
      StdMap.find r.joint_map_ n ≠ none ∨ n ∈ mv := by
    intro n hn
    rw [hjm] at hn
    exact init_joint_inputs_origin mv r n hn
  refine
    { joint_ascending := ?_, controllable_ascending := ?_, hard_ascending := ?_, joint_perm := ?_,
      joint_model := ?_, controllable_sound := ?_, controllable_complete := ?_,
      hard_sound := ?_, hard_complete := ?_ }
  · rw [hjm]
    exact init_joint_inputs_ascending mv r hinv.joint_ascending
  · rw [hcm]
    refine init_controllable_constraints_ascending mv _ r3 hr3 ?_
    show StdMap.Ascending (Robot.init_joint_inputs mv r).controllable_map_
    rw [hcm1]
    exact hinv.controllable_ascending
  · refine init_hard_constraints_ascending mv r3 r' hr' ?_
    rw [hhm3]
    exact hinv.hard_ascending
  · rw [hjm]
    exact init_joint_inputs_perm mv r hinv.joint_perm
  · intro n hn
    rw [hmodel]
    rcases horigin n hn with h1 | h1
    · exact hinv.joint_model n h1
    · have hj := init_joint_transforms_joints _ all _ ts hts n
        (moveable_subset_all fuel r root tip mv all hmv hall n h1)
      rw [hmodel1] at hj
      exact hj
  · intro n c hc
    rw [hcm] at hc
    rw [get_weight_congr r r' hweights, get_velocity_limit_congr r r' hmodel hthresholds]
    rcases init_controllable_constraints_origin mv _ r3 hr3 n c hc with h1 | ⟨q, w, v, hq, hw, hv, hceq⟩
    · have h1' : StdMap.find r.controllable_map_ n = some c := by
        rw [← hcm1]
        exact h1
      obtain ⟨q, w, v, hq, hw, hv, hceq⟩ := hinv.controllable_sound n c h1'
      exact ⟨q, w, v, hstable n q hq, hw, hv, hceq⟩
    · refine ⟨q, w, v, ?_, ?_, ?_, hceq⟩
      · rw [get_joint_eq_ok] at hq ⊢
        rw [hjm]
        exact hq
      · rw [← get_weight_congr r _ hweights1 n]
        exact hw
      · rw [← get_velocity_limit_congr r _ hmodel1 hthresholds1 n]
        exact hv
  · intro n hn
    rw [hcm]
    rcases horigin n hn with h1 | h1
    · have h2 := hinv.controllable_complete n h1
      cases hc : StdMap.find r.controllable_map_ n with
      | none => exact absurd hc h2
      | some c =>
        have hc' : StdMap.find (Robot.init_joint_inputs mv r).controllable_map_ n = some c := by
          rw [hcm1]
          exact hc
        rw [init_controllable_constraints_stable mv _ r3 hr3 n c hc']
        simp
    · exact init_controllable_constraints_registers mv _ r3 hr3 n h1
  · intro n c hc
    rw [hmodel]
    rcases init_hard_constraints_origin mv r3 r' hr' n c hc with
      h1 | ⟨q, j, limits, hq, hj, hb, hl, hceq⟩
    · rw [hhm3] at h1
      obtain ⟨q, j, limits, hq, hj, hb, hl, hceq⟩ := hinv.hard_sound n c h1
      exact ⟨q, j, limits, hstable n q hq, hj, hb, hl, hceq⟩
    · refine ⟨q, j, limits, ?_, ?_, hb, hl, hceq⟩
      · rw [get_joint_eq_ok] at hq ⊢
        rw [hjm, ← hjm3]
        exact hq
      · rw [← hmodel3]
        exact hj
  · intro n j hn hj hb
    rw [hmodel] at hj
    rcases horigin n hn with h1 | h1
    · have h2 := hinv.hard_complete n j h1 hj hb
      cases hc : StdMap.find r.hard_map_ n with
      | none => exact absurd hc h2
      | some c =>
        have hc' : StdMap.find r3.hard_map_ n = some c := by
          rw [hhm3]
          exact hc
        rw [init_hard_constraints_stable mv r3 r' hr' n c hc']
        simp
    · intro hnone
      obtain ⟨j', hj', hb'⟩ := init_hard_constraints_complete mv r3 r' hr' n h1 hnone
      rw [hmodel3, hj] at hj'
      cases hj'
      exact hb' hb

theorem init_chains_inv (fuel : Nat) (chains : List (String × String)) :
    ∀ (r r' : Robot), Robot.Inv r → Robot.init_chains fuel chains r = .ok r' → Robot.Inv r' := by
  induction chains with
  | nil =>
    intro r r' hinv h
    simp only [Robot.init_chains, Outcome.ok.injEq] at h
    subst h
    exact hinv
  | cons c cs ih =>
    intro r r' hinv h
    simp only [Robot.init_chains] at h
    obtain ⟨r1, h1, h⟩ := (Outcome.bind_eq_ok _ _ _).1 h
    exact ih r1 r' (init_kinematic_chain_inv fuel r r1 c.1 c.2 hinv h1) h

theorem init_tips_eq_init_chains (fuel : Nat) (root_link : String) (tips : List String) :
    ∀ r : Robot, Robot.init_tips fuel root_link tips r
      = Robot.init_chains fuel (tips.map fun tip => (root_link, tip)) r := by
  induction tips with
  | nil => intro r; rfl
  | cons t ts ih =>
    intro r
    simp only [Robot.init_tips, Robot.init_chains, List.map_cons, ih]

/-- Every robot is the result of processing a list of chains from the initial state. -/
theorem Constructed.chains (r : Robot) (h : Robot.Constructed r) :
    ∃ fuel robot_model parent_link_tree root_link chain_links weights thresholds,
      Robot.init_chains fuel chain_links
        (Robot.initial robot_model parent_link_tree root_link weights thresholds) = .ok r := by
  rcases h with ⟨fuel, m, plt, root, tips, w, t, h⟩ | ⟨fuel, m, plt, root, chains, w, t, h⟩
  · refine ⟨fuel, m, plt, root, tips.map fun tip => (root, tip), w, t, ?_⟩
    rw [← init_tips_eq_init_chains]
    exact h
  · exact ⟨fuel, m, plt, root, chains, w, t, h⟩

theorem Constructed.inv (r : Robot) (h : Robot.Constructed r) : Robot.Inv r := by
  obtain ⟨fuel, m, plt, root, chains, w, t, h⟩ := Constructed.chains r h
  exact init_chains_inv fuel chains _ r (initial_inv m plt root w t) h

theorem Outcome.eq_ok_getD {α : Type} (o : Outcome α) (fallback : α) (h : o.isOk = true) :
    o = .ok (o.getD fallback) := by
  cases o <;> simp [Outcome.isOk, Outcome.getD] at h ⊢

theorem Example.robot1_constructed : Robot.Constructed Example.robot1 :=
  Or.inl ⟨4, Example.model, Example.parent_link_tree, "base", ["l4"], Example.weights,
    Example.thresholds, Outcome.eq_ok_getD _ _ (by decide!)⟩

/-- C3: in a constructed robot the registry maps its `n` joint names injectively
onto the indices `0, ..., n-1`; processing one more chain keeps the index of
every registered joint and gives the moveable joints of the chain that were not
registered the indices `n, n+1, ...` in root-to-tip order of their first
occurrences. -/
theorem joint_indices_first_discovery (r : Robot) (hr : Robot.Constructed r) :
    (r.joint_map_.map Prod.fst).Nodup ∧
    (r.joint_map_.map fun e => e.2.get_input_num).Perm
      (List.range (Robot.get_number_of_joints r)) ∧
    ∀ fuel root tip r', Robot.init_kinematic_chain fuel r root tip = .ok r' →
      ∃ moveable, Robot.chain_joint_names fuel r root tip false = .ok moveable ∧
        (∀ name q, Robot.get_joint r name = .ok q → Robot.get_joint r' name = .ok q) ∧
        Robot.get_number_of_joints r'
          = Robot.get_number_of_joints r + (newNames r.joint_map_ moveable).length ∧
        ∀ i name, (newNames r.joint_map_ moveable)[i]? = some name →
          Robot.get_joint r' name = .ok (input (Robot.get_number_of_joints r + i)) := by
  have hinv := Constructed.inv r hr
  refine ⟨StdMap.Ascending.keys_nodup _ hinv.joint_ascending, hinv.joint_perm, ?_⟩
  intro fuel root tip r' h
  obtain ⟨mv, all, ts, r2, r3, hmv, hall, hts, hr2, hr3, hr'⟩ :=
    init_kinematic_chain_ok fuel r r' root tip h
  have e3 := init_controllable_constraints_eq mv r2 r3 hr3
  have e4 := init_hard_constraints_eq mv r3 r' hr'
  subst hr2
  have hjm : r'.joint_map_ = (Robot.init_joint_inputs mv r).joint_map_ := by
    have e := congrArg Robot.joint_map_ e4
    have e' := congrArg Robot.joint_map_ e3
    exact e.trans e'
  obtain ⟨hsize, hidx⟩ := init_joint_inputs_new mv r
  refine ⟨mv, hmv, ?_, ?_, ?_⟩
  · intro name q hq
    rw [get_joint_eq_ok] at hq ⊢
    rw [hjm]
    exact init_joint_inputs_stable mv r name q hq
  · unfold Robot.get_number_of_joints
    rw [hjm]
    exact hsize
  · intro i name hi
    rw [get_joint_eq_ok, hjm]
    exact hidx i name hi

theorem joint_indices_first_discovery_witness :
    Robot.Constructed Example.robot1 ∧
      (Example.robot1.joint_map_.map fun e => e.2.get_input_num).Perm
        (List.range (Robot.get_number_of_joints Example.robot1)) :=
  ⟨Example.robot1_constructed,
   (joint_indices_first_discovery Example.robot1 Example.robot1_constructed).2.1⟩

/-! ### Processing a chain again -/

theorem Extends.refl (r : Robot) : Robot.Extends r r :=
  ⟨rfl, rfl, fun _ _ h => h, fun _ _ h => h, fun _ _ h => h, fun _ _ h => h⟩

theorem Extends.trans (r1 r2 r3 : Robot) (h12 : Robot.Extends r1 r2) (h23 : Robot.Extends r2 r3) :
    Robot.Extends r1 r3 :=
  ⟨h23.robot_model.trans h12.robot_model, h23.parent_link_tree.trans h12.parent_link_tree,
   fun n q h => h23.joint_map n q (h12.joint_map n q h),
   fun n c h => h23.controllable_map n c (h12.controllable_map n c h),
   fun n c h => h23.hard_map n c (h12.hard_map n c h),
   fun k f h => h23.fk_map k f (h12.fk_map k f h)⟩

/-- A successful `init_kinematic_chain` only adds entries. -/
theorem init_kinematic_chain_extends (fuel : Nat) (r r' : Robot) (root tip : String)
    (h : Robot.init_kinematic_chain fuel r root tip = .ok r') : Robot.Extends r r' := by
  obtain ⟨mv, all, ts, r2, r3, hmv, hall, hts, hr2, hr3, hr'⟩ :=
    init_kinematic_chain_ok fuel r r' root tip h
  obtain ⟨hmodel, hplt, -, -, -⟩ := init_kinematic_chain_fields fuel r r' root tip h
  have e1 := init_joint_inputs_eq mv r
  have e3 := init_controllable_constraints_eq mv r2 r3 hr3
  have e4 := init_hard_constraints_eq mv r3 r' hr'
  subst hr2
  refine ⟨hmodel, hplt, ?_, ?_, ?_, ?_⟩
  · intro n q hq
    have hjm : r'.joint_map_ = (Robot.init_joint_inputs mv r).joint_map_ := by
      have e := congrArg Robot.joint_map_ e4
      have e' := congrArg Robot.joint_map_ e3
      exact e.trans e'
    rw [hjm]
    exact init_joint_inputs_stable mv r n q hq
  · intro n c hc
    have hcm : r'.controllable_map_ = r3.controllable_map_ := by
      have e := congrArg Robot.controllable_map_ e4
      exact e
    have hcm1 : (Robot.init_joint_inputs mv r).controllable_map_ = r.controllable_map_ := by
      have e := congrArg Robot.controllable_map_ e1
      exact e
    rw [hcm]
    refine init_controllable_constraints_stable mv _ r3 hr3 n c ?_
    show StdMap.find (Robot.init_joint_inputs mv r).controllable_map_ n = some c
    rw [hcm1]
    exact hc
  · intro n c hc
    have hhm3 : r3.hard_map_ = r.hard_map_ := by
      have e := congrArg Robot.hard_map_ e3
      have e' := congrArg Robot.hard_map_ e1
      exact e.trans e'
    refine init_hard_constraints_stable mv r3 r' hr' n c ?_
    rw [hhm3]
    exact hc
  · intro k f hf
    have hfk : r'.fk_map_ = StdMap.insert (Robot.init_joint_inputs mv r).fk_map_ (root, tip)
        (cached_frame (frame_multiplication_spec ts)) := by
      have e := congrArg Robot.fk_map_ e4
      have e' := congrArg Robot.fk_map_ e3
      exact e.trans e'
    have hfk1 : (Robot.init_joint_inputs mv r).fk_map_ = r.fk_map_ := by
      have e := congrArg Robot.fk_map_ e1
      exact e
    rw [hfk, hfk1]
    exact StdMap.find_insert_of_some _ _ _ _ _ hf

theorem chain_joint_names_extends (r r' : Robot) (hext : Robot.Extends r r') (fuel : Nat)
    (root tip : String) (b : Bool) :
    Robot.chain_joint_names fuel r' root tip b = Robot.chain_joint_names fuel r root tip b :=
  chain_joint_names_congr r r' hext.robot_model hext.parent_link_tree root b fuel tip []

/-- A processed chain stays processed in every later state. -/
theorem ChainDone.extends (fuel : Nat) (r r' : Robot) (root tip : String)
    (hext : Robot.Extends r r') (h : Robot.ChainDone fuel r root tip) :
    Robot.ChainDone fuel r' root tip := by
  obtain ⟨mv, all, ts, hmv, hall, hts, hjoints, hfk⟩ := h
  refine ⟨mv, all, ts, ?_, ?_, ?_, ?_, ?_⟩
  · rw [chain_joint_names_extends r r' hext]
    exact hmv
  · rw [chain_joint_names_extends r r' hext]
    exact hall
  · exact init_joint_transforms_mono r r' hext.robot_model hext.joint_map all _ ts hts
  · intro n hn
    obtain ⟨hj, hc, hh⟩ := hjoints n hn
    refine ⟨?_, ?_, ?_⟩
    · cases hq : StdMap.find r.joint_map_ n with
      | none => exact absurd hq hj
      | some q => rw [hext.joint_map n q hq]; simp
    · cases hq : StdMap.find r.controllable_map_ n with
      | none => exact absurd hq hc
      | some c => rw [hext.controllable_map n c hq]; simp
    · intro hnone
      rw [hext.robot_model]
      apply hh
      cases hq : StdMap.find r.hard_map_ n with
      | none => rfl
      | some c =>
        rw [hext.hard_map n c hq] at hnone
        cases hnone
  · cases hq : StdMap.find r.fk_map_ (root, tip) with
    | none => exact absurd hq hfk
    | some f => rw [hext.fk_map _ f hq]; simp

/-- After a successful `init_kinematic_chain(root, tip)` the chain is processed. -/
theorem init_kinematic_chain_done (fuel : Nat) (r r' : Robot) (root tip : String)
    (h : Robot.init_kinematic_chain fuel r root tip = .ok r') :
    Robot.ChainDone fuel r' root tip := by
  have hext := init_kinematic_chain_extends fuel r r' root tip h
  obtain ⟨mv, all, ts, r2, r3, hmv, hall, hts, hr2, hr3, hr'⟩ :=
    init_kinematic_chain_ok fuel r r' root tip h
  have e1 := init_joint_inputs_eq mv r
  have e3 := init_controllable_constraints_eq mv r2 r3 hr3
  have e4 := init_hard_constraints_eq mv r3 r' hr'
  subst hr2
  have hjm : r'.joint_map_ = (Robot.init_joint_inputs mv r).joint_map_ := by
    have e := congrArg Robot.joint_map_ e4
    have e' := congrArg Robot.joint_map_ e3
    exact e.trans e'
  have hmodel1 : r'.robot_model_ = (Robot.init_joint_inputs mv r).robot_model_ := by
    have e := congrArg Robot.robot_model_ e4
    have e' := congrArg Robot.robot_model_ e3
    exact e.trans e'
  have hmodel3 : r3.robot_model_ = r'.robot_model_ := by
    have e := congrArg Robot.robot_model_ e4
    exact e.symm
  have hcm : r'.controllable_map_ = r3.controllable_map_ := by
    have e := congrArg Robot.controllable_map_ e4
    exact e
  have hfk : r'.fk_map_ = StdMap.insert (Robot.init_joint_inputs mv r).fk_map_ (root, tip)
      (cached_frame (frame_multiplication_spec ts)) := by
    have e := congrArg Robot.fk_map_ e4
    have e' := congrArg Robot.fk_map_ e3
    exact e.trans e'
  refine ⟨mv, all, ts, ?_, ?_, ?_, ?_, ?_⟩
  · rw [chain_joint_names_extends r r' hext]
    exact hmv
  · rw [chain_joint_names_extends r r' hext]
    exact hall
  · refine init_joint_transforms_mono (Robot.init_joint_inputs mv r) r' hmodel1 ?_ all _ ts hts
    intro n q hq
    rw [hjm]
    exact hq
  · intro n hn
    refine ⟨?_, ?_, ?_⟩
    · rw [hjm]
      exact init_joint_inputs_registers mv r n hn
    · rw [hcm]
      exact init_controllable_constraints_registers mv _ r3 hr3 n hn
    · intro hnone
      rw [← hmodel3]
      exact init_hard_constraints_complete mv r3 r' hr' n hn hnone
  · rw [hfk]
    cases hq : StdMap.find (Robot.init_joint_inputs mv r).fk_map_ (root, tip) with
    | none => rw [StdMap.find_insert_self _ _ _ hq]; simp
    | some f => rw [StdMap.find_insert_of_some _ _ _ _ _ hq]; simp

/-- Processing a processed chain again returns the same state. -/
theorem ChainDone.again (fuel : Nat) (r : Robot) (root tip : String)
    (h : Robot.ChainDone fuel r root tip) :
    Robot.init_kinematic_chain fuel r root tip = .ok r := by
  obtain ⟨mv, all, ts, hmv, hall, hts, hjoints, hfk⟩ := h
  unfold Robot.init_kinematic_chain
  rw [hmv, hall]
  simp only [Outcome.bind]
  rw [init_joint_inputs_noop mv r (fun n hn => (hjoints n hn).1), hts]
  simp only [Outcome.bind]
  cases hq : StdMap.find r.fk_map_ (root, tip) with
  | none => exact absurd hq hfk
  | some f =>
    rw [StdMap.insert_of_find_some _ _ _ f hq]
    have hr : ({ r with fk_map_ := r.fk_map_ } : Robot) = r := rfl
    rw [hr, init_controllable_constraints_noop mv r (fun n hn => (hjoints n hn).2.1)]
    simp only [Outcome.bind]
    exact init_hard_constraints_noop mv r (fun n hn => (hjoints n hn).2.2)

theorem init_chains_extends (fuel : Nat) (chains : List (String × String)) :
    ∀ (r r' : Robot), Robot.init_chains fuel chains r = .ok r' → Robot.Extends r r' := by
  induction chains with
  | nil =>
    intro r r' h
    simp only [Robot.init_chains, Outcome.ok.injEq] at h
    subst h
    exact Extends.refl r
  | cons c cs ih =>
    intro r r' h
    simp only [Robot.init_chains] at h
    obtain ⟨r1, h1, h⟩ := (Outcome.bind_eq_ok _ _ _).1 h
    exact Extends.trans r r1 r' (init_kinematic_chain_extends fuel r r1 c.1 c.2 h1) (ih r1 r' h)

theorem init_chains_done (fuel : Nat) (chains : List (String × String)) :
    ∀ (r r' : Robot), Robot.init_chains fuel chains r = .ok r' →
      ∀ root tip, (root, tip) ∈ chains → Robot.ChainDone fuel r' root tip := by
  induction chains with
  | nil => intro r r' _ root tip hmem; simp at hmem
  | cons c cs ih =>
    intro r r' h root tip hmem
    simp only [Robot.init_chains] at h
    obtain ⟨r1, h1, hrest⟩ := (Outcome.bind_eq_ok _ _ _).1 h
    rcases List.mem_cons.1 hmem with heq | hmem
    · subst heq
      exact ChainDone.extends fuel r1 r' _ _ (init_chains_extends fuel cs r1 r' hrest)
        (init_kinematic_chain_done fuel r r1 _ _ h1)
    · exact ih r1 r' hrest root tip hmem

/-- More fuel does not change the result of a call that returned. -/
theorem chain_joint_names_fuel_mono (fuel fuel' : Nat) (hfuel : fuel ≤ fuel') (r : Robot)
    (root tip : String) (b : Bool) (names : List String)
    (h : Robot.chain_joint_names fuel r root tip b = .ok names) :
    Robot.chain_joint_names fuel' r root tip b = .ok names := by
  obtain ⟨js, hw, hlen⟩ := walk_of_chain_joint_names r root tip fuel b names h
  rw [chain_joint_names_of_walk r root tip js fuel b hw hlen] at h
  rw [chain_joint_names_of_walk r root tip js fuel' b hw (le_trans hlen hfuel)]
  exact h

theorem ChainDone.fuel_mono (fuel fuel' : Nat) (hfuel : fuel ≤ fuel') (r : Robot)
    (root tip : String) (h : Robot.ChainDone fuel r root tip) :
    Robot.ChainDone fuel' r root tip := by
  obtain ⟨mv, all, ts, hmv, hall, hrest⟩ := h
  exact ⟨mv, all, ts, chain_joint_names_fuel_mono fuel fuel' hfuel r root tip false mv hmv,
    chain_joint_names_fuel_mono fuel fuel' hfuel r root tip true all hall, hrest⟩

/-- C4: in every state reached by processing chains among which is `(root, tip)`,
`init_kinematic_chain(root, tip)` succeeds again, with the same or more fuel,
and returns the state unchanged: the joint registry, the forward-kinematics map,
the controllable-constraint map and the hard-constraint map are as before. -/
theorem init_kinematic_chain_twice (fuel fuel' : Nat) (chains : List (String × String))
    (r0 r : Robot) (root tip : String)
    (hr : Robot.init_chains fuel chains r0 = .ok r) (hmem : (root, tip) ∈ chains)
    (hfuel : fuel ≤ fuel') :
    Robot.init_kinematic_chain fuel' r root tip = .ok r :=
  ChainDone.again fuel' r root tip
    (ChainDone.fuel_mono fuel fuel' hfuel r root tip
      (init_chains_done fuel chains r0 r hr root tip hmem))

theorem init_kinematic_chain_twice_witness :
    Robot.init_chains 4 [("base", "l4")] Example.robot0 = .ok Example.robot1 ∧
      ("base", "l4") ∈ [("base", "l4")] ∧ 4 ≤ 5 ∧
      Robot.init_kinematic_chain 5 Example.robot1 "base" "l4" = .ok Example.robot1 :=
  ⟨by decide!, by decide, by decide,
   init_kinematic_chain_twice 4 5 [("base", "l4")] Example.robot0 Example.robot1
     "base" "l4" (by decide!) (by decide) (by decide)⟩

/-! ### Velocity limits and weights -/

theorem get_velocity_limit_eq (r : Robot) (joint_name : String) (joint : Joint)
    (limits : JointLimits) (hj : r.robot_model_.getJoint joint_name = some joint)
    (hl : joint.limits = some limits) :
    Robot.get_velocity_limit r joint_name =
      if (StdMap.find r.thresholds_ joint_name).getD
          ((StdMap.find r.thresholds_ Robot.default_joint_velocity_key).getD limits.velocity)
          > limits.velocity
      then .error ("Came up with velocity limit faster than limit from URDF for joint '"
          ++ joint_name ++ "'.")
      else .ok ((StdMap.find r.thresholds_ joint_name).getD
          ((StdMap.find r.thresholds_ Robot.default_joint_velocity_key).getD limits.velocity)) := by
  unfold Robot.get_velocity_limit
  simp only [hj, hl]
  cases StdMap.find r.thresholds_ joint_name <;>
    cases StdMap.find r.thresholds_ Robot.default_joint_velocity_key <;> rfl

theorem Double.le_of_not_gt (v p : Double) (hv : v ≠ Double.nan) (hp : p ≠ Double.nan)
    (h : ¬ v > p) : v ≤ p := by
  cases v with
  | finite a =>
    cases p with
    | finite b =>
      have h1 : ¬ b < a := fun hlt => h (by
        show Double.lt (Double.finite b) (Double.finite a) = true
        simpa [Double.lt] using hlt)
      show Double.le (Double.finite a) (Double.finite b) = true
      simpa [Double.le] using not_lt.1 h1
    | posInf => rfl
    | negInf => exact absurd rfl h
    | nan => exact absurd rfl hp
  | posInf =>
    cases p with
    | finite b => exact absurd rfl h
    | posInf => rfl
    | negInf => exact absurd rfl h
    | nan => exact absurd rfl hp
  | negInf =>
    cases p with
    | finite b => rfl
    | posInf => rfl
    | negInf => rfl
    | nan => exact absurd rfl hp
  | nan => exact absurd rfl hv

theorem get_velocity_limit_ok (r : Robot) (joint_name : String) (v : Double)
    (h : Robot.get_velocity_limit r joint_name = .ok v) :
    ∃ joint limits, r.robot_model_.getJoint joint_name = some joint ∧
      joint.limits = some limits ∧ ¬ v > limits.velocity := by
  cases hj : r.robot_model_.getJoint joint_name with
  | none => simp [Robot.get_velocity_limit, hj] at h
  | some joint =>
    cases hl : joint.limits with
    | none => simp [Robot.get_velocity_limit, hj, hl] at h
    | some limits =>
      rw [get_velocity_limit_eq r joint_name joint limits hj hl] at h
      refine ⟨joint, limits, rfl, hl, ?_⟩
      split_ifs at h with hgt
      cases h
      exact hgt

/-- Every returned controllable constraint is an entry of the map under its name. -/
theorem mem_get_controllable_constraints (r : Robot) (hinv : Robot.Inv r)
    (c : ControllableConstraintSpec) :
    c ∈ Robot.get_controllable_constraints r ↔
      StdMap.find r.controllable_map_ c.name_ = some c := by
  unfold Robot.get_controllable_constraints Robot.std_sort
  rw [(List.perm_insertionSort _ _).mem_iff, List.mem_map]
  constructor
  · rintro ⟨⟨n, c'⟩, hmem, rfl⟩
    have hfind := StdMap.find_of_mem _
      (StdMap.Ascending.keys_nodup _ hinv.controllable_ascending) n c' hmem
    obtain ⟨q, w, v, _, _, _, hceq⟩ := hinv.controllable_sound n c' hfind
    have hname : c'.name_ = n := by rw [hceq]
    simp only [hname]
    exact hfind
  · intro h
    exact ⟨(c.name_, c), StdMap.mem_of_find _ _ _ h, rfl⟩

/-- C5, as far as it holds: every controllable constraint of a constructed robot
has the symmetric bounds `-v` and `+v`, where `v` is not greater than the
physical velocity limit of the joint of that name in the kinematic tree, the
comparison `v > limit` being false; `v` is at most that limit when neither `v`
nor the limit is NaN. -/
theorem controllable_bounds_within_limits (r : Robot) (hr : Robot.Constructed r)
    (c : ControllableConstraintSpec) (hc : c ∈ Robot.get_controllable_constraints r) :
    ∃ v joint limits, c.lower_ = double_const_spec (-v) ∧ c.upper_ = double_const_spec v ∧
      r.robot_model_.getJoint c.name_ = some joint ∧ joint.limits = some limits ∧
      ¬ v > limits.velocity ∧
      (v ≠ Double.nan → limits.velocity ≠ Double.nan → v ≤ limits.velocity) := by
  have hinv := Constructed.inv r hr
  have hfind := (mem_get_controllable_constraints r hinv c).1 hc
  obtain ⟨q, w, v, _, _, hv, hceq⟩ := hinv.controllable_sound c.name_ c hfind
  obtain ⟨joint, limits, hj, hl, hgt⟩ := get_velocity_limit_ok r c.name_ v hv
  refine ⟨v, joint, limits, ?_, ?_, hj, hl, hgt,
    fun hvn hpn => Double.le_of_not_gt v limits.velocity hvn hpn hgt⟩
  · rw [hceq]
  · rw [hceq]

theorem controllable_bounds_within_limits_witness :
    Robot.Constructed Example.robot1 ∧
      (⟨double_const_spec (-Double.finite (3 / 2)), double_const_spec (Double.finite (3 / 2)),
          double_const_spec 1, 0, "b"⟩ :
          ControllableConstraintSpec) ∈ Robot.get_controllable_constraints Example.robot1 ∧
      ∃ v joint limits,
        double_const_spec (-Double.finite (3 / 2)) = double_const_spec (-v) ∧
        double_const_spec (Double.finite (3 / 2)) = double_const_spec v ∧
        Example.robot1.robot_model_.getJoint "b" = some joint ∧ joint.limits = some limits ∧
        ¬ v > limits.velocity ∧
        (v ≠ Double.nan → limits.velocity ≠ Double.nan → v ≤ limits.velocity) :=
  ⟨Example.robot1_constructed, by decide!,
   controllable_bounds_within_limits Example.robot1 Example.robot1_constructed
     ⟨double_const_spec (-Double.finite (3 / 2)), double_const_spec (Double.finite (3 / 2)),
       double_const_spec 1, 0, "b"⟩
     (by decide!)⟩

theorem Example.robot_nan_constructed : Robot.Constructed Example.robot_nan :=
  Or.inl ⟨4, Example.model, Example.parent_link_tree, "base", ["l4"], Example.weights,
    [("b", Double.nan)], Outcome.eq_ok_getD _ _ (by decide!)⟩

/-- C5 fails as stated: with the threshold NaN configured for joint `b`, whose
physical velocity limit is 2, the comparison `result > urdf_limit` of
`get_velocity_limit` is false, the robot is constructed, and the controllable
constraint of `b` has the bounds NaN and NaN: there is no `v` at most 2 of which
they are `-v` and `+v`. -/
theorem controllable_bounds_nan_counterexample :
    Robot.Constructed Example.robot_nan ∧
      Example.robot_nan.thresholds_ = [("b", Double.nan)] ∧
      Example.robot_nan.robot_model_.getJoint "b" = some Example.joint_b ∧
      Example.joint_b.limits.map (·.velocity) = some 2 ∧
      (⟨double_const_spec Double.nan, double_const_spec Double.nan, double_const_spec 1, 0,
          "b"⟩ : ControllableConstraintSpec)
        ∈ Robot.get_controllable_constraints Example.robot_nan ∧
      ¬ ∃ v joint limits,
        double_const_spec Double.nan = double_const_spec (-v) ∧
        double_const_spec Double.nan = double_const_spec v ∧
        Example.robot_nan.robot_model_.getJoint "b" = some joint ∧
        joint.limits = some limits ∧ v ≤ limits.velocity := by
  refine ⟨Example.robot_nan_constructed, by decide!, by decide!, by decide!, by decide!, ?_⟩
  rintro ⟨v, joint, limits, _, hv, hj, hl, hle⟩
  have hjb : Example.robot_nan.robot_model_.getJoint "b" = some Example.joint_b := by decide!
  rw [hjb] at hj
  cases hj
  have hlb : Example.joint_b.limits = some ⟨-1, 1, 0, 2⟩ := by decide!
  rw [hlb] at hl
  cases hl
  have hvn : v = Double.nan := by
    simp only [double_const_spec, DoubleSpec.const.injEq] at hv
    exact hv.symm
  rw [hvn] at hle
  exact absurd hle (by decide)

/-- C6: for a joint with physical velocity limit `p`, `get_velocity_limit`
resolves the joint's own threshold entry, else the entry under
`default_joint_velocity`, else `p`; it throws exactly when the resolved value
exceeds `p` and returns the resolved value otherwise. With `p = 2`, the threshold
3 makes the construction fail, and the threshold 1.5 gives the bounds
`-1.5` and `+1.5`. -/
theorem get_velocity_limit_resolution :
    (∀ (r : Robot) (joint_name : String) (joint : Joint) (limits : JointLimits),
      r.robot_model_.getJoint joint_name = some joint → joint.limits = some limits →
      ((∃ msg, Robot.get_velocity_limit r joint_name = .error msg) ↔
        (StdMap.find r.thresholds_ joint_name).getD
          ((StdMap.find r.thresholds_ Robot.default_joint_velocity_key).getD limits.velocity)
          > limits.velocity) ∧
      (¬ (StdMap.find r.thresholds_ joint_name).getD
          ((StdMap.find r.thresholds_ Robot.default_joint_velocity_key).getD limits.velocity)
          > limits.velocity →
        Robot.get_velocity_limit r joint_name
          = .ok ((StdMap.find r.thresholds_ joint_name).getD
              ((StdMap.find r.thresholds_ Robot.default_joint_velocity_key).getD
                limits.velocity)))) ∧
    (Example.joint_b.limits.map (·.velocity) = some 2 ∧
      Robot.from_tip_links 4 Example.model Example.parent_link_tree "base" ["l4"]
          Example.weights [("b", 3)]
        = .error "Came up with velocity limit faster than limit from URDF for joint 'b'." ∧
      Robot.from_tip_links 4 Example.model Example.parent_link_tree "base" ["l4"]
          Example.weights [("b", .finite (3 / 2))] = .ok Example.robot1 ∧
      StdMap.find Example.robot1.controllable_map_ "b"
        = some ⟨double_const_spec (-Double.finite (3 / 2)), double_const_spec (.finite (3 / 2)),
            double_const_spec 1, 0, "b"⟩) := by
  refine ⟨?_, by decide!, by decide!, by decide!, by decide!⟩
  intro r joint_name joint limits hj hl
  rw [get_velocity_limit_eq r joint_name joint limits hj hl]
  constructor
  · constructor
    · rintro ⟨msg, hmsg⟩
      by_contra hgt
      rw [if_neg hgt] at hmsg
      cases hmsg
    · intro hgt
      rw [if_pos hgt]
      exact ⟨_, rfl⟩
  · intro hgt
    rw [if_neg hgt]

theorem get_velocity_limit_resolution_witness :
    Example.robot0.robot_model_.getJoint "b" = some Example.joint_b ∧
      Example.joint_b.limits = some ⟨-1, 1, 0, 2⟩ ∧
      Robot.get_velocity_limit Example.robot0 "b" = .ok (.finite (3 / 2)) :=
  ⟨by decide!, by decide!,
   ((get_velocity_limit_resolution.1 Example.robot0 "b" Example.joint_b ⟨-1, 1, 0, 2⟩
      (by decide!) (by decide!)).2 (by decide!)).trans (by decide!)⟩

theorem get_weight_eq (r : Robot) (joint_name : String) :
    Robot.get_weight r joint_name =
      match (StdMap.find r.weights_ joint_name).or
          (StdMap.find r.weights_ Robot.default_joint_weight_key) with
      | none => .error ("Could not find weight for joint '" ++ joint_name ++ "'.")
      | some w =>
        if w < 0 then
          .error ("Came up with a joint weight below zero for joint '" ++ joint_name ++ "'.")
        else .ok w := by
  unfold Robot.get_weight
  cases StdMap.find r.weights_ joint_name <;>
    cases StdMap.find r.weights_ Robot.default_joint_weight_key <;> rfl

/-- C7: `get_weight` resolves the joint's own entry, else the entry under
`default_joint_weight`; it throws exactly when there is neither entry or the
resolved value is negative, and returns the resolved value otherwise. When the
weight mapping holds only `default_joint_weight = 1`, the weight of every
controllable constraint of a constructed robot is the constant 1. -/
theorem get_weight_resolution :
    (∀ (r : Robot) (joint_name : String),
      ((∃ msg, Robot.get_weight r joint_name = .error msg) ↔
        ((StdMap.find r.weights_ joint_name).or
            (StdMap.find r.weights_ Robot.default_joint_weight_key) = none ∨
          ∃ w, (StdMap.find r.weights_ joint_name).or
            (StdMap.find r.weights_ Robot.default_joint_weight_key) = some w ∧ w < 0)) ∧
      (∀ w, (StdMap.find r.weights_ joint_name).or
            (StdMap.find r.weights_ Robot.default_joint_weight_key) = some w → ¬ w < 0 →
        Robot.get_weight r joint_name = .ok w)) ∧
    (∀ r : Robot, Robot.Constructed r → r.weights_ = [("default_joint_weight", 1)] →
      ∀ c ∈ Robot.get_controllable_constraints r, c.weight_ = double_const_spec 1) := by
  constructor
  · intro r joint_name
    rw [get_weight_eq r joint_name]
    cases hres : (StdMap.find r.weights_ joint_name).or
        (StdMap.find r.weights_ Robot.default_joint_weight_key) with
    | none => simp
    | some w =>
      by_cases hw : w < 0
      · simp [hw]
      · simp [hw]
  · intro r hr hweights c hc
    have hinv := Constructed.inv r hr
    have hfind := (mem_get_controllable_constraints r hinv c).1 hc
    obtain ⟨q, w, v, _, hw, _, hceq⟩ := hinv.controllable_sound c.name_ c hfind
    rw [get_weight_eq r c.name_, hweights] at hw
    have hw1 : w = 1 := by
      by_cases hname : "default_joint_weight" = c.name_
      · simp [StdMap.find, hname, Robot.default_joint_weight_key] at hw
        rw [if_neg (by decide)] at hw
        exact (Outcome.ok.inj hw).symm
      · simp [StdMap.find, hname, Robot.default_joint_weight_key] at hw
        rw [if_neg (by decide)] at hw
        exact (Outcome.ok.inj hw).symm
    rw [hceq, hw1]

theorem get_weight_resolution_witness :
    Robot.Constructed Example.robot1 ∧
      Example.robot1.weights_ = [("default_joint_weight", 1)] ∧
      (Robot.get_controllable_constraints Example.robot1).map (·.weight_)
        = [double_const_spec 1, double_const_spec 1, double_const_spec 1] ∧
      ∀ c ∈ Robot.get_controllable_constraints Example.robot1, c.weight_ = double_const_spec 1 :=
  ⟨Example.robot1_constructed, by decide!, by decide!,
   get_weight_resolution.2 Example.robot1 Example.robot1_constructed (by decide!)⟩

/-! ### The list of controllable constraints -/

/-- The input numbers of the entries of the controllable-constraint map are the
indices of the registry. -/
theorem controllable_input_numbers_perm (r : Robot) (hinv : Robot.Inv r) :
    (r.controllable_map_.map fun e => e.2.input_number_).Perm
      (List.range (Robot.get_number_of_joints r)) := by
  refine List.Perm.trans ?_ hinv.joint_perm
  have hcnd := StdMap.Ascending.keys_nodup _ hinv.controllable_ascending
  have hjnd := StdMap.Ascending.keys_nodup _ hinv.joint_ascending
  -- the two maps have the same keys
  have hkeys : (r.controllable_map_.map Prod.fst).Perm (r.joint_map_.map Prod.fst) := by
    rw [List.perm_ext_iff_of_nodup hcnd hjnd]
    intro n
    constructor
    · intro hn
      by_contra hnot
      have hnone := (StdMap.find_eq_none_iff r.joint_map_ n).2 hnot
      cases hc : StdMap.find r.controllable_map_ n with
      | none => exact (StdMap.find_eq_none_iff r.controllable_map_ n).1 hc hn
      | some c =>
        obtain ⟨q, _, _, hq, _⟩ := hinv.controllable_sound n c hc
        rw [get_joint_eq_ok, hnone] at hq
        cases hq
    · intro hn
      by_contra hnot
      have hnone := (StdMap.find_eq_none_iff r.controllable_map_ n).2 hnot
      have hsome : StdMap.find r.joint_map_ n ≠ none := by
        intro h
        exact (StdMap.find_eq_none_iff r.joint_map_ n).1 h hn
      exact hinv.controllable_complete n hsome hnone
  -- the index of a key, read from the registry
  have hc : (r.controllable_map_.map fun e => e.2.input_number_)
      = (r.controllable_map_.map Prod.fst).map
          fun n => ((StdMap.find r.joint_map_ n).map (·.input_num_)).getD 0 := by
    rw [List.map_map]
    apply List.map_congr_left
    rintro ⟨n, c⟩ hmem
    have hfind := StdMap.find_of_mem _ hcnd n c hmem
    obtain ⟨q, _, _, hq, _, _, hceq⟩ := hinv.controllable_sound n c hfind
    rw [get_joint_eq_ok] at hq
    simp only [Function.comp, hq, Option.map_some', Option.getD_some]
    rw [hceq]
    rfl
  have hj : (r.joint_map_.map fun e => e.2.input_num_)
      = (r.joint_map_.map Prod.fst).map
          fun n => ((StdMap.find r.joint_map_ n).map (·.input_num_)).getD 0 := by
    rw [List.map_map]
    apply List.map_congr_left
    rintro ⟨n, q⟩ hmem
    have hfind := StdMap.find_of_mem _ hjnd n q hmem
    simp only [Function.comp, hfind, Option.map_some', Option.getD_some]
  rw [hc, hj]
  exact hkeys.map _

/-- The input numbers of the returned constraints are `0, 1, ..., n-1`. -/
theorem get_controllable_constraints_input_numbers (r : Robot) (hinv : Robot.Inv r) :
    (Robot.get_controllable_constraints r).map (·.input_number_)
      = List.range (Robot.get_number_of_joints r) := by
  have hperm : ((Robot.get_controllable_constraints r).map (·.input_number_)).Perm
      (List.range (Robot.get_number_of_joints r)) := by
    refine List.Perm.trans ?_ (controllable_input_numbers_perm r hinv)
    unfold Robot.get_controllable_constraints Robot.std_sort
    have hp := (List.perm_insertionSort
      (fun a b : ControllableConstraintSpec => decide (b.input_number_ < a.input_number_) = false)
      (r.controllable_map_.map fun pair => pair.2)).map (·.input_number_)
    rw [List.map_map] at hp
    exact hp
  have hsorted : List.Sorted (· ≤ ·)
      ((Robot.get_controllable_constraints r).map (·.input_number_)) := by
    unfold Robot.get_controllable_constraints Robot.std_sort
    haveI : IsTotal ControllableConstraintSpec
        (fun a b => decide (b.input_number_ < a.input_number_) = false) :=
      ⟨fun a b => by
        simp only [decide_eq_false_iff_not, not_lt]
        exact le_total _ _⟩
    haveI : IsTrans ControllableConstraintSpec
        (fun a b => decide (b.input_number_ < a.input_number_) = false) :=
      ⟨fun a b c hab hbc => by
        simp only [decide_eq_false_iff_not, not_lt] at hab hbc ⊢
        exact le_trans hab hbc⟩
    have hs := List.sorted_insertionSort
      (fun a b : ControllableConstraintSpec => decide (b.input_number_ < a.input_number_) = false)
      (r.controllable_map_.map fun pair => pair.2)
    unfold List.Sorted at hs ⊢
    rw [List.pairwise_map]
    refine hs.imp ?_
    intro a b hab
    simpa using hab
  exact List.eq_of_perm_of_sorted hperm hsorted (List.sorted_le_range _)

/-- C8: `get_controllable_constraints` of a constructed robot returns one
constraint per registered joint, sorted by input index: the input numbers of the
returned list are `0, ..., n-1` for `n = get_number_of_joints()`, its `k`-th
element is the constraint stored under the name of the joint with registry index
`k`, and every registered joint has its constraint at the position of its index. -/
theorem controllable_constraints_sorted (r : Robot) (hr : Robot.Constructed r) :
    (Robot.get_controllable_constraints r).map (·.input_number_)
      = List.range (Robot.get_number_of_joints r) ∧
    (Robot.get_controllable_constraints r).length = Robot.get_number_of_joints r ∧
    (∀ k c, (Robot.get_controllable_constraints r)[k]? = some c →
      c.input_number_ = k ∧ Robot.get_joint r c.name_ = .ok (input k) ∧
      StdMap.find r.controllable_map_ c.name_ = some c) ∧
    (∀ name q, Robot.get_joint r name = .ok q →
      ∃ c, (Robot.get_controllable_constraints r)[q.get_input_num]? = some c ∧
        c.name_ = name) := by
  have hinv := Constructed.inv r hr
  have hnums := get_controllable_constraints_input_numbers r hinv
  have hkth : ∀ k c, (Robot.get_controllable_constraints r)[k]? = some c →
      c.input_number_ = k ∧ Robot.get_joint r c.name_ = .ok (input k) ∧
      StdMap.find r.controllable_map_ c.name_ = some c := by
    intro k c hk
    have hidx : c.input_number_ = k := by
      have h1 : ((Robot.get_controllable_constraints r).map (·.input_number_))[k]?
          = some c.input_number_ := by
        rw [List.getElem?_map, hk]
        rfl
      rw [hnums] at h1
      obtain ⟨hlt, heq⟩ := List.getElem?_eq_some.1 h1
      rw [List.getElem_range] at heq
      exact heq.symm
    have hmem : c ∈ Robot.get_controllable_constraints r := List.mem_iff_getElem?.2 ⟨k, hk⟩
    have hfind := (mem_get_controllable_constraints r hinv c).1 hmem
    obtain ⟨q, w, v, hq, _, _, hceq⟩ := hinv.controllable_sound c.name_ c hfind
    refine ⟨hidx, ?_, hfind⟩
    have hqk : q = input k := by
      have h2 : c.input_number_ = q.get_input_num := by rw [hceq]
      cases q with
      | mk i =>
        simp only [DoubleInputSpec.get_input_num] at h2
        rw [← hidx, h2]
        rfl
    rw [← hqk]
    exact hq
  refine ⟨hnums, ?_, hkth, ?_⟩
  · have hlen := congrArg List.length hnums
    simpa using hlen
  · intro name q hq
    have hsome : StdMap.find r.joint_map_ name ≠ none := by
      rw [(get_joint_eq_ok r name q).1 hq]
      simp
    cases hc : StdMap.find r.controllable_map_ name with
    | none => exact absurd hc (hinv.controllable_complete name hsome)
    | some c =>
      obtain ⟨q', w, v, hq', _, _, hceq⟩ := hinv.controllable_sound name c hc
      have hqq : q' = q := by
        rw [hq] at hq'
        exact (Outcome.ok.inj hq').symm
      have hname : c.name_ = name := by rw [hceq]
      have hnum : c.input_number_ = q.get_input_num := by rw [hceq, hqq]
      have hmem : c ∈ Robot.get_controllable_constraints r := by
        rw [mem_get_controllable_constraints r hinv c, hname]
        exact hc
      obtain ⟨k, hk⟩ := List.mem_iff_getElem?.1 hmem
      have hk' := (hkth k c hk).1
      refine ⟨c, ?_, hname⟩
      rw [← hnum, hk']
      exact hk

theorem controllable_constraints_sorted_witness :
    Robot.Constructed Example.robot1 ∧
      (Robot.get_controllable_constraints Example.robot1).map (fun c => (c.name_, c.input_number_))
        = [("b", 0), ("a", 1), ("c", 2)] ∧
      (Robot.get_controllable_constraints Example.robot1).length
        = Robot.get_number_of_joints Example.robot1 :=
  ⟨Example.robot1_constructed, by decide!,
   (controllable_constraints_sorted Example.robot1 Example.robot1_constructed).2.1⟩

/-! ### Hard constraints -/

/-- C9: in a constructed robot a hard constraint is stored for a joint name
exactly when the joint is registered and its type in the kinematic tree is
REVOLUTE or PRISMATIC, so none is stored for CONTINUOUS or FIXED joints; the
constraint has the joint's input variable `q` as expression, lower bound
`lower limit - q` and upper bound `upper limit - q`. For the limits `[-1, 1]` of
joint `b` the bounds evaluate at `q = 0.2` to `-1.2` and `0.8`. -/
theorem hard_constraints_for_bounded_joints :
    (∀ r : Robot, Robot.Constructed r →
      (∀ name, StdMap.find r.hard_map_ name ≠ none ↔
        ∃ q joint, Robot.get_joint r name = .ok q ∧
          StdMap.find r.robot_model_.joints_ name = some (some joint) ∧
          (joint.type = JointType.REVOLUTE ∨ joint.type = JointType.PRISMATIC)) ∧
      (∀ name joint, StdMap.find r.robot_model_.joints_ name = some (some joint) →
        joint.type = JointType.CONTINUOUS ∨ joint.type = JointType.FIXED →
        StdMap.find r.hard_map_ name = none) ∧
      (∀ name c, StdMap.find r.hard_map_ name = some c →
        ∃ q joint limits, Robot.get_joint r name = .ok q ∧
          StdMap.find r.robot_model_.joints_ name = some (some joint) ∧
          joint.limits = some limits ∧
          c.expression_ = .input q ∧
          c.lower_ = double_sub_spec [double_const_spec limits.lower, .input q] ∧
          c.upper_ = double_sub_spec [double_const_spec limits.upper, .input q])) ∧
    (Example.joint_b.type = JointType.REVOLUTE ∧
      Example.joint_b.limits.map (fun l => (l.lower, l.upper)) = some (-1, 1) ∧
      StdMap.find Example.robot1.hard_map_ "b" = some Example.hard_b ∧
      Example.hard_b.lower_.eval (fun _ => .finite (1 / 5)) = .finite (-6 / 5) ∧
      Example.hard_b.upper_.eval (fun _ => .finite (1 / 5)) = .finite (4 / 5)) := by
  refine ⟨?_, by decide!, by decide!, by decide!, by decide!, by decide!⟩
  intro r hr
  have hinv := Constructed.inv r hr
  have hiff : ∀ name, StdMap.find r.hard_map_ name ≠ none ↔
      ∃ q joint, Robot.get_joint r name = .ok q ∧
        StdMap.find r.robot_model_.joints_ name = some (some joint) ∧
        (joint.type = JointType.REVOLUTE ∨ joint.type = JointType.PRISMATIC) := by
    intro name
    constructor
    · intro hsome
      cases hc : StdMap.find r.hard_map_ name with
      | none => exact absurd hc hsome
      | some c =>
        obtain ⟨q, j, limits, hq, hj, hb, _, _⟩ := hinv.hard_sound name c hc
        exact ⟨q, j, hq, hj, hb⟩
    · rintro ⟨q, j, hq, hj, hb⟩
      refine hinv.hard_complete name j ?_ hj hb
      rw [(get_joint_eq_ok r name q).1 hq]
      simp
  refine ⟨hiff, ?_, ?_⟩
  · intro name joint hj ht
    by_contra hsome
    obtain ⟨q, j, _, hj', hb⟩ := (hiff name).1 hsome
    rw [hj] at hj'
    cases hj'
    rcases ht with ht | ht <;> rcases hb with hb | hb <;> rw [ht] at hb <;> cases hb
  · intro name c hc
    obtain ⟨q, j, limits, hq, hj, _, hl, hceq⟩ := hinv.hard_sound name c hc
    refine ⟨q, j, limits, hq, hj, hl, ?_, ?_, ?_⟩ <;> rw [hceq]

theorem hard_constraints_for_bounded_joints_witness :
    Robot.Constructed Example.robot1 ∧
      StdMap.find Example.robot1.robot_model_.joints_ "c" = some (some Example.joint_c) ∧
      (Example.joint_c.type = JointType.CONTINUOUS ∨ Example.joint_c.type = JointType.FIXED) ∧
      StdMap.find Example.robot1.hard_map_ "c" = none :=
  ⟨Example.robot1_constructed, by decide!, by decide,
   (hard_constraints_for_bounded_joints.1 Example.robot1 Example.robot1_constructed).2.1
     "c" Example.joint_c (by decide!) (by decide)⟩

/-- C10, as far as it holds: `get_hard_constraints` of a constructed robot
returns the hard constraints in ascending order of the joint names, the key
order of `hard_map_`: when joint name `a` is less than joint name `b`, the hard
constraint of `a` comes before the hard constraint of `b`. -/
theorem hard_constraints_in_name_order (r : Robot) (hr : Robot.Constructed r)
    (a b : String) (ca cb : HardConstraintSpec)
    (ha : StdMap.find r.hard_map_ a = some ca) (hb : StdMap.find r.hard_map_ b = some cb)
    (hab : a < b) :
    AppearsBefore ca cb (Robot.get_hard_constraints r) := by
  have hasc := (Constructed.inv r hr).hard_ascending
  obtain ⟨i, hi⟩ := List.mem_iff_getElem?.1 (StdMap.mem_of_find _ _ _ ha)
  obtain ⟨j, hj⟩ := List.mem_iff_getElem?.1 (StdMap.mem_of_find _ _ _ hb)
  obtain ⟨hilt, hieq⟩ := List.getElem?_eq_some.1 hi
  obtain ⟨hjlt, hjeq⟩ := List.getElem?_eq_some.1 hj
  have hij : i < j := by
    by_contra hnot
    rcases Nat.lt_or_ge j i with hlt | hge
    · have hlt' := List.pairwise_iff_getElem.1 hasc j i hjlt hilt hlt
      rw [hieq, hjeq] at hlt'
      exact lt_asymm hab hlt'
    · have heq : i = j := by omega
      subst heq
      rw [hieq] at hjeq
      have hkey := congrArg Prod.fst hjeq
      exact ne_of_lt hab hkey
  unfold AppearsBefore Robot.get_hard_constraints
  refine ⟨j, by simpa using hjlt, i, hij, ?_, ?_⟩
  · rw [List.getElem?_map, hi]
    rfl
  · rw [List.getElem?_map, hj]
    rfl

theorem hard_constraints_in_name_order_witness :
    Robot.Constructed Example.robot1 ∧
      StdMap.find Example.robot1.hard_map_ "a" = some Example.hard_a ∧
      StdMap.find Example.robot1.hard_map_ "b" = some Example.hard_b ∧ "a" < "b" ∧
      AppearsBefore Example.hard_a Example.hard_b
        (Robot.get_hard_constraints Example.robot1) :=
  ⟨Example.robot1_constructed, by decide!, by decide!, by decide!,
   hard_constraints_in_name_order Example.robot1 Example.robot1_constructed "a" "b"
     Example.hard_a Example.hard_b (by decide!) (by decide!) (by decide!)⟩

/-- C10 fails as stated: in the robot constructed for the tip `l4`, joint `b` is
discovered before joint `a` (input indices 0 and 1), both have a hard
constraint, and `get_hard_constraints` returns the constraint of `a` first. -/
theorem hard_constraints_discovery_order_counterexample :
    Robot.Constructed Example.robot1 ∧
      Robot.get_joint Example.robot1 "b" = .ok (input 0) ∧
      Robot.get_joint Example.robot1 "a" = .ok (input 1) ∧
      StdMap.find Example.robot1.hard_map_ "b" = some Example.hard_b ∧
      StdMap.find Example.robot1.hard_map_ "a" = some Example.hard_a ∧
      Robot.get_hard_constraints Example.robot1 = [Example.hard_a, Example.hard_b] ∧
      ¬ AppearsBefore Example.hard_b Example.hard_a
        (Robot.get_hard_constraints Example.robot1) :=
  ⟨Example.robot1_constructed, by decide!, by decide!, by decide!, by decide!, by decide!,
   by decide!⟩

/-! ### Forward-kinematics entries -/

theorem get_fk_spec_eq_ok (r : Robot) (k : String × String) (f : FrameSpec) :
    Robot.get_fk_spec r k = .ok f ↔ StdMap.find r.fk_map_ k = some f := by
  unfold Robot.get_fk_spec
  cases h : StdMap.find r.fk_map_ k <;> simp

/-- The forward-kinematics map after a successful `init_kinematic_chain`. -/
theorem init_kinematic_chain_fk_map (fuel : Nat) (r r' : Robot) (root tip : String)
    (h : Robot.init_kinematic_chain fuel r root tip = .ok r') :
    ∃ all ts, Robot.chain_joint_names fuel r root tip true = .ok all ∧
      Robot.init_joint_transforms r' all [frame_constructor_spec_default] = .ok ts ∧
      r'.fk_map_ = StdMap.insert r.fk_map_ (root, tip)
        (cached_frame (frame_multiplication_spec ts)) := by
  obtain ⟨mv, all, ts, r2, r3, hmv, hall, hts, hr2, hr3, hr'⟩ :=
    init_kinematic_chain_ok fuel r r' root tip h
  have e1 := init_joint_inputs_eq mv r
  have e3 := init_controllable_constraints_eq mv r2 r3 hr3
  have e4 := init_hard_constraints_eq mv r3 r' hr'
  subst hr2
  have hjm : r'.joint_map_ = (Robot.init_joint_inputs mv r).joint_map_ := by
    have e := congrArg Robot.joint_map_ e4
    have e' := congrArg Robot.joint_map_ e3
    exact e.trans e'
  have hmodel1 : r'.robot_model_ = (Robot.init_joint_inputs mv r).robot_model_ := by
    have e := congrArg Robot.robot_model_ e4
    have e' := congrArg Robot.robot_model_ e3
    exact e.trans e'
  have hfk : r'.fk_map_ = StdMap.insert (Robot.init_joint_inputs mv r).fk_map_ (root, tip)
      (cached_frame (frame_multiplication_spec ts)) := by
    have e := congrArg Robot.fk_map_ e4
    have e' := congrArg Robot.fk_map_ e3
    exact e.trans e'
  have hfk1 : (Robot.init_joint_inputs mv r).fk_map_ = r.fk_map_ := by
    have e := congrArg Robot.fk_map_ e1
    exact e
  refine ⟨all, ts, hall, ?_, ?_⟩
  · refine init_joint_transforms_mono (Robot.init_joint_inputs mv r) r' hmodel1 ?_ all _ ts hts
    intro n q hq
    rw [hjm]
    exact hq
  · rw [hfk, hfk1]

theorem initial_fk_built (robot_model : Model) (parent_link_tree : StdMap String String)
    (root_link : String) (weights thresholds : StdMap String Double) :
    Robot.FkBuilt (Robot.initial robot_model parent_link_tree root_link weights thresholds) := by
  intro root tip f h
  simp [Robot.initial, StdMap.find] at h

theorem init_kinematic_chain_fk_built (fuel : Nat) (r r' : Robot) (root tip : String)
    (hbuilt : Robot.FkBuilt r) (h : Robot.init_kinematic_chain fuel r root tip = .ok r') :
    Robot.FkBuilt r' := by
  have hext := init_kinematic_chain_extends fuel r r' root tip h
  obtain ⟨all, ts, hall, hts, hfk⟩ := init_kinematic_chain_fk_map fuel r r' root tip h
  have hold : ∀ root1 tip1 f, StdMap.find r.fk_map_ (root1, tip1) = some f →
      ∃ fuel all ts, Robot.chain_joint_names fuel r' root1 tip1 true = .ok all ∧
        Robot.init_joint_transforms r' all [frame_constructor_spec_default] = .ok ts ∧
        f = cached_frame (frame_multiplication_spec ts) := by
    intro root1 tip1 f hf
    obtain ⟨fuel1, all1, ts1, hall1, hts1, hf1⟩ := hbuilt root1 tip1 f hf
    refine ⟨fuel1, all1, ts1, ?_, ?_, hf1⟩
    · rw [chain_joint_names_extends r r' hext]
      exact hall1
    · exact init_joint_transforms_mono r r' hext.robot_model hext.joint_map all1 _ ts1 hts1
  intro root1 tip1 f hf
  rw [hfk] at hf
  by_cases hk : (root, tip) = (root1, tip1)
  · cases hk
    cases hold0 : StdMap.find r.fk_map_ (root, tip) with
    | some f0 =>
      rw [StdMap.insert_of_find_some _ _ _ f0 hold0] at hf
      exact hold root tip f hf
    | none =>
      rw [StdMap.find_insert_self _ _ _ hold0] at hf
      refine ⟨fuel, all, ts, ?_, hts, (Option.some.inj hf).symm⟩
      rw [chain_joint_names_extends r r' hext]
      exact hall
  · rw [StdMap.find_insert_ne _ _ _ _ hk] at hf
    exact hold root1 tip1 f hf

theorem init_chains_fk_built (fuel : Nat) (chains : List (String × String)) :
    ∀ (r r' : Robot), Robot.FkBuilt r → Robot.init_chains fuel chains r = .ok r' →
      Robot.FkBuilt r' := by
  induction chains with
  | nil =>
    intro r r' hb h
    simp only [Robot.init_chains, Outcome.ok.injEq] at h
    subst h
    exact hb
  | cons c cs ih =>
    intro r r' hb h
    simp only [Robot.init_chains] at h
    obtain ⟨r1, h1, hrest⟩ := (Outcome.bind_eq_ok _ _ _).1 h
    exact ih r1 r' (init_kinematic_chain_fk_built fuel r r1 c.1 c.2 hb h1) hrest

theorem Constructed.fk_built (r : Robot) (h : Robot.Constructed r) : Robot.FkBuilt r := by
  obtain ⟨fuel, m, plt, root, chains, w, t, h⟩ := Constructed.chains r h
  exact init_chains_fk_built fuel chains _ r (initial_fk_built m plt root w t) h

theorem extract_joint_transforms_is (r : Robot) (joint : Joint) (frames : List FrameSpec)
    (h : Robot.extract_joint_transforms r (some joint) = .ok frames) :
    IsJointTransforms r joint frames := by
  unfold Robot.extract_joint_transforms at h
  unfold IsJointTransforms
  cases ht : joint.type <;> simp only [ht] at h
  case FIXED =>
    exact Or.inl ⟨rfl, (Outcome.ok.inj h).symm⟩
  case PRISMATIC =>
    obtain ⟨q, hq, hts⟩ := (Outcome.bind_eq_ok _ _ _).1 h
    exact Or.inr (Or.inl ⟨rfl, q, hq, (Outcome.ok.inj hts).symm⟩)
  case REVOLUTE =>
    obtain ⟨q, hq, hts⟩ := (Outcome.bind_eq_ok _ _ _).1 h
    exact Or.inr (Or.inr ⟨Or.inl rfl, q, hq, (Outcome.ok.inj hts).symm⟩)
  case CONTINUOUS =>
    obtain ⟨q, hq, hts⟩ := (Outcome.bind_eq_ok _ _ _).1 h
    exact Or.inr (Or.inr ⟨Or.inr rfl, q, hq, (Outcome.ok.inj hts).symm⟩)
  all_goals cases h

theorem init_joint_transforms_factors (r : Robot) (names : List String) :
    ∀ (acc ts : List FrameSpec), Robot.init_joint_transforms r names acc = .ok ts →
      ∃ joints factors,
        List.Forall₂ (fun name joint =>
          StdMap.find r.robot_model_.joints_ name = some (some joint)) names joints ∧
        List.Forall₂ (IsJointTransforms r) joints factors ∧
        ts = acc ++ factors.flatten := by
  induction names with
  | nil =>
    intro acc ts h
    simp only [Robot.init_joint_transforms, Outcome.ok.injEq] at h
    exact ⟨[], [], List.Forall₂.nil, List.Forall₂.nil, by simp [h]⟩
  | cons n ns ih =>
    intro acc ts h
    simp only [Robot.init_joint_transforms] at h
    cases hj : StdMap.find r.robot_model_.joints_ n with
    | none => simp [hj] at h
    | some oj =>
      simp only [hj] at h
      obtain ⟨new, hnew, hrest⟩ := (Outcome.bind_eq_ok _ _ _).1 h
      cases oj with
      | none => simp [Robot.extract_joint_transforms] at hnew
      | some j =>
        obtain ⟨joints, factors, hjs, hfs, hts⟩ := ih _ _ hrest
        refine ⟨j :: joints, new :: factors, List.Forall₂.cons hj hjs,
          List.Forall₂.cons (extract_joint_transforms_is r j new hnew) hfs, ?_⟩
        rw [hts]
        simp

theorem joint_transforms_length (r : Robot) (joints : List Joint)
    (factors : List (List FrameSpec)) (h : List.Forall₂ (IsJointTransforms r) joints factors) :
    factors.flatten.length
      = joints.length + (joints.filter fun j => j.type ≠ JointType.FIXED).length := by
  induction h with
  | nil => rfl
  | @cons j fs js fss hj _ ih =>
    simp only [List.flatten_cons, List.length_append, ih, List.length_cons, List.filter_cons]
    rcases hj with ⟨ht, hfs⟩ | ⟨ht, q, _, hfs⟩ | ⟨ht, q, _, hfs⟩
    · simp [ht, hfs]
      omega
    · simp [ht, hfs]
      omega
    · rcases ht with ht | ht <;> simp [ht, hfs] <;> omega

/-- C11: the forward-kinematics entry stored for a chain of a constructed robot
is `cached_frame(frame_multiplication_spec(...))` of the identity frame followed
by the transforms of the joints of the chain in root-to-tip order: the origin
transform for a FIXED joint, the origin transform and the translation along the
axis scaled by the joint variable for a PRISMATIC joint, the origin transform and
the axis-angle rotation about the axis by the joint variable for a REVOLUTE or
CONTINUOUS joint; the product has `1 + n + (number of non-fixed joints)`
factors. -/
theorem fk_entry_is_product (r : Robot) (hr : Robot.Constructed r) (root tip : String)
    (f : FrameSpec) (hf : Robot.get_fk_spec r (root, tip) = .ok f) :
    ∃ fuel names joints factors,
      Robot.chain_joint_names fuel r root tip true = .ok names ∧
      List.Forall₂ (fun name joint =>
        StdMap.find r.robot_model_.joints_ name = some (some joint)) names joints ∧
      List.Forall₂ (IsJointTransforms r) joints factors ∧
      f = cached_frame (frame_multiplication_spec
        ([frame_constructor_spec_default] ++ factors.flatten)) ∧
      ([frame_constructor_spec_default] ++ factors.flatten).length
        = 1 + joints.length + (joints.filter fun j => j.type ≠ JointType.FIXED).length := by
  rw [get_fk_spec_eq_ok] at hf
  obtain ⟨fuel, all, ts, hall, hts, hfeq⟩ := Constructed.fk_built r hr root tip f hf
  obtain ⟨joints, factors, hjs, hfs, htseq⟩ := init_joint_transforms_factors r all _ ts hts
  refine ⟨fuel, all, joints, factors, hall, hjs, hfs, ?_, ?_⟩
  · rw [hfeq, htseq]
  · rw [List.length_append, joint_transforms_length r joints factors hfs]
    simp only [List.length_singleton]
    omega

theorem fk_entry_is_product_witness :
    Robot.Constructed Example.robot1 ∧
      Robot.get_fk_spec Example.robot1 ("base", "l4") = .ok Example.fk_l4 ∧
      ∃ fuel names joints factors,
        Robot.chain_joint_names fuel Example.robot1 "base" "l4" true = .ok names ∧
        List.Forall₂ (fun name joint =>
          StdMap.find Example.robot1.robot_model_.joints_ name = some (some joint))
          names joints ∧
        List.Forall₂ (IsJointTransforms Example.robot1) joints factors ∧
        Example.fk_l4 = cached_frame (frame_multiplication_spec
          ([frame_constructor_spec_default] ++ factors.flatten)) ∧
        ([frame_constructor_spec_default] ++ factors.flatten).length
          = 1 + joints.length + (joints.filter fun j => j.type ≠ JointType.FIXED).length :=
  ⟨Example.robot1_constructed, by decide!,
   fk_entry_is_product Example.robot1 Example.robot1_constructed "base" "l4" Example.fk_l4
     (by decide!)⟩

/-! ### Unsupported joint types -/

theorem get_joint_ok_or_error (r : Robot) (name : String) :
    (∃ q, Robot.get_joint r name = .ok q) ∨ (∃ msg, Robot.get_joint r name = .error msg) := by
  unfold Robot.get_joint
  cases StdMap.find r.joint_map_ name
  · exact Or.inr ⟨_, rfl⟩
  · exact Or.inl ⟨_, rfl⟩

theorem extract_joint_transforms_ok_or_error (r : Robot) (joint : Option Joint) :
    (∃ ts, Robot.extract_joint_transforms r joint = .ok ts) ∨
      (∃ msg, Robot.extract_joint_transforms r joint = .error msg) := by
  cases joint with
  | none => exact Or.inr ⟨_, rfl⟩
  | some j =>
    unfold Robot.extract_joint_transforms
    cases ht : j.type <;> simp only [ht]
    case PRISMATIC =>
      rcases get_joint_ok_or_error r j.name with ⟨q, hq⟩ | ⟨msg, hmsg⟩
      · rw [hq]; exact Or.inl ⟨_, rfl⟩
      · rw [hmsg]; exact Or.inr ⟨_, rfl⟩
    case REVOLUTE =>
      rcases get_joint_ok_or_error r j.name with ⟨q, hq⟩ | ⟨msg, hmsg⟩
      · rw [hq]; exact Or.inl ⟨_, rfl⟩
      · rw [hmsg]; exact Or.inr ⟨_, rfl⟩
    case CONTINUOUS =>
      rcases get_joint_ok_or_error r j.name with ⟨q, hq⟩ | ⟨msg, hmsg⟩
      · rw [hq]; exact Or.inl ⟨_, rfl⟩
      · rw [hmsg]; exact Or.inr ⟨_, rfl⟩
    case FIXED => exact Or.inl ⟨_, rfl⟩
    all_goals exact Or.inr ⟨_, rfl⟩

theorem init_joint_transforms_ok_or_error (r : Robot) (names : List String) :
    ∀ acc, (∃ ts, Robot.init_joint_transforms r names acc = .ok ts) ∨
      (∃ msg, Robot.init_joint_transforms r names acc = .error msg) := by
  induction names with
  | nil => intro acc; exact Or.inl ⟨acc, rfl⟩
  | cons n ns ih =>
    intro acc
    simp only [Robot.init_joint_transforms]
    cases hj : StdMap.find r.robot_model_.joints_ n with
    | none => exact Or.inr ⟨_, rfl⟩
    | some joint =>
      simp only
      rcases extract_joint_transforms_ok_or_error r joint with ⟨ts, hts⟩ | ⟨msg, hmsg⟩
      · rw [hts]
        exact ih _
      · rw [hmsg]
        exact Or.inr ⟨msg, rfl⟩

theorem extract_joint_transforms_supported (r : Robot) (joint : Joint) (ts : List FrameSpec)
    (h : Robot.extract_joint_transforms r (some joint) = .ok ts) : ¬ joint.type.unsupported := by
  unfold Robot.extract_joint_transforms at h
  unfold JointType.unsupported
  cases ht : joint.type <;> simp only [ht] at h <;> first | (cases h; done) | simp

theorem init_joint_transforms_supported (r : Robot) (names : List String) :
    ∀ (acc ts : List FrameSpec), Robot.init_joint_transforms r names acc = .ok ts →
      ∀ n ∈ names, ¬ r.robot_model_.rejects n := by
  induction names with
  | nil => intro acc ts _ n hn; simp at hn
  | cons m ms ih =>
    intro acc ts h n hn
    simp only [Robot.init_joint_transforms] at h
    cases hj : StdMap.find r.robot_model_.joints_ m with
    | none => simp [hj] at h
    | some oj =>
      simp only [hj] at h
      obtain ⟨new, hnew, hrest⟩ := (Outcome.bind_eq_ok _ _ _).1 h
      rcases List.mem_cons.1 hn with heq | hn
      · subst heq
        cases oj with
        | none => simp [Robot.extract_joint_transforms] at hnew
        | some j =>
          rintro (hnone | ⟨j', hj', hbad⟩)
          · rw [hj] at hnone
            cases hnone
          · rw [hj] at hj'
            cases hj'
            exact extract_joint_transforms_supported r j new hnew hbad
      · exact ih _ _ hrest n hn

/-- A chain with a rejected joint makes `init_kinematic_chain` throw. -/
theorem init_kinematic_chain_rejects (fuel : Nat) (r : Robot) (root tip : String)
    (names : List String) (name : String)
    (hnames : Robot.chain_joint_names fuel r root tip true = .ok names)
    (hmem : name ∈ names) (hbad : r.robot_model_.rejects name) :
    ∃ msg, Robot.init_kinematic_chain fuel r root tip = .error msg := by
  obtain ⟨js, hw, hlen⟩ := walk_of_chain_joint_names r root tip fuel true names hnames
  have hmv := chain_joint_names_of_walk r root tip js fuel false hw hlen
  unfold Robot.init_kinematic_chain
  rw [hmv, hnames]
  simp only [Outcome.bind]
  have hmodel : (Robot.init_joint_inputs
      ((js.reverse.filter fun j => false || decide (j.type ≠ JointType.FIXED)).map (·.name))
      r).robot_model_ = r.robot_model_ := by
    have e := congrArg Robot.robot_model_ (init_joint_inputs_eq
      ((js.reverse.filter fun j => false || decide (j.type ≠ JointType.FIXED)).map (·.name)) r)
    exact e
  rcases init_joint_transforms_ok_or_error (Robot.init_joint_inputs
      ((js.reverse.filter fun j => false || decide (j.type ≠ JointType.FIXED)).map (·.name)) r)
      names [frame_constructor_spec_default] with ⟨ts, hts⟩ | ⟨msg, hmsg⟩
  · exfalso
    have hsup := init_joint_transforms_supported _ names _ ts hts name hmem
    rw [hmodel] at hsup
    exact hsup hbad
  · rw [hmsg]
    exact ⟨msg, rfl⟩

theorem init_chains_append (fuel : Nat) (pre post : List (String × String)) :
    ∀ r : Robot, Robot.init_chains fuel (pre ++ post) r
      = (Robot.init_chains fuel pre r).bind fun r1 => Robot.init_chains fuel post r1 := by
  induction pre with
  | nil => intro r; rfl
  | cons c cs ih =>
    intro r
    simp only [List.cons_append, Robot.init_chains]
    cases Robot.init_kinematic_chain fuel r c.1 c.2 with
    | ok r1 => simp only [Outcome.bind]; exact ih r1
    | error e => rfl
    | undefined => rfl
    | timeout => rfl

/-- No robot is constructed from chains one of which has a rejected joint. -/
theorem init_chains_rejects (fuel : Nat) (chains : List (String × String)) (r0 r : Robot)
    (root tip : String) (names : List String) (name : String)
    (hmem : (root, tip) ∈ chains)
    (hnames : Robot.chain_joint_names fuel r0 root tip true = .ok names)
    (hname : name ∈ names) (hbad : r0.robot_model_.rejects name) :
    Robot.init_chains fuel chains r0 ≠ .ok r := by
  intro hok
  have hext := init_chains_extends fuel chains r0 r hok
  obtain ⟨mv, all, ts, _, hall, hts, _, _⟩ := init_chains_done fuel chains r0 r hok root tip hmem
  rw [chain_joint_names_extends r0 r hext, hnames] at hall
  cases hall
  have hsup := init_joint_transforms_supported r names _ ts hts name hname
  rw [hext.robot_model] at hsup
  exact hsup hbad

/-- C12: `extract_joint_transforms` throws for an empty joint reference and for
every joint of type PLANAR, FLOATING, UNKNOWN or of an unrecognised type. So
`init_kinematic_chain` throws for a chain with such a joint, a constructor that
has processed the chains before it throws, and no constructor returns a robot
when such a chain is requested. For a FIXED joint, and for a registered
PRISMATIC, REVOLUTE or CONTINUOUS joint, `extract_joint_transforms` returns. -/
theorem extract_joint_transforms_unsupported :
    (∀ r : Robot,
      Robot.extract_joint_transforms r none = .error "Given joint is an empty shared_ptr.") ∧
    (∀ (r : Robot) (joint : Joint), joint.type.unsupported →
      ∃ msg, Robot.extract_joint_transforms r (some joint) = .error msg) ∧
    (∀ (fuel : Nat) (r : Robot) (root tip : String) (names : List String) (name : String),
      Robot.chain_joint_names fuel r root tip true = .ok names → name ∈ names →
      r.robot_model_.rejects name →
      ∃ msg, Robot.init_kinematic_chain fuel r root tip = .error msg) ∧
    (∀ (fuel : Nat) (m : Model) (plt : StdMap String String) (root_link : String)
      (w t : StdMap String Double) (pre post : List (String × String)) (r1 : Robot)
      (root tip : String) (names : List String) (name : String),
      Robot.from_chain_links fuel m plt root_link pre w t = .ok r1 →
      Robot.chain_joint_names fuel (Robot.initial m plt root_link w t) root tip true
        = .ok names →
      name ∈ names → m.rejects name →
      ∃ msg, Robot.from_chain_links fuel m plt root_link (pre ++ (root, tip) :: post) w t
        = .error msg) ∧
    (∀ (fuel : Nat) (m : Model) (plt : StdMap String String) (root_link : String)
      (w t : StdMap String Double) (chain_links : List (String × String))
      (root tip : String) (names : List String) (name : String),
      (root, tip) ∈ chain_links →
      Robot.chain_joint_names fuel (Robot.initial m plt root_link w t) root tip true
        = .ok names →
      name ∈ names → m.rejects name →
      ∀ r, Robot.from_chain_links fuel m plt root_link chain_links w t ≠ .ok r) ∧
    (∀ (fuel : Nat) (m : Model) (plt : StdMap String String) (root_link : String)
      (w t : StdMap String Double) (tip_links : List String)
      (tip : String) (names : List String) (name : String),
      tip ∈ tip_links →
      Robot.chain_joint_names fuel (Robot.initial m plt root_link w t) root_link tip true
        = .ok names →
      name ∈ names → m.rejects name →
      ∀ r, Robot.from_tip_links fuel m plt root_link tip_links w t ≠ .ok r) ∧
    (∀ (r : Robot) (joint : Joint), joint.type = JointType.FIXED →
      Robot.extract_joint_transforms r (some joint)
        = .ok [to_frame_spec joint.parent_to_joint_origin_transform]) ∧
    (∀ (r : Robot) (joint : Joint) (q : DoubleInputSpec),
      joint.type = JointType.PRISMATIC ∨ joint.type = JointType.REVOLUTE ∨
        joint.type = JointType.CONTINUOUS →
      Robot.get_joint r joint.name = .ok q →
      ∃ frames, Robot.extract_joint_transforms r (some joint) = .ok frames) := by
  refine ⟨fun r => rfl, ?_, ?_, ?_, ?_, ?_, ?_, ?_⟩
  · intro r joint hbad
    rcases extract_joint_transforms_ok_or_error r (some joint) with ⟨ts, hts⟩ | herr
    · exact absurd hbad (extract_joint_transforms_supported r joint ts hts)
    · exact herr
  · exact init_kinematic_chain_rejects
  · intro fuel m plt root_link w t pre post r1 root tip names name hpre hnames hname hbad
    unfold Robot.from_chain_links at hpre ⊢
    have hext := init_chains_extends fuel pre _ r1 hpre
    have hnames1 : Robot.chain_joint_names fuel r1 root tip true = .ok names := by
      rw [chain_joint_names_extends _ r1 hext]
      exact hnames
    have hbad1 : r1.robot_model_.rejects name := by
      rw [hext.robot_model]
      exact hbad
    obtain ⟨msg, hmsg⟩ := init_kinematic_chain_rejects fuel r1 root tip names name hnames1
      hname hbad1
    rw [init_chains_append, hpre]
    simp only [Outcome.bind, Robot.init_chains, hmsg]
    exact ⟨msg, rfl⟩
  · intro fuel m plt root_link w t chain_links root tip names name hmem hnames hname hbad r
    exact init_chains_rejects fuel chain_links _ r root tip names name hmem hnames hname hbad
  · intro fuel m plt root_link w t tip_links tip names name hmem hnames hname hbad r
    unfold Robot.from_tip_links
    rw [init_tips_eq_init_chains]
    refine init_chains_rejects fuel _ _ r root_link tip names name ?_ hnames hname hbad
    exact List.mem_map.2 ⟨tip, hmem, rfl⟩
  · intro r joint ht
    simp [Robot.extract_joint_transforms, ht]
  · intro r joint q ht hq
    unfold Robot.extract_joint_transforms
    rcases ht with ht | ht | ht <;> simp only [ht, hq, Outcome.bind] <;> exact ⟨_, rfl⟩

theorem extract_joint_transforms_unsupported_witness :
    Robot.chain_joint_names 1
        (Robot.initial Example.model_planar [("l1", "base")] "base" Example.weights []) "base"
        "l1" true = .ok ["p"] ∧
      "p" ∈ ["p"] ∧ Example.model_planar.rejects "p" ∧
      Robot.from_tip_links 1 Example.model_planar [("l1", "base")] "base" ["l1"]
        Example.weights [] = .error "Joint with name 'p' has unsupported type." ∧
      ∀ r, Robot.from_tip_links 1 Example.model_planar [("l1", "base")] "base" ["l1"]
        Example.weights [] ≠ .ok r :=
  ⟨by decide!, by decide, Or.inr ⟨Example.joint_p, by decide!, Or.inl rfl⟩, by decide!,
   extract_joint_transforms_unsupported.2.2.2.2.2.1 1 Example.model_planar [("l1", "base")]
     "base" Example.weights [] ["l1"] "l1" ["p"] "p" (by decide) (by decide!) (by decide)
     (Or.inr ⟨Example.joint_p, by decide!, Or.inl rfl⟩)⟩

/-! ### Errors of the chain walk -/

theorem chain_joint_names_loop_walk_to (r : Robot) (root target : String) (b : Bool) :
    ∀ (joints : List Joint) (fuel : Nat) (current : String) (acc : List String),
      IsWalkTo r root target current joints →
      ∃ acc', Robot.chain_joint_names_loop r root b (fuel + joints.length) current acc
        = Robot.chain_joint_names_loop r root b fuel target acc' := by
  intro joints
  induction joints with
  | nil =>
    intro fuel current acc hw
    simp only [IsWalkTo] at hw
    subst hw
    exact ⟨acc, rfl⟩
  | cons j js ih =>
    intro fuel current acc hw
    obtain ⟨hne, link, parent, hl, hp, ht, hrest⟩ := hw
    have hfuel : fuel + (j :: js).length = (fuel + js.length) + 1 := by
      simp only [List.length_cons]
      omega
    rw [hfuel]
    simp only [Robot.chain_joint_names_loop, hne, if_false, hl, hp, ht]
    exact ih fuel parent _ hrest

/-- The four throws of the loop, at a link other than `root`. -/
theorem chain_joint_names_loop_stuck (r : Robot) (root target : String) (b : Bool)
    (fuel : Nat) (acc : List String) (hne : target ≠ root) :
    (StdMap.find r.robot_model_.links_ target = none →
      Robot.chain_joint_names_loop r root b (fuel + 1) target acc
        = .error ("Could not find link with name '" ++ target ++ "'.")) ∧
    (StdMap.find r.robot_model_.links_ target = some none →
      Robot.chain_joint_names_loop r root b (fuel + 1) target acc
        = .error ("Link associated with name '" ++ target ++ "' is an empty shared_ptr.")) ∧
    (∀ link, StdMap.find r.robot_model_.links_ target = some (some link) →
      link.parent_joint = none →
      Robot.chain_joint_names_loop r root b (fuel + 1) target acc
        = .error ("Parent joint of link with name '" ++ target
            ++ "' is an empty shared_ptr.")) ∧
    (∀ link joint, StdMap.find r.robot_model_.links_ target = some (some link) →
      link.parent_joint = some joint →
      StdMap.find r.parent_link_tree_ target = none →
      Robot.chain_joint_names_loop r root b (fuel + 1) target acc
        = .error ("Could not find parent link of link with name '" ++ target ++ "'.")) := by
  refine ⟨?_, ?_, ?_, ?_⟩
  · intro h
    simp only [Robot.chain_joint_names_loop, hne, if_false, h]
  · intro h
    simp only [Robot.chain_joint_names_loop, hne, if_false, h]
  · intro link h hp
    simp only [Robot.chain_joint_names_loop, hne, if_false, h, hp]
  · intro link joint h hp ht
    simp only [Robot.chain_joint_names_loop, hne, if_false, h, hp, ht]

/-- C13, as far as it holds: when `tip` is not `root` and is not the name of a
link known to the tree, `chain_joint_names(root, tip, includeFixed)` throws; and
when the walk from `tip` reaches, before reaching `root`, a link that is unknown,
is an empty pointer, has no parent joint or has no entry in the parent-link
index, the call throws the error of that link, given fuel for the steps of the
walk and one more. -/
theorem chain_joint_names_structural_errors (r : Robot) (root tip target : String)
    (b : Bool) (joints : List Joint) (fuel : Nat)
    (hwalk : IsWalkTo r root target tip joints) (hne : target ≠ root)
    (hfuel : joints.length < fuel) :
    (tip ≠ root → StdMap.find r.robot_model_.links_ tip = none →
      Robot.chain_joint_names fuel r root tip b
        = .error ("Could not find link with name '" ++ tip ++ "'.")) ∧
    (StdMap.find r.robot_model_.links_ target = none →
      Robot.chain_joint_names fuel r root tip b
        = .error ("Could not find link with name '" ++ target ++ "'.")) ∧
    (StdMap.find r.robot_model_.links_ target = some none →
      Robot.chain_joint_names fuel r root tip b
        = .error ("Link associated with name '" ++ target ++ "' is an empty shared_ptr.")) ∧
    (∀ link, StdMap.find r.robot_model_.links_ target = some (some link) →
      link.parent_joint = none →
      Robot.chain_joint_names fuel r root tip b
        = .error ("Parent joint of link with name '" ++ target
            ++ "' is an empty shared_ptr.")) ∧
    (∀ link joint, StdMap.find r.robot_model_.links_ target = some (some link) →
      link.parent_joint = some joint →
      StdMap.find r.parent_link_tree_ target = none →
      Robot.chain_joint_names fuel r root tip b
        = .error ("Could not find parent link of link with name '" ++ target ++ "'.")) := by
  obtain ⟨k, hk⟩ : ∃ k, fuel = (k + 1) + joints.length := ⟨fuel - joints.length - 1, by omega⟩
  obtain ⟨acc', hacc⟩ := chain_joint_names_loop_walk_to r root target b joints (k + 1) tip [] hwalk
  obtain ⟨h1, h2, h3, h4⟩ := chain_joint_names_loop_stuck r root target b k acc' hne
  unfold Robot.chain_joint_names
  rw [hk, hacc]
  refine ⟨?_, h1, h2, h3, h4⟩
  intro htip hnone
  have hfuel' : fuel = (fuel - 1) + 1 := by omega
  have h0 := (chain_joint_names_loop_stuck r root tip b (fuel - 1) [] htip).1 hnone
  rw [← hacc, ← hk, hfuel']
  exact h0

theorem chain_joint_names_structural_errors_witness :
    IsWalkTo Example.robot0 "l4" "base" "l2" [Example.joint_a, Example.joint_b] ∧
      "base" ≠ "l4" ∧ [Example.joint_a, Example.joint_b].length < 3 ∧
      Robot.chain_joint_names 3 Example.robot0 "l4" "l2" true
        = .error "Parent joint of link with name 'base' is an empty shared_ptr." :=
  ⟨⟨by decide, _, "l1", rfl, rfl, rfl, by decide, _, "base", rfl, rfl, rfl, rfl⟩,
   by decide, by decide,
   (chain_joint_names_structural_errors Example.robot0 "l4" "l2" "base" true
      [Example.joint_a, Example.joint_b] 3
      ⟨by decide, _, "l1", rfl, rfl, rfl, by decide, _, "base", rfl, rfl, rfl, rfl⟩
      (by decide) (by decide)).2.2.2.1 ⟨"base", none⟩ (by decide) rfl⟩

/-- C13 fails as stated: `nolink` is not the name of a link of the tree, and
`chain_joint_names("nolink", "nolink", true)` returns the empty sequence. -/
theorem chain_joint_names_unknown_tip_counterexample :
    StdMap.find Example.robot0.robot_model_.links_ "nolink" = none ∧
      Robot.chain_joint_names 0 Example.robot0 "nolink" "nolink" true = .ok [] ∧
      Robot.chain_joint_names 5 Example.robot0 "nolink" "nolink" true = .ok [] :=
  ⟨by decide, by decide, by decide⟩

/-! ### Termination of the chain walk -/

/-- One step of the loop: either it returns, or it throws, or it goes on at the
parent link. -/
theorem chain_joint_names_loop_step (r : Robot) (root : String) (b : Bool)
    (current : String) (acc : List String) :
    (current = root ∧
      ∀ fuel, Robot.chain_joint_names_loop r root b fuel current acc = .ok acc.reverse) ∨
    (current ≠ root ∧ ∃ msg, IsStructuralError msg ∧
      ∀ fuel, Robot.chain_joint_names_loop r root b (fuel + 1) current acc = .error msg) ∨
    (current ≠ root ∧ ∃ link joint parent acc',
      StdMap.find r.robot_model_.links_ current = some (some link) ∧
      link.parent_joint = some joint ∧
      StdMap.find r.parent_link_tree_ current = some parent ∧
      ∀ fuel, Robot.chain_joint_names_loop r root b (fuel + 1) current acc
        = Robot.chain_joint_names_loop r root b fuel parent acc') := by
  by_cases hc : current = root
  · refine Or.inl ⟨hc, fun fuel => ?_⟩
    cases fuel <;> simp [Robot.chain_joint_names_loop, hc]
  · have hstuck := fun fuel => chain_joint_names_loop_stuck r root current b fuel acc hc
    cases hl : StdMap.find r.robot_model_.links_ current with
    | none =>
      exact Or.inr (Or.inl ⟨hc, _, ⟨current, Or.inl rfl⟩, fun fuel => (hstuck fuel).1 hl⟩)
    | some ol =>
      cases ol with
      | none =>
        exact Or.inr (Or.inl ⟨hc, _, ⟨current, Or.inr (Or.inl rfl)⟩,
          fun fuel => (hstuck fuel).2.1 hl⟩)
      | some link =>
        cases hp : link.parent_joint with
        | none =>
          exact Or.inr (Or.inl ⟨hc, _, ⟨current, Or.inr (Or.inr (Or.inl rfl))⟩,
            fun fuel => (hstuck fuel).2.2.1 link hl hp⟩)
        | some j =>
          cases ht : StdMap.find r.parent_link_tree_ current with
          | none =>
            exact Or.inr (Or.inl ⟨hc, _, ⟨current, Or.inr (Or.inr (Or.inr rfl))⟩,
              fun fuel => (hstuck fuel).2.2.2 link j hl hp ht⟩)
          | some parent =>
            refine Or.inr (Or.inr ⟨hc, link, j, parent,
              (if b || decide (j.type ≠ JointType.FIXED) then acc ++ [j.name] else acc),
              rfl, hp, rfl, fun fuel => ?_⟩)
            simp only [Robot.chain_joint_names_loop, hc, if_false, hl, hp, ht]

/-- A walk that runs out of fuel has made as many steps as it had fuel. -/
theorem ancestor_of_timeout (r : Robot) (root : String) (b : Bool) :
    ∀ (fuel : Nat) (current : String) (acc : List String),
      Robot.chain_joint_names_loop r root b fuel current acc = .timeout →
      ∃ target, ancestor r.parent_link_tree_ fuel current = some target := by
  intro fuel
  induction fuel with
  | zero => intro current acc _; exact ⟨current, rfl⟩
  | succ fuel ih =>
    intro current acc h
    rcases chain_joint_names_loop_step r root b current acc with
      ⟨_, hok⟩ | ⟨_, msg, _, herr⟩ | ⟨_, link, joint, parent, acc', _, _, ht, hstep⟩
    · rw [hok] at h; cases h
    · rw [herr] at h; cases h
    · rw [hstep] at h
      obtain ⟨target, htarget⟩ := ih parent acc' h
      exact ⟨target, by simp only [ancestor, ht, htarget]⟩

/-- In an acyclic index a walk of `steps` steps visits `steps` different keys. -/
theorem ancestor_steps_le (plt : StdMap String String) (hacyc : Acyclic plt) :
    ∀ (steps : Nat) (link target : String), ancestor plt steps link = some target →
      ∃ visited : List String, visited.length = steps ∧ visited.Nodup ∧
        (∀ x ∈ visited, x ∈ plt.map Prod.fst) ∧
        (∀ x ∈ visited, ∃ i, i < steps ∧ ancestor plt i link = some x) := by
  intro steps
  induction steps with
  | zero => intro link target _; exact ⟨[], rfl, List.nodup_nil, by simp, by simp⟩
  | succ n ih =>
    intro link target h
    simp only [ancestor] at h
    cases hp : StdMap.find plt link with
    | none => simp [hp] at h
    | some parent =>
      simp only [hp] at h
      obtain ⟨visited, hlen, hnd, hkeys, hanc⟩ := ih parent target h
      have hstep : ∀ i x, ancestor plt i parent = some x → ancestor plt (i + 1) link = some x := by
        intro i x hx
        simp only [ancestor, hp, hx]
      refine ⟨link :: visited, by simp [hlen], ?_, ?_, ?_⟩
      · refine List.nodup_cons.2 ⟨?_, hnd⟩
        intro hmem
        obtain ⟨i, _, hi⟩ := hanc link hmem
        exact hacyc link (i + 1) (Nat.succ_pos i) (hstep i link hi)
      · intro x hx
        rcases List.mem_cons.1 hx with rfl | hx
        · by_contra hnot
          rw [(StdMap.find_eq_none_iff plt x).2 hnot] at hp
          cases hp
        · exact hkeys x hx
      · intro x hx
        rcases List.mem_cons.1 hx with rfl | hx
        · exact ⟨0, Nat.succ_pos n, rfl⟩
        · obtain ⟨i, hi, hix⟩ := hanc x hx
          exact ⟨i + 1, by omega, hstep i x hix⟩

theorem chain_joint_names_loop_no_timeout (r : Robot) (hacyc : Acyclic r.parent_link_tree_)
    (root : String) (b : Bool) (fuel : Nat) (current : String) (acc : List String)
    (hfuel : StdMap.size r.parent_link_tree_ < fuel) :
    Robot.chain_joint_names_loop r root b fuel current acc ≠ .timeout := by
  intro h
  obtain ⟨target, htarget⟩ := ancestor_of_timeout r root b fuel current acc h
  obtain ⟨visited, hlen, hnd, hkeys, _⟩ :=
    ancestor_steps_le r.parent_link_tree_ hacyc fuel current target htarget
  have hle := (List.subperm_of_subset hnd hkeys).length_le
  simp only [List.length_map] at hle
  unfold StdMap.size at hfuel
  omega

/-- A call that did not run out of fuel gives the same result with more fuel. -/
theorem chain_joint_names_loop_more_fuel (r : Robot) (root : String) (b : Bool) :
    ∀ (fuel : Nat) (current : String) (acc : List String),
      Robot.chain_joint_names_loop r root b fuel current acc ≠ .timeout →
      Robot.chain_joint_names_loop r root b (fuel + 1) current acc
        = Robot.chain_joint_names_loop r root b fuel current acc := by
  intro fuel
  induction fuel with
  | zero =>
    intro current acc h
    by_cases hc : current = root
    · simp [Robot.chain_joint_names_loop, hc]
    · simp [Robot.chain_joint_names_loop, hc] at h
  | succ fuel ih =>
    intro current acc h
    rcases chain_joint_names_loop_step r root b current acc with
      ⟨_, hok⟩ | ⟨_, msg, _, herr⟩ | ⟨_, link, joint, parent, acc', _, _, _, hstep⟩
    · rw [hok, hok]
    · rw [herr, herr]
    · rw [hstep] at h
      rw [hstep, hstep]
      exact ih parent acc' h

theorem chain_joint_names_loop_fuel_le (r : Robot) (root : String) (b : Bool)
    (fuel fuel' : Nat) (hle : fuel ≤ fuel') (current : String) (acc : List String)
    (h : Robot.chain_joint_names_loop r root b fuel current acc ≠ .timeout) :
    Robot.chain_joint_names_loop r root b fuel' current acc
      = Robot.chain_joint_names_loop r root b fuel current acc := by
  induction fuel' with
  | zero =>
    have h0 : fuel = 0 := by omega
    subst h0
    rfl
  | succ n ih =>
    by_cases hn : fuel ≤ n
    · have hprev := ih hn
      rw [chain_joint_names_loop_more_fuel r root b n current acc (by rw [hprev]; exact h)]
      exact hprev
    · have hn' : fuel = n + 1 := by omega
      subst hn'
      rfl

theorem chain_joint_names_loop_not_undefined (r : Robot) (root : String) (b : Bool) :
    ∀ (fuel : Nat) (current : String) (acc : List String),
      Robot.chain_joint_names_loop r root b fuel current acc ≠ .undefined := by
  intro fuel
  induction fuel with
  | zero =>
    intro current acc
    by_cases hc : current = root <;> simp [Robot.chain_joint_names_loop, hc]
  | succ fuel ih =>
    intro current acc
    rcases chain_joint_names_loop_step r root b current acc with
      ⟨_, hok⟩ | ⟨_, msg, _, herr⟩ | ⟨_, link, joint, parent, acc', _, _, _, hstep⟩
    · rw [hok]; simp
    · rw [herr]; simp
    · rw [hstep]
      exact ih parent acc'

theorem chain_joint_names_loop_error_kind (r : Robot) (root : String) (b : Bool) :
    ∀ (fuel : Nat) (current : String) (acc : List String) (msg : String),
      Robot.chain_joint_names_loop r root b fuel current acc = .error msg →
      IsStructuralError msg := by
  intro fuel
  induction fuel with
  | zero =>
    intro current acc msg h
    by_cases hc : current = root <;> simp [Robot.chain_joint_names_loop, hc] at h
  | succ fuel ih =>
    intro current acc msg h
    rcases chain_joint_names_loop_step r root b current acc with
      ⟨_, hok⟩ | ⟨_, msg', hkind, herr⟩ | ⟨_, link, joint, parent, acc', _, _, _, hstep⟩
    · rw [hok] at h; cases h
    · rw [herr] at h
      cases h
      exact hkind
    · rw [hstep] at h
      exact ih parent acc' msg h

theorem ancestor_of_walk (r : Robot) (root : String) :
    ∀ (joints : List Joint) (current : String), IsWalk r root current joints →
      ancestor r.parent_link_tree_ joints.length current = some root := by
  intro joints
  induction joints with
  | nil =>
    intro current hw
    simp only [IsWalk] at hw
    simp [ancestor, hw]
  | cons j js ih =>
    intro current hw
    obtain ⟨_, link, parent, _, _, ht, hrest⟩ := hw
    simp only [List.length_cons, ancestor, ht]
    exact ih parent hrest

/-- C14: when the parent-link index is acyclic, the walk of `chain_joint_names`
makes at most as many steps as the index has entries: with more fuel than that
the call does not run out of fuel, does not depend on the fuel, and so
terminates; and when `root` is neither `tip` nor above `tip` in the index, it
throws one of the errors of the walk. -/
theorem chain_joint_names_terminates (r : Robot) (hacyc : Acyclic r.parent_link_tree_)
    (root tip : String) (b : Bool) :
    (∀ fuel, StdMap.size r.parent_link_tree_ < fuel →
      Robot.chain_joint_names fuel r root tip b ≠ .timeout ∧
      Robot.chain_joint_names fuel r root tip b
        = Robot.chain_joint_names (StdMap.size r.parent_link_tree_ + 1) r root tip b) ∧
    ((∀ steps, ancestor r.parent_link_tree_ steps tip ≠ some root) →
      ∀ fuel, StdMap.size r.parent_link_tree_ < fuel →
        ∃ msg, IsStructuralError msg ∧
          Robot.chain_joint_names fuel r root tip b = .error msg) := by
  have hno : ∀ fuel, StdMap.size r.parent_link_tree_ < fuel →
      Robot.chain_joint_names fuel r root tip b ≠ .timeout := fun fuel hfuel =>
    chain_joint_names_loop_no_timeout r hacyc root b fuel tip [] hfuel
  refine ⟨fun fuel hfuel => ⟨hno fuel hfuel, ?_⟩, ?_⟩
  · exact chain_joint_names_loop_fuel_le r root b _ fuel hfuel tip []
      (hno _ (Nat.lt_succ_self _))
  · intro hnot fuel hfuel
    cases hres : Robot.chain_joint_names fuel r root tip b with
    | ok names =>
      obtain ⟨js, hw, _⟩ := walk_of_chain_joint_names r root tip fuel b names hres
      exact absurd (ancestor_of_walk r root js tip hw) (hnot js.length)
    | error msg =>
      exact ⟨msg, chain_joint_names_loop_error_kind r root b fuel tip [] msg hres, rfl⟩
    | undefined => exact absurd hres (chain_joint_names_loop_not_undefined r root b fuel tip [])
    | timeout => exact absurd hres (hno fuel hfuel)

theorem acyclic_of_rank (plt : StdMap String String) (rank : String → Nat)
    (hrank : ∀ child parent, StdMap.find plt child = some parent → rank parent < rank child) :
    Acyclic plt := by
  have hsteps : ∀ (steps : Nat) (link target : String),
      ancestor plt steps link = some target → rank target + steps ≤ rank link := by
    intro steps
    induction steps with
    | zero =>
      intro link target h
      simp only [ancestor, Option.some.injEq] at h
      subst h
      exact le_refl _
    | succ n ih =>
      intro link target h
      simp only [ancestor] at h
      cases hp : StdMap.find plt link with
      | none => simp [hp] at h
      | some parent =>
        simp only [hp] at h
        have h1 := ih parent target h
        have h2 := hrank link parent hp
        omega
  intro link steps hpos h
  have := hsteps steps link link h
  omega

theorem Example.parent_link_tree_acyclic : Acyclic Example.parent_link_tree := by
  refine acyclic_of_rank _
    (fun l => if l = "l4" then 4 else if l = "l3" then 3 else if l = "l2" then 2
      else if l = "l1" then 1 else 0) ?_
  intro child parent h
  simp only [Example.parent_link_tree, StdMap.find] at h
  split_ifs at h with h1 h2 h3 h4 <;> cases h <;> subst_vars <;> decide

theorem Example.l4_not_above_l2 :
    ∀ steps, ancestor Example.parent_link_tree steps "l2" ≠ some "l4" := by
  intro steps
  rcases steps with _ | _ | _ | n
  · decide
  · decide
  · decide
  · simp [ancestor, Example.parent_link_tree, StdMap.find]

theorem chain_joint_names_terminates_witness :
    Acyclic Example.robot0.parent_link_tree_ ∧
      (∀ steps, ancestor Example.robot0.parent_link_tree_ steps "l2" ≠ some "l4") ∧
      Robot.chain_joint_names 5 Example.robot0 "l4" "l2" true
        = .error "Parent joint of link with name 'base' is an empty shared_ptr." ∧
      ∀ fuel, StdMap.size Example.robot0.parent_link_tree_ < fuel →
        ∃ msg, IsStructuralError msg ∧
          Robot.chain_joint_names fuel Example.robot0 "l4" "l2" true = .error msg :=
  ⟨Example.parent_link_tree_acyclic, Example.l4_not_above_l2, by decide,
   (chain_joint_names_terminates Example.robot0 Example.parent_link_tree_acyclic "l4" "l2"
      true).2 Example.l4_not_above_l2⟩

/-! ### The keys of the forward-kinematics map and of the registry -/

theorem StdMap.find_insert_ne_none_iff {K V : Type} [DecidableEq K] [StdLess K]
    (m : StdMap K V) (k k' : K) (v : V) :
    StdMap.find (StdMap.insert m k v) k' ≠ none ↔ StdMap.find m k' ≠ none ∨ k' = k := by
  by_cases hk : k = k'
  · subst hk
    cases h : StdMap.find m k with
    | none => simp [StdMap.find_insert_self m k v h]
    | some w => simp [StdMap.find_insert_of_some m k k v w h]
  · rw [StdMap.find_insert_ne m k k' v hk]
    constructor
    · exact fun h => Or.inl h
    · rintro (h | h)
      · exact h
      · exact absurd h.symm hk

theorem StdMap.keys_nodup_insert {K V : Type} [DecidableEq K] [StdLess K] (m : StdMap K V)
    (k : K) (v : V) (hnd : (m.map Prod.fst).Nodup) :
    ((StdMap.insert m k v).map Prod.fst).Nodup := by
  cases h : StdMap.find m k with
  | some w => rw [StdMap.insert_of_find_some m k v w h]; exact hnd
  | none =>
    have hp := (StdMap.insert_perm m k v h).map Prod.fst
    rw [hp.nodup_iff]
    simp only [List.map_cons, List.nodup_cons]
    exact ⟨(StdMap.find_eq_none_iff m k).1 h, hnd⟩

theorem init_chains_fk_keys (fuel : Nat) (chains : List (String × String)) :
    ∀ (r r' : Robot), Robot.init_chains fuel chains r = .ok r' →
      ((r.fk_map_.map Prod.fst).Nodup → (r'.fk_map_.map Prod.fst).Nodup) ∧
      ∀ k, StdMap.find r'.fk_map_ k ≠ none ↔ StdMap.find r.fk_map_ k ≠ none ∨ k ∈ chains := by
  induction chains with
  | nil =>
    intro r r' h
    simp only [Robot.init_chains, Outcome.ok.injEq] at h
    subst h
    exact ⟨id, fun k => by simp⟩
  | cons c cs ih =>
    intro r r' h
    simp only [Robot.init_chains] at h
    obtain ⟨r1, h1, hrest⟩ := (Outcome.bind_eq_ok _ _ _).1 h
    obtain ⟨all, ts, _, _, hfk⟩ := init_kinematic_chain_fk_map fuel r r1 c.1 c.2 h1
    obtain ⟨hnd, hkeys⟩ := ih r1 r' hrest
    refine ⟨fun h0 => hnd ?_, fun k => ?_⟩
    · rw [hfk]
      exact StdMap.keys_nodup_insert _ _ _ h0
    · rw [hkeys k, hfk, StdMap.find_insert_ne_none_iff]
      simp only [List.mem_cons, Prod.mk.eta]
      tauto

theorem init_kinematic_chain_joint_keys (fuel : Nat) (r r' : Robot) (root tip : String)
    (h : Robot.init_kinematic_chain fuel r root tip = .ok r') :
    ∃ mv, Robot.chain_joint_names fuel r root tip false = .ok mv ∧
      ∀ n, StdMap.find r'.joint_map_ n ≠ none ↔ StdMap.find r.joint_map_ n ≠ none ∨ n ∈ mv := by
  obtain ⟨mv, all, ts, r2, r3, hmv, hall, hts, hr2, hr3, hr'⟩ :=
    init_kinematic_chain_ok fuel r r' root tip h
  have e3 := init_controllable_constraints_eq mv r2 r3 hr3
  have e4 := init_hard_constraints_eq mv r3 r' hr'
  subst hr2
  have hjm : r'.joint_map_ = (Robot.init_joint_inputs mv r).joint_map_ := by
    have e := congrArg Robot.joint_map_ e4
    have e' := congrArg Robot.joint_map_ e3
    exact e.trans e'
  refine ⟨mv, hmv, fun n => ?_⟩
  rw [hjm]
  constructor
  · exact init_joint_inputs_origin mv r n
  · rintro (hn | hn)
    · cases hq : StdMap.find r.joint_map_ n with
      | none => exact absurd hq hn
      | some q => rw [init_joint_inputs_stable mv r n q hq]; simp
    · exact init_joint_inputs_registers mv r n hn

theorem init_chains_joint_keys (fuel : Nat) (chains : List (String × String)) :
    ∀ (r r' : Robot), Robot.init_chains fuel chains r = .ok r' →
      ∀ n, StdMap.find r'.joint_map_ n ≠ none ↔
        StdMap.find r.joint_map_ n ≠ none ∨
        ∃ root tip mv, (root, tip) ∈ chains ∧
          Robot.chain_joint_names fuel r' root tip false = .ok mv ∧ n ∈ mv := by
  induction chains with
  | nil =>
    intro r r' h n
    simp only [Robot.init_chains, Outcome.ok.injEq] at h
    subst h
    simp
  | cons c cs ih =>
    intro r r' h n
    simp only [Robot.init_chains] at h
    obtain ⟨r1, h1, hrest⟩ := (Outcome.bind_eq_ok _ _ _).1 h
    obtain ⟨mv, hmv, hkeys1⟩ := init_kinematic_chain_joint_keys fuel r r1 c.1 c.2 h1
    have hext1 := init_kinematic_chain_extends fuel r r1 c.1 c.2 h1
    have hext := init_chains_extends fuel cs r1 r' hrest
    have hmv' : Robot.chain_joint_names fuel r' c.1 c.2 false = .ok mv := by
      rw [chain_joint_names_extends r1 r' hext, chain_joint_names_extends r r1 hext1]
      exact hmv
    rw [ih r1 r' hrest n, hkeys1 n]
    constructor
    · rintro ((h0 | h0) | ⟨root, tip, mv', hmem, hmv2, hn⟩)
      · exact Or.inl h0
      · exact Or.inr ⟨c.1, c.2, mv, List.mem_cons_self _ _, hmv', h0⟩
      · exact Or.inr ⟨root, tip, mv', List.mem_cons_of_mem _ hmem, hmv2, hn⟩
    · rintro (h0 | ⟨root, tip, mv', hmem, hmv2, hn⟩)
      · exact Or.inl (Or.inl h0)
      · rcases List.mem_cons.1 hmem with heq | hmem
        · rw [← heq] at hmv'
          rw [hmv2] at hmv'
          cases hmv'
          exact Or.inl (Or.inr hn)
        · exact Or.inr ⟨root, tip, mv', hmem, hmv2, hn⟩

/-- C15: for a constructed robot `get_fk_spec(root, tip)` throws exactly when
`(root, tip)` is none of the chains requested at construction, and otherwise
returns the expression stored for the chain in `fk_map_`; the accessor is a
function of the state of the robot, so repeated calls return the same
expression. -/
theorem get_fk_spec_requested :
    (∀ (fuel : Nat) (m : Model) (plt : StdMap String String) (root_link : String)
      (chain_links : List (String × String)) (w t : StdMap String Double) (r : Robot),
      Robot.from_chain_links fuel m plt root_link chain_links w t = .ok r →
      ∀ root tip,
        ((∃ msg, Robot.get_fk_spec r (root, tip) = .error msg) ↔ (root, tip) ∉ chain_links) ∧
        ((root, tip) ∈ chain_links →
          ∃ f, StdMap.find r.fk_map_ (root, tip) = some f ∧
            Robot.get_fk_spec r (root, tip) = .ok f)) ∧
    (∀ (fuel : Nat) (m : Model) (plt : StdMap String String) (root_link : String)
      (tip_links : List String) (w t : StdMap String Double) (r : Robot),
      Robot.from_tip_links fuel m plt root_link tip_links w t = .ok r →
      ∀ root tip,
        ((∃ msg, Robot.get_fk_spec r (root, tip) = .error msg) ↔
          ¬ (root = root_link ∧ tip ∈ tip_links)) ∧
        (root = root_link ∧ tip ∈ tip_links →
          ∃ f, StdMap.find r.fk_map_ (root, tip) = some f ∧
            Robot.get_fk_spec r (root, tip) = .ok f)) := by
  have hmain : ∀ (fuel : Nat) (chains : List (String × String)) (r0 r : Robot),
      r0.fk_map_ = [] → Robot.init_chains fuel chains r0 = .ok r →
      ∀ root tip,
        ((∃ msg, Robot.get_fk_spec r (root, tip) = .error msg) ↔ (root, tip) ∉ chains) ∧
        ((root, tip) ∈ chains →
          ∃ f, StdMap.find r.fk_map_ (root, tip) = some f ∧
            Robot.get_fk_spec r (root, tip) = .ok f) := by
    intro fuel chains r0 r h0 h root tip
    have hkeys := (init_chains_fk_keys fuel chains r0 r h).2 (root, tip)
    rw [h0] at hkeys
    simp only [StdMap.find, ne_eq, not_true_eq_false, false_or] at hkeys
    unfold Robot.get_fk_spec
    cases hf : StdMap.find r.fk_map_ (root, tip) with
    | none =>
      rw [hf] at hkeys
      have hnot : (root, tip) ∉ chains := fun hmem => hkeys.2 hmem rfl
      exact ⟨⟨fun _ => hnot, fun _ => ⟨_, rfl⟩⟩, fun hmem => absurd hmem hnot⟩
    | some f =>
      rw [hf] at hkeys
      have hmem : (root, tip) ∈ chains := hkeys.1 (by simp)
      refine ⟨⟨?_, fun hnot => absurd hmem hnot⟩, fun _ => ⟨f, rfl, rfl⟩⟩
      rintro ⟨msg, hmsg⟩
      cases hmsg
  constructor
  · intro fuel m plt root_link chain_links w t r h
    exact hmain fuel chain_links _ r rfl h
  · intro fuel m plt root_link tip_links w t r h root tip
    unfold Robot.from_tip_links at h
    rw [init_tips_eq_init_chains] at h
    have hm := hmain fuel _ _ r rfl h root tip
    have hiff : (root, tip) ∈ tip_links.map (fun tip => (root_link, tip)) ↔
        (root = root_link ∧ tip ∈ tip_links) := by
      simp only [List.mem_map, Prod.mk.injEq]
      constructor
      · rintro ⟨a, ha, rfl, rfl⟩
        exact ⟨rfl, ha⟩
      · rintro ⟨rfl, ht⟩
        exact ⟨tip, ht, rfl, rfl⟩
    rw [hiff] at hm
    exact hm

theorem get_fk_spec_requested_witness :
    Robot.from_tip_links 4 Example.model Example.parent_link_tree "base" ["l4"]
        Example.weights Example.thresholds = .ok Example.robot1 ∧
      Robot.get_fk_spec Example.robot1 ("base", "l4") = .ok Example.fk_l4 ∧
      Robot.get_fk_spec Example.robot1 ("base", "l2")
        = .error "Could not find fk specification for chain ('base, l2)." ∧
      ((∃ msg, Robot.get_fk_spec Example.robot1 ("base", "l2") = .error msg) ↔
        ¬ ("base" = "base" ∧ "l2" ∈ ["l4"])) :=
  ⟨by decide!, by decide!, by decide!,
   ((get_fk_spec_requested.2 4 Example.model Example.parent_link_tree "base" ["l4"]
      Example.weights Example.thresholds Example.robot1 (by decide!)) "base" "l2").1⟩

/-- C16: for a constructed robot `get_joint(name)` throws exactly when `name` is
not among the non-fixed joints `chain_joint_names(root, tip, false)` of any
requested chain, and otherwise returns the input variable stored for `name` in
the registry, whose index is below the number of joints. -/
theorem get_joint_registered :
    (∀ (fuel : Nat) (m : Model) (plt : StdMap String String) (root_link : String)
      (chain_links : List (String × String)) (w t : StdMap String Double) (r : Robot),
      Robot.from_chain_links fuel m plt root_link chain_links w t = .ok r →
      ∀ name,
        ((∃ msg, Robot.get_joint r name = .error msg) ↔
          ¬ ∃ root tip moveable, (root, tip) ∈ chain_links ∧
            Robot.chain_joint_names fuel r root tip false = .ok moveable ∧ name ∈ moveable) ∧
        ((∃ root tip moveable, (root, tip) ∈ chain_links ∧
            Robot.chain_joint_names fuel r root tip false = .ok moveable ∧ name ∈ moveable) →
          ∃ q, Robot.get_joint r name = .ok q ∧ StdMap.find r.joint_map_ name = some q ∧
            q.get_input_num < Robot.get_number_of_joints r)) ∧
    (∀ (fuel : Nat) (m : Model) (plt : StdMap String String) (root_link : String)
      (tip_links : List String) (w t : StdMap String Double) (r : Robot),
      Robot.from_tip_links fuel m plt root_link tip_links w t = .ok r →
      ∀ name,
        ((∃ msg, Robot.get_joint r name = .error msg) ↔
          ¬ ∃ tip moveable, tip ∈ tip_links ∧
            Robot.chain_joint_names fuel r root_link tip false = .ok moveable ∧
            name ∈ moveable) ∧
        ((∃ tip moveable, tip ∈ tip_links ∧
            Robot.chain_joint_names fuel r root_link tip false = .ok moveable ∧
            name ∈ moveable) →
          ∃ q, Robot.get_joint r name = .ok q ∧ StdMap.find r.joint_map_ name = some q ∧
            q.get_input_num < Robot.get_number_of_joints r)) := by
  have hmain : ∀ (fuel : Nat) (chains : List (String × String)) (r0 r : Robot),
      r0.joint_map_ = [] → Robot.Inv r → Robot.init_chains fuel chains r0 = .ok r →
      ∀ name,
        ((∃ msg, Robot.get_joint r name = .error msg) ↔
          ¬ ∃ root tip moveable, (root, tip) ∈ chains ∧
            Robot.chain_joint_names fuel r root tip false = .ok moveable ∧ name ∈ moveable) ∧
        ((∃ root tip moveable, (root, tip) ∈ chains ∧
            Robot.chain_joint_names fuel r root tip false = .ok moveable ∧ name ∈ moveable) →
          ∃ q, Robot.get_joint r name = .ok q ∧ StdMap.find r.joint_map_ name = some q ∧
            q.get_input_num < Robot.get_number_of_joints r) := by
    intro fuel chains r0 r h0 hinv h name
    have hkeys := init_chains_joint_keys fuel chains r0 r h name
    rw [h0] at hkeys
    simp only [StdMap.find, ne_eq, not_true_eq_false, false_or] at hkeys
    unfold Robot.get_joint
    cases hq : StdMap.find r.joint_map_ name with
    | none =>
      rw [hq] at hkeys
      have hnot := fun hex => hkeys.2 hex rfl
      exact ⟨⟨fun _ => hnot, fun _ => ⟨_, rfl⟩⟩, fun hex => absurd hex hnot⟩
    | some q =>
      rw [hq] at hkeys
      have hex := hkeys.1 (by simp)
      refine ⟨⟨?_, fun hnot => absurd hex hnot⟩, fun _ => ⟨q, rfl, rfl, ?_⟩⟩
      · rintro ⟨msg, hmsg⟩
        cases hmsg
      · have hmem : q.input_num_ ∈ r.joint_map_.map fun e => e.2.input_num_ :=
          List.mem_map.2 ⟨(name, q), StdMap.mem_of_find _ _ _ hq, rfl⟩
        have hrange := hinv.joint_perm.mem_iff.1 hmem
        exact List.mem_range.1 hrange
  constructor
  · intro fuel m plt root_link chain_links w t r h
    exact hmain fuel chain_links _ r rfl (Constructed.inv r (Or.inr ⟨_, _, _, _, _, _, _, h⟩)) h
  · intro fuel m plt root_link tip_links w t r h name
    have hinv := Constructed.inv r (Or.inl ⟨_, _, _, _, _, _, _, h⟩)
    unfold Robot.from_tip_links at h
    rw [init_tips_eq_init_chains] at h
    have hm := hmain fuel _ _ r rfl hinv h name
    have hiff : (∃ root tip moveable, (root, tip) ∈ tip_links.map (fun tip => (root_link, tip)) ∧
          Robot.chain_joint_names fuel r root tip false = .ok moveable ∧ name ∈ moveable) ↔
        (∃ tip moveable, tip ∈ tip_links ∧
          Robot.chain_joint_names fuel r root_link tip false = .ok moveable ∧
          name ∈ moveable) := by
      constructor
      · rintro ⟨root, tip, mv, hmem, hmv, hn⟩
        obtain ⟨a, ha, heq⟩ := List.mem_map.1 hmem
        have hr : root_link = root := (Prod.mk.inj heq).1
        have ht : a = tip := (Prod.mk.inj heq).2
        exact ⟨a, mv, ha, by rw [hr, ht]; exact hmv, hn⟩
      · rintro ⟨tip, mv, hmem, hmv, hn⟩
        exact ⟨root_link, tip, mv, List.mem_map.2 ⟨tip, hmem, rfl⟩, hmv, hn⟩
    rw [hiff] at hm
    exact hm

theorem get_joint_registered_witness :
    Robot.from_tip_links 4 Example.model Example.parent_link_tree "base" ["l4"]
        Example.weights Example.thresholds = .ok Example.robot1 ∧
      Robot.chain_joint_names 4 Example.robot1 "base" "l4" false = .ok ["b", "a", "c"] ∧
      Robot.get_joint Example.robot1 "a" = .ok (input 1) ∧
      Robot.get_joint Example.robot1 "f" = .error "Could not find joint with name 'f'." ∧
      ∃ q, Robot.get_joint Example.robot1 "a" = .ok q ∧
        StdMap.find Example.robot1.joint_map_ "a" = some q ∧
        q.get_input_num < Robot.get_number_of_joints Example.robot1 :=
  ⟨by decide!, by decide!, by decide!, by decide!,
   ((get_joint_registered.2 4 Example.model Example.parent_link_tree "base" ["l4"]
      Example.weights Example.thresholds Example.robot1 (by decide!)) "a").2
     ⟨"l4", ["b", "a", "c"], by decide, by decide!, by decide⟩⟩

/-- C17: for a constructed robot `get_scope` returns the entries of `fk_map_` in
order, one for each distinct requested chain key `(root, tip)`, pairing the tip
name with the expression `get_fk_spec` returns for the chain; the keys, not the
tip names, are distinct: the chains `(base, l4)` and `(l1, l4)` give two entries
of name `l4`. -/
theorem get_scope_entries :
    (∀ (fuel : Nat) (m : Model) (plt : StdMap String String) (root_link : String)
      (chain_links : List (String × String)) (w t : StdMap String Double) (r : Robot),
      Robot.from_chain_links fuel m plt root_link chain_links w t = .ok r →
      (r.fk_map_.map Prod.fst).Perm chain_links.dedup ∧
      (Robot.get_scope r).length = chain_links.dedup.length ∧
      (∀ (i : Nat) (entry : ScopeEntry), (Robot.get_scope r)[i]? = some entry →
        ∃ root, (r.fk_map_.map Prod.fst)[i]? = some (root, entry.name) ∧
          (root, entry.name) ∈ chain_links ∧
          Robot.get_fk_spec r (root, entry.name) = .ok entry.spec) ∧
      (∀ root tip, (root, tip) ∈ chain_links →
        ∃ f, Robot.get_fk_spec r (root, tip) = .ok f ∧
          ScopeEntry.mk tip f ∈ Robot.get_scope r)) ∧
    (∃ r, Robot.from_chain_links 4 Example.model Example.parent_link_tree "base"
        [("base", "l4"), ("l1", "l4")] Example.weights Example.thresholds = .ok r ∧
      (Robot.get_scope r).map (·.name) = ["l4", "l4"]) := by
  constructor
  · intro fuel m plt root_link chain_links w t r h
    unfold Robot.from_chain_links at h
    obtain ⟨hnd0, hkeys0⟩ := init_chains_fk_keys fuel chain_links _ r h
    have hnd : (r.fk_map_.map Prod.fst).Nodup := hnd0 List.nodup_nil
    have hkeys : ∀ k, k ∈ r.fk_map_.map Prod.fst ↔ k ∈ chain_links := by
      intro k
      have hk := hkeys0 k
      simp only [Robot.initial, StdMap.find, ne_eq, not_true_eq_false, false_or] at hk
      rw [← hk, StdMap.find_eq_none_iff, not_not]
    have hperm : (r.fk_map_.map Prod.fst).Perm chain_links.dedup := by
      rw [List.perm_ext_iff_of_nodup hnd (List.nodup_dedup _)]
      intro k
      rw [hkeys k, List.mem_dedup]
    refine ⟨hperm, ?_, ?_, ?_⟩
    · have hlen := hperm.length_eq
      simpa [Robot.get_scope] using hlen
    · intro i entry hi
      unfold Robot.get_scope at hi
      rw [List.getElem?_map] at hi
      cases hget : r.fk_map_[i]? with
      | none => simp [hget] at hi
      | some e =>
        obtain ⟨⟨root, tip⟩, f⟩ := e
        simp only [hget, Option.map_some', Option.some.injEq] at hi
        subst hi
        have hmem : ((root, tip), f) ∈ r.fk_map_ := List.mem_iff_getElem?.2 ⟨i, hget⟩
        refine ⟨root, ?_, ?_, ?_⟩
        · rw [List.getElem?_map, hget]
          rfl
        · exact (hkeys (root, tip)).1 (List.mem_map.2 ⟨_, hmem, rfl⟩)
        · rw [get_fk_spec_eq_ok]
          exact StdMap.find_of_mem _ hnd _ _ hmem
    · intro root tip hmem
      have hin := (hkeys (root, tip)).2 hmem
      obtain ⟨⟨k, f⟩, he, hk⟩ := List.mem_map.1 hin
      simp only at hk
      subst hk
      refine ⟨f, ?_, ?_⟩
      · rw [get_fk_spec_eq_ok]
        exact StdMap.find_of_mem _ hnd _ _ he
      · unfold Robot.get_scope
        exact List.mem_map.2 ⟨_, he, rfl⟩
  · refine ⟨(Robot.from_chain_links 4 Example.model Example.parent_link_tree "base"
        [("base", "l4"), ("l1", "l4")] Example.weights Example.thresholds).getD Example.robot0,
      Outcome.eq_ok_getD _ _ (by decide!), by decide!⟩

theorem get_scope_entries_witness :
    Robot.from_chain_links 4 Example.model Example.parent_link_tree "base"
        [("base", "l4"), ("base", "l4")] Example.weights Example.thresholds
        = .ok Example.robot1 ∧
      Robot.get_scope Example.robot1 = [⟨"l4", Example.fk_l4⟩] ∧
      (Robot.get_scope Example.robot1).length
        = [("base", "l4"), ("base", "l4")].dedup.length :=
  ⟨by decide!, by decide!,
   (get_scope_entries.1 4 Example.model Example.parent_link_tree "base"
      [("base", "l4"), ("base", "l4")] Example.weights Example.thresholds Example.robot1
      (by decide!)).2.1⟩

/-! ### Continuous joints of a chain -/

theorem StdSet.set_place_perm (s : List String) (x : String) :
    (StdSet.place s x).Perm (x :: s) := by
  induction s with
  | nil => simp [StdSet.place]
  | cons y s ih =>
    simp only [StdSet.place]
    split_ifs
    · exact List.Perm.refl _
    · exact (List.Perm.cons _ ih).trans (List.Perm.swap _ _ _)

theorem StdSet.mem_insert (s : List String) (x y : String) :
    y ∈ StdSet.insert s x ↔ y ∈ s ∨ y = x := by
  unfold StdSet.insert
  split_ifs with h
  · constructor
    · exact fun hy => Or.inl hy
    · rintro (hy | rfl)
      · exact hy
      · exact h
  · rw [(StdSet.set_place_perm s x).mem_iff, List.mem_cons]
    tauto

theorem StdSet.nodup_insert (s : List String) (x : String) (h : s.Nodup) :
    (StdSet.insert s x).Nodup := by
  unfold StdSet.insert
  split_ifs with hx
  · exact h
  · rw [(StdSet.set_place_perm s x).nodup_iff]
    exact List.nodup_cons.2 ⟨hx, h⟩

theorem continuous_joints_names_loop_spec (r : Robot) (names : List String) :
    ∀ result : List String,
      (∀ n ∈ names, ∃ j, StdMap.find r.robot_model_.joints_ n = some (some j)) →
      result.Nodup →
      ∃ res, Robot.continuous_joints_names_loop r names result = .ok res ∧ res.Nodup ∧
        ∀ x, x ∈ res ↔ x ∈ result ∨
          (x ∈ names ∧
            ∃ j, StdMap.find r.robot_model_.joints_ x = some (some j) ∧
              j.type = JointType.CONTINUOUS) := by
  induction names with
  | nil =>
    intro result _ hnd
    exact ⟨result, rfl, hnd, fun x => by simp⟩
  | cons n ns ih =>
    intro result hjoints hnd
    obtain ⟨j, hj⟩ := hjoints n (List.mem_cons_self _ _)
    have hrest : ∀ m ∈ ns, ∃ j, StdMap.find r.robot_model_.joints_ m = some (some j) :=
      fun m hm => hjoints m (List.mem_cons_of_mem _ hm)
    simp only [Robot.continuous_joints_names_loop, hj]
    by_cases hc : j.type = JointType.CONTINUOUS
    · simp only [hc, if_true]
      obtain ⟨res, hres, hnd', hmem⟩ := ih (StdSet.insert result n) hrest
        (StdSet.nodup_insert result n hnd)
      refine ⟨res, hres, hnd', fun x => ?_⟩
      rw [hmem x, StdSet.mem_insert, List.mem_cons]
      constructor
      · rintro ((hx | rfl) | ⟨hx, hjx⟩)
        · exact Or.inl hx
        · exact Or.inr ⟨Or.inl rfl, j, hj, hc⟩
        · exact Or.inr ⟨Or.inr hx, hjx⟩
      · rintro (hx | ⟨rfl | hx, hjx⟩)
        · exact Or.inl (Or.inl hx)
        · exact Or.inl (Or.inr rfl)
        · exact Or.inr ⟨hx, hjx⟩
    · simp only [hc, if_false]
      obtain ⟨res, hres, hnd', hmem⟩ := ih result hrest hnd
      refine ⟨res, hres, hnd', fun x => ?_⟩
      rw [hmem x, List.mem_cons]
      constructor
      · rintro (hx | ⟨hx, hjx⟩)
        · exact Or.inl hx
        · exact Or.inr ⟨Or.inr hx, hjx⟩
      · rintro (hx | ⟨rfl | hx, j', hj', hc'⟩)
        · exact Or.inl hx
        · rw [hj] at hj'
          cases hj'
          exact absurd hc' hc
        · exact Or.inr ⟨hx, j', hj', hc'⟩

/-- The joints of a walk are parent joints of links of the tree. -/
theorem IsWalk.parent_joints (r : Robot) (root : String) :
    ∀ (joints : List Joint) (current : String), IsWalk r root current joints →
      ∀ j ∈ joints, ∃ link_name link,
        StdMap.find r.robot_model_.links_ link_name = some (some link) ∧
        link.parent_joint = some j := by
  intro joints
  induction joints with
  | nil => intro current _ j hj; simp at hj
  | cons j0 js ih =>
    intro current hw j hj
    obtain ⟨_, link, parent, hl, hp, _, hrest⟩ := hw
    rcases List.mem_cons.1 hj with rfl | hj
    · exact ⟨current, link, hl, hp⟩
    · exact ih parent hrest j hj

/-- C18: when each link's parent joint is recorded in the joint table under its
own name and chain resolution succeeds, `continuous_joints_names(root, tip)`
returns a set, without duplicates, whose elements are exactly the names of
`chain_joint_names(root, tip, true)` whose joint is of type CONTINUOUS. -/
theorem continuous_joints_names_exact (r : Robot)
    (hrec : r.robot_model_.parentJointsRecorded) (fuel : Nat) (root tip : String)
    (all : List String) (hall : Robot.chain_joint_names fuel r root tip true = .ok all) :
    ∃ result, Robot.continuous_joints_names fuel r root tip = .ok result ∧ result.Nodup ∧
      ∀ name, name ∈ result ↔
        (name ∈ all ∧
          ∃ joint, StdMap.find r.robot_model_.joints_ name = some (some joint) ∧
            joint.type = JointType.CONTINUOUS) := by
  obtain ⟨js, hw, hlen⟩ := walk_of_chain_joint_names r root tip fuel true all hall
  have hmv := chain_joint_names_of_walk r root tip js fuel false hw hlen
  have hall' := chain_joint_names_of_walk r root tip js fuel true hw hlen
  rw [hall] at hall'
  have halleq := Outcome.ok.inj hall'
  have hrecorded : ∀ j ∈ js, StdMap.find r.robot_model_.joints_ j.name = some (some j) := by
    intro j hj
    obtain ⟨link_name, link, hl, hp⟩ := IsWalk.parent_joints r root js tip hw j hj
    exact hrec link_name link j hl hp
  have hjoints : ∀ n ∈ (js.reverse.filter fun j => false || decide (j.type ≠ JointType.FIXED)).map
      (·.name), ∃ j, StdMap.find r.robot_model_.joints_ n = some (some j) := by
    intro n hn
    obtain ⟨j, hj, rfl⟩ := List.mem_map.1 hn
    exact ⟨j, hrecorded j (List.mem_reverse.1 (List.mem_filter.1 hj).1)⟩
  obtain ⟨res, hres, hnd, hmem⟩ := continuous_joints_names_loop_spec r _ [] hjoints List.nodup_nil
  refine ⟨res, ?_, hnd, fun name => ?_⟩
  · unfold Robot.continuous_joints_names
    rw [hmv]
    exact hres
  · rw [hmem name, halleq]
    simp only [List.not_mem_nil, false_or]
    constructor
    · rintro ⟨hn, hj⟩
      refine ⟨?_, hj⟩
      obtain ⟨j, hjmem, rfl⟩ := List.mem_map.1 hn
      exact List.mem_map.2 ⟨j, List.mem_filter.2 ⟨(List.mem_filter.1 hjmem).1, by simp⟩, rfl⟩
    · rintro ⟨hn, j', hj', hc⟩
      refine ⟨?_, j', hj', hc⟩
      obtain ⟨j, hjmem, rfl⟩ := List.mem_map.1 hn
      have hjs : j ∈ js := List.mem_reverse.1 (List.mem_filter.1 hjmem).1
      have hsame := hrecorded j hjs
      rw [hj'] at hsame
      cases hsame
      refine List.mem_map.2 ⟨j', List.mem_filter.2 ⟨List.mem_reverse.2 hjs, ?_⟩, rfl⟩
      simp [hc]

theorem Example.model_recorded : Example.model.parentJointsRecorded := by
  intro link_name link joint hl hp
  simp only [Example.model, StdMap.find] at hl
  split_ifs at hl <;> cases hl <;> cases hp <;> decide!

theorem continuous_joints_names_exact_witness :
    Example.robot0.robot_model_.parentJointsRecorded ∧
      Robot.chain_joint_names 4 Example.robot0 "base" "l4" true = .ok ["b", "a", "f", "c"] ∧
      Robot.continuous_joints_names 4 Example.robot0 "base" "l4" = .ok ["c"] ∧
      ∃ result, Robot.continuous_joints_names 4 Example.robot0 "base" "l4" = .ok result ∧
        result.Nodup ∧
        ∀ name, name ∈ result ↔
          (name ∈ ["b", "a", "f", "c"] ∧
            ∃ joint, StdMap.find Example.robot0.robot_model_.joints_ name = some (some joint) ∧
              joint.type = JointType.CONTINUOUS) :=
  ⟨Example.model_recorded, by decide, by decide,
   continuous_joints_names_exact Example.robot0 Example.model_recorded 4 "base" "l4"
     ["b", "a", "f", "c"] (by decide)⟩

/-! ### Shared joint variables -/

theorem FrameSpec.inputsList_append (a b : List FrameSpec) :
    FrameSpec.inputsList (a ++ b) = FrameSpec.inputsList a ++ FrameSpec.inputsList b := by
  induction a with
  | nil => simp [FrameSpec.inputsList]
  | cons x xs ih => simp [FrameSpec.inputsList, ih]

theorem to_frame_spec_inputs (pose : Pose) : (to_frame_spec pose).inputs = [] := by
  simp [to_frame_spec, frame_constructor_spec, to_vector_spec, vector_constructor_spec,
    double_const_spec, to_quaternion_spec, quaternion_spec, FrameSpec.inputs,
    VectorSpec.inputs, RotationSpec.inputs, DoubleSpec.inputs]

theorem frame_constructor_spec_default_inputs : frame_constructor_spec_default.inputs = [] := by
  simp [frame_constructor_spec_default, frame_constructor_spec, vector_constructor_spec_default,
    vector_constructor_spec, double_const_spec, quaternion_spec, FrameSpec.inputs,
    VectorSpec.inputs, RotationSpec.inputs, DoubleSpec.inputs]

theorem translation_frame_inputs (axis : Vector3) (q : DoubleInputSpec) :
    (frame_constructor_spec (vector_double_mul (to_vector_spec axis) (.input q))
      (quaternion_spec 0 0 0 1)).inputs = [q] := by
  simp [frame_constructor_spec, vector_double_mul, to_vector_spec, vector_constructor_spec,
    double_const_spec, quaternion_spec, FrameSpec.inputs, VectorSpec.inputs,
    RotationSpec.inputs, DoubleSpec.inputs]

theorem rotation_frame_inputs (axis : Vector3) (q : DoubleInputSpec) :
    (frame_constructor_spec vector_constructor_spec_default
      (axis_angle_spec (to_vector_spec axis) (.input q))).inputs = [q] := by
  simp [frame_constructor_spec, vector_constructor_spec_default, axis_angle_spec,
    to_vector_spec, vector_constructor_spec, double_const_spec, FrameSpec.inputs,
    VectorSpec.inputs, RotationSpec.inputs, DoubleSpec.inputs]

theorem FrameSpec.inputsList_cons (x : FrameSpec) (xs : List FrameSpec) :
    FrameSpec.inputsList (x :: xs) = x.inputs ++ FrameSpec.inputsList xs := by
  simp [FrameSpec.inputsList]

theorem FrameSpec.inputsList_nil : FrameSpec.inputsList [] = [] := by
  simp [FrameSpec.inputsList]

theorem cached_frame_inputs (ts : List FrameSpec) :
    (cached_frame (frame_multiplication_spec ts)).inputs = FrameSpec.inputsList ts := by
  simp [cached_frame, frame_multiplication_spec, FrameSpec.inputs]

/-- The transforms of a joint hold the joint's variable once, none for a FIXED
joint. -/
theorem joint_transforms_inputs (r : Robot) (joint : Joint) (frames : List FrameSpec)
    (h : IsJointTransforms r joint frames) :
    (joint.type = JointType.FIXED ∧ FrameSpec.inputsList frames = []) ∨
    (joint.type ≠ JointType.FIXED ∧
      ∃ q, Robot.get_joint r joint.name = .ok q ∧ FrameSpec.inputsList frames = [q]) := by
  rcases h with ⟨ht, hfs⟩ | ⟨ht, q, hq, hfs⟩ | ⟨ht, q, hq, hfs⟩
  · left
    refine ⟨ht, ?_⟩
    rw [hfs, FrameSpec.inputsList_cons, FrameSpec.inputsList_nil, to_frame_spec_inputs]
    rfl
  · right
    refine ⟨by rw [ht]; decide, q, hq, ?_⟩
    rw [hfs, FrameSpec.inputsList_cons, FrameSpec.inputsList_cons, FrameSpec.inputsList_nil,
      to_frame_spec_inputs, translation_frame_inputs]
    rfl
  · right
    refine ⟨by rcases ht with ht | ht <;> rw [ht] <;> decide, q, hq, ?_⟩
    rw [hfs, FrameSpec.inputsList_cons, FrameSpec.inputsList_cons, FrameSpec.inputsList_nil,
      to_frame_spec_inputs, rotation_frame_inputs]
    rfl

theorem joint_transforms_inputs_list (r : Robot) (joints : List Joint)
    (factors : List (List FrameSpec)) (h : List.Forall₂ (IsJointTransforms r) joints factors) :
    List.Forall₂ (fun joint q => Robot.get_joint r joint.name = .ok q)
      (joints.filter fun j => j.type ≠ JointType.FIXED)
      (FrameSpec.inputsList factors.flatten) := by
  induction h with
  | nil => simp [FrameSpec.inputsList]
  | @cons j fs js fss hj _ ih =>
    rw [List.flatten_cons, FrameSpec.inputsList_append, List.filter_cons]
    rcases joint_transforms_inputs r j fs hj with ⟨ht, hin⟩ | ⟨ht, q, hq, hin⟩
    · rw [hin]
      simp only [ht, ne_eq, not_true_eq_false, decide_False, Bool.false_eq_true, if_false,
        List.nil_append]
      exact ih
    · rw [hin]
      simp only [ne_eq, ht, not_false_eq_true, decide_True, if_true, List.singleton_append]
      exact List.Forall₂.cons hq ih

/-- The input variables of the forward-kinematics entry of a chain. -/
theorem fk_entry_inputs (r : Robot) (hbuilt : Robot.FkBuilt r) (root tip : String)
    (f : FrameSpec) (hf : StdMap.find r.fk_map_ (root, tip) = some f) :
    ∃ fuel names joints,
      Robot.chain_joint_names fuel r root tip true = .ok names ∧
      List.Forall₂ (fun name joint =>
        StdMap.find r.robot_model_.joints_ name = some (some joint)) names joints ∧
      List.Forall₂ (fun joint q => Robot.get_joint r joint.name = .ok q)
        (joints.filter fun j => j.type ≠ JointType.FIXED) f.inputs := by
  obtain ⟨fuel, all, ts, hall, hts, hfeq⟩ := hbuilt root tip f hf
  obtain ⟨joints, factors, hjs, hfs, htseq⟩ := init_joint_transforms_factors r all _ ts hts
  refine ⟨fuel, all, joints, hall, hjs, ?_⟩
  have hin : f.inputs = FrameSpec.inputsList factors.flatten := by
    rw [hfeq, htseq, cached_frame_inputs, FrameSpec.inputsList_append,
      FrameSpec.inputsList_cons, FrameSpec.inputsList_nil,
      frame_constructor_spec_default_inputs]
    rfl
  rw [hin]
  exact joint_transforms_inputs_list r joints factors hfs

theorem forall₂_mem_left {α β : Type} (R : α → β → Prop) (l1 : List α) (l2 : List β)
    (h : List.Forall₂ R l1 l2) : ∀ a ∈ l1, ∃ b ∈ l2, R a b := by
  induction h with
  | nil => intro a ha; simp at ha
  | @cons a b l1 l2 hab _ ih =>
    intro x hx
    rcases List.mem_cons.1 hx with rfl | hx
    · exact ⟨b, List.mem_cons_self _ _, hab⟩
    · obtain ⟨y, hy, hxy⟩ := ih x hx
      exact ⟨y, List.mem_cons_of_mem _ hy, hxy⟩

theorem forall₂_right_unique {α β : Type} (R : α → β → Prop)
    (hR : ∀ a b c, R a b → R a c → b = c) :
    ∀ (l : List α) (l1 l2 : List β), List.Forall₂ R l l1 → List.Forall₂ R l l2 → l1 = l2 := by
  intro l
  induction l with
  | nil =>
    intro l1 l2 h1 h2
    cases h1
    cases h2
    rfl
  | cons a l ih =>
    intro l1 l2 h1 h2
    cases h1 with
    | cons hab1 hrest1 =>
      cases h2 with
      | cons hab2 hrest2 =>
        rw [hR _ _ _ hab1 hab2, ih _ _ hrest1 hrest2]

/-- C19: in a constructed robot the input variables occurring in the
forward-kinematics expression of a chain are the registry variables of the
non-fixed joints of the chain, one for each such joint in root-to-tip order. So
a non-fixed joint on two chains occurs in both expressions with the variable
`get_joint` returns for it, and the controllable and the hard constraint stored
under its name carry the same input index. -/
theorem fk_entries_share_inputs (r : Robot) (hr : Robot.Constructed r) :
    (∀ root tip f, Robot.get_fk_spec r (root, tip) = .ok f →
      ∃ fuel names joints,
        Robot.chain_joint_names fuel r root tip true = .ok names ∧
        List.Forall₂ (fun name joint =>
          StdMap.find r.robot_model_.joints_ name = some (some joint)) names joints ∧
        List.Forall₂ (fun joint q => Robot.get_joint r joint.name = .ok q)
          (joints.filter fun j => j.type ≠ JointType.FIXED) f.inputs) ∧
    (∀ (joint : Joint) (q : DoubleInputSpec), Robot.get_joint r joint.name = .ok q →
      (∃ c, StdMap.find r.controllable_map_ joint.name = some c ∧
        c.input_number_ = q.get_input_num) ∧
      (∀ c, StdMap.find r.hard_map_ joint.name = some c → c.expression_ = .input q)) ∧
    (∀ root1 tip1 f1 root2 tip2 f2 fuel names1 names2 joints1 joints2 (joint : Joint),
      Robot.get_fk_spec r (root1, tip1) = .ok f1 →
      Robot.get_fk_spec r (root2, tip2) = .ok f2 →
      Robot.chain_joint_names fuel r root1 tip1 true = .ok names1 →
      Robot.chain_joint_names fuel r root2 tip2 true = .ok names2 →
      List.Forall₂ (fun name joint =>
        StdMap.find r.robot_model_.joints_ name = some (some joint)) names1 joints1 →
      List.Forall₂ (fun name joint =>
        StdMap.find r.robot_model_.joints_ name = some (some joint)) names2 joints2 →
      joint ∈ joints1 → joint ∈ joints2 → joint.type ≠ JointType.FIXED →
      ∃ q, Robot.get_joint r joint.name = .ok q ∧ q ∈ f1.inputs ∧ q ∈ f2.inputs) := by
  have hinv := Constructed.inv r hr
  have hbuilt := Constructed.fk_built r hr
  refine ⟨?_, ?_, ?_⟩
  · intro root tip f hf
    rw [get_fk_spec_eq_ok] at hf
    exact fk_entry_inputs r hbuilt root tip f hf
  · intro joint q hq
    constructor
    · have hsome : StdMap.find r.joint_map_ joint.name ≠ none := by
        rw [(get_joint_eq_ok r joint.name q).1 hq]
        simp
      cases hc : StdMap.find r.controllable_map_ joint.name with
      | none => exact absurd hc (hinv.controllable_complete joint.name hsome)
      | some c =>
        obtain ⟨q', w, v, hq', _, _, hceq⟩ := hinv.controllable_sound joint.name c hc
        rw [hq] at hq'
        cases hq'
        exact ⟨c, rfl, by rw [hceq]⟩
    · intro c hc
      obtain ⟨q', j, limits, hq', _, _, _, hceq⟩ := hinv.hard_sound joint.name c hc
      rw [hq] at hq'
      cases hq'
      rw [hceq]
  · intro root1 tip1 f1 root2 tip2 f2 fuel names1 names2 joints1 joints2 joint
      hf1 hf2 hn1 hn2 hj1 hj2 hmem1 hmem2 hfixed
    rw [get_fk_spec_eq_ok] at hf1 hf2
    have hshare : ∀ root tip f names joints,
        StdMap.find r.fk_map_ (root, tip) = some f →
        Robot.chain_joint_names fuel r root tip true = .ok names →
        List.Forall₂ (fun name joint =>
          StdMap.find r.robot_model_.joints_ name = some (some joint)) names joints →
        joint ∈ joints → ∃ q ∈ f.inputs, Robot.get_joint r joint.name = .ok q := by
      intro root tip f names joints hf hn hj hmem
      obtain ⟨fuel', names', joints', hn', hj', hin⟩ := fk_entry_inputs r hbuilt root tip f hf
      have hnames : names' = names := by
        have h1 := chain_joint_names_fuel_mono fuel (max fuel fuel') (le_max_left _ _) r root
          tip true names hn
        have h2 := chain_joint_names_fuel_mono fuel' (max fuel fuel') (le_max_right _ _) r root
          tip true names' hn'
        rw [h1] at h2
        exact (Outcome.ok.inj h2).symm
      subst hnames
      have hjoints : joints' = joints := by
        refine forall₂_right_unique _ ?_ _ _ _ hj' hj
        intro a b c hb hc
        rw [hb] at hc
        exact Option.some.inj (Option.some.inj hc)
      subst hjoints
      have hmemf : joint ∈ joints'.filter fun j => j.type ≠ JointType.FIXED :=
        List.mem_filter.2 ⟨hmem, by simpa using hfixed⟩
      exact forall₂_mem_left _ _ _ hin joint hmemf
    obtain ⟨q1, hq1mem, hq1⟩ := hshare root1 tip1 f1 names1 joints1 hf1 hn1 hj1 hmem1
    obtain ⟨q2, hq2mem, hq2⟩ := hshare root2 tip2 f2 names2 joints2 hf2 hn2 hj2 hmem2
    rw [hq1] at hq2
    cases hq2
    exact ⟨q1, hq1, hq1mem, hq2mem⟩

theorem Example.robot2_constructed : Robot.Constructed Example.robot2 :=
  Or.inl ⟨4, Example.model, Example.parent_link_tree, "base", ["l2", "l4"], Example.weights,
    Example.thresholds, Outcome.eq_ok_getD _ _ (by decide!)⟩

theorem fk_entries_share_inputs_witness :
    Robot.Constructed Example.robot2 ∧
      Robot.get_fk_spec Example.robot2 ("base", "l2") = .ok Example.fk_l2 ∧
      Robot.get_fk_spec Example.robot2 ("base", "l4") = .ok Example.fk_l4 ∧
      Example.fk_l2.inputs = [input 0, input 1] ∧
      Example.fk_l4.inputs = [input 0, input 1, input 2] ∧
      ∃ q, Robot.get_joint Example.robot2 Example.joint_b.name = .ok q ∧
        q ∈ Example.fk_l2.inputs ∧ q ∈ Example.fk_l4.inputs :=
  ⟨Example.robot2_constructed, by decide!, by decide!, by decide!, by decide!,
   (fk_entries_share_inputs Example.robot2 Example.robot2_constructed).2.2
     "base" "l2" Example.fk_l2 "base" "l4" Example.fk_l4 4 ["b", "a"] ["b", "a", "f", "c"]
     [Example.joint_b, Example.joint_a]
     [Example.joint_b, Example.joint_a, Example.joint_f, Example.joint_c] Example.joint_b
     (by decide!) (by decide!) (by decide!) (by decide!)
     (List.Forall₂.cons (by decide!) (List.Forall₂.cons (by decide!) List.Forall₂.nil))
     (List.Forall₂.cons (by decide!) (List.Forall₂.cons (by decide!)
       (List.Forall₂.cons (by decide!) (List.Forall₂.cons (by decide!) List.Forall₂.nil))))
     (by decide!) (by decide!) (by decide)⟩

/-! ### The chain from a link to itself -/

theorem chain_joint_names_self (fuel : Nat) (r : Robot) (x : String) (b : Bool) :
    Robot.chain_joint_names fuel r x x b = .ok [] := by
  unfold Robot.chain_joint_names
  cases fuel <;> simp [Robot.chain_joint_names_loop]

/-- C20: for every name `x`, known to the tree or not, and with any fuel,
`chain_joint_names(x, x, includeFixed)` returns the empty sequence for every
tree. So `init_kinematic_chain(x, x)` succeeds in every state, leaves the
registry and both constraint maps as they are and inserts, under the key
`(x, x)`, the cached product of the single identity frame; a constructor
requesting only this chain returns a robot with this one entry, and in every
constructed robot the entry of a key `(x, x)` is that expression. -/
theorem chain_of_a_link_to_itself :
    (∀ (fuel : Nat) (r : Robot) (x : String) (b : Bool),
      Robot.chain_joint_names fuel r x x b = .ok []) ∧
    (∀ (fuel : Nat) (r : Robot) (x : String),
      Robot.init_kinematic_chain fuel r x x
        = .ok { r with fk_map_ := StdMap.insert r.fk_map_ (x, x) identity_fk }) ∧
    (∀ (fuel : Nat) (m : Model) (plt : StdMap String String) (root_link : String)
      (w t : StdMap String Double) (x : String),
      Robot.from_chain_links fuel m plt root_link [(x, x)] w t
        = .ok { Robot.initial m plt root_link w t with fk_map_ := [((x, x), identity_fk)] }) ∧
    (∀ (r : Robot), Robot.Constructed r → ∀ (x : String) (f : FrameSpec),
      Robot.get_fk_spec r (x, x) = .ok f → f = identity_fk) := by
  have hinit : ∀ (fuel : Nat) (r : Robot) (x : String),
      Robot.init_kinematic_chain fuel r x x
        = .ok { r with fk_map_ := StdMap.insert r.fk_map_ (x, x) identity_fk } := by
    intro fuel r x
    unfold Robot.init_kinematic_chain
    rw [chain_joint_names_self, chain_joint_names_self]
    rfl
  refine ⟨chain_joint_names_self, hinit, ?_, ?_⟩
  · intro fuel m plt root_link w t x
    unfold Robot.from_chain_links
    simp only [Robot.init_chains, hinit, Outcome.bind]
    rfl
  · intro r hr x f hf
    rw [get_fk_spec_eq_ok] at hf
    obtain ⟨fuel, all, ts, hall, hts, hfeq⟩ := Constructed.fk_built r hr x x f hf
    rw [chain_joint_names_self] at hall
    cases hall
    simp only [Robot.init_joint_transforms, Outcome.ok.injEq] at hts
    rw [hfeq, ← hts]
    rfl

theorem chain_of_a_link_to_itself_witness :
    StdMap.find Example.robot1.robot_model_.links_ "nolink" = none ∧
      Robot.chain_joint_names 0 Example.robot1 "nolink" "nolink" false = .ok [] ∧
      (∃ r, Robot.init_kinematic_chain 0 Example.robot1 "nolink" "nolink" = .ok r ∧
        r.joint_map_ = Example.robot1.joint_map_ ∧
        r.controllable_map_ = Example.robot1.controllable_map_ ∧
        r.hard_map_ = Example.robot1.hard_map_ ∧
        Robot.get_fk_spec r ("nolink", "nolink") = .ok identity_fk) ∧
      ∀ (x : String) (f : FrameSpec),
        Robot.get_fk_spec Example.robot1 (x, x) = .ok f → f = identity_fk :=
  ⟨by decide!, by decide!,
   ⟨_, chain_of_a_link_to_itself.2.1 0 Example.robot1 "nolink", rfl, rfl, rfl, by decide!⟩,
   chain_of_a_link_to_itself.2.2.2 Example.robot1 Example.robot1_constructed⟩

end giskard_core
